import Mathlib

/-!
Shallow embedding of the procedural map generator of Remere's Map Editor
(source files src/source/map_generator.{h,cpp} and src/source/simplex_noise.{h,cpp}),
together with theorems settling the frozen claims about it.

Modelling conventions:

* Machine integers (`int`, `uint16_t`, `size_t`) are modelled as `ℤ` and `ℕ`;
  none of the modelled computations can overflow on the inputs the theorems use.
* `double` quantities that feed exact integer comparisons are modelled as `ℚ`
  where the surrounding logic is exact, and as `ℝ` where the source computes
  with `sqrt`/`pow` (the island mask).  The simplex-noise evaluation itself is
  pure floating-point numerics; it is abstracted as an oracle function keyed by
  the 32-bit noise seed (`hm`/`noiseAt` parameters below), which is faithful to
  the source because the C++ noise object is a deterministic function of its
  construction seed.
* The host map (class `Map`, external to the generator) is modelled as a partial
  function from positions to tiles, with the exact access pattern the generator
  uses: `getTile`, create-on-demand, `setTile`, a single replaceable ground item
  and a list of stacked items.
* `std::mt19937` draws are abstracted as a state-transition oracle
  `rngNext : ℕ → ℕ × ℕ`; `std::uniform_int_distribution<>(a,b)` applied to it is
  modelled as `a + draw % (b - a + 1)` (the concrete mapping is
  implementation-defined in C++; every theorem below only uses that the result
  lies in `[a, b]`, which holds for every conforming implementation).
* Loops are realised by structural recursion with explicit fuel where the C++
  uses `while`; every theorem that inspects a loop result proves (or evaluates)
  that the supplied fuel is not exhausted.
-/

set_option linter.unusedVariables false

namespace MapGen

/-- Item/tile type identifier (`uint16_t` in the source). -/
abbrev ItemId := ℕ

/-- A map position `(x, y, z)`. -/
abbrev Pos := ℤ × ℤ × ℤ

/-- Model of a host-map tile: at most one ground item (by id) plus stacked items.
`ground` models `Tile::ground`, `items` the stacked item list `addItem` appends to. -/
structure TileM where
  ground : Option ItemId := none
  items : List ItemId := []
deriving DecidableEq, Repr

/-- The host map: a partial assignment of tiles to positions.  `none` = no tile
allocated there. -/
def MapM : Type := Pos → Option TileM

instance : Inhabited MapM := ⟨fun _ => none⟩

/-- `Map::getTile`. -/
def MapM.getTile (m : MapM) (p : Pos) : Option TileM := m p

/-- `Map::setTile` (also covers the allocate-then-`setTile` pattern). -/
def MapM.setTile (m : MapM) (p : Pos) (t : TileM) : MapM :=
  fun q => if q = p then some t else m q

/-- A freshly-initialized (empty) host map. -/
def emptyMap : MapM := fun _ => none

/-- The progress callback `(current, total) → continue?`. -/
abbrev Callback := ℤ → ℤ → Bool

/-- One recorded invocation of the progress callback: arguments and response. -/
structure ProgressCall where
  current : ℤ
  total : ℤ
  response : Bool
deriving DecidableEq, Repr

/-- `IslandConfig` (map_generator.h).  Field defaults follow the header. -/
structure IslandConfig where
  noise_scale : ℚ := 1 / 100
  noise_octaves : ℤ := 4
  noise_persistence : ℚ := 1 / 2
  noise_lacunarity : ℚ := 2
  island_size : ℚ := 4 / 5
  island_falloff : ℚ := 2
  island_threshold : ℚ := 3 / 10
  water_id : ItemId := 4608
  ground_id : ItemId := 4526
  enable_cleanup : Bool := true
  min_land_patch_size : ℤ := 4
  max_water_hole_size : ℤ := 3
  smoothing_passes : ℤ := 2
  target_floor : ℤ := 7

/-- `DungeonConfig` (map_generator.h).  Field defaults follow the header. -/
structure DungeonConfig where
  target_floor : ℤ := 7
  wall_id : ItemId := 1030
  floor_id : ItemId := 406
  room_count : ℤ := 15
  min_room_size : ℤ := 5
  max_room_size : ℤ := 12
  corridor_width : ℤ := 2
  generate_caves : Bool := true
  cave_scale : ℚ := 5 / 100
  cave_threshold : ℚ := 4 / 10
  enable_cleanup : Bool := true
  connect_all_rooms : Bool := true
  add_dead_ends : Bool := true
  use_smart_pathfinding : Bool := true
  add_intersections : Bool := true
  intersection_count : ℤ := 5
  intersection_size : ℤ := 2

/-- Generator object state owned by one `MapGenerator`: the noise generator is
represented by its construction seed, the `std::mt19937` by an abstract state. -/
structure GenState where
  noiseSeed : ℕ
  rngState : ℕ
deriving DecidableEq, Repr

/-- `MapGenerator::seedRandom`: parse the seed string as a number, falling back
to a string hash (`std::hash`, abstracted as the `hasher` oracle); the low 32
bits seed the noise permutation, the xor of the two halves seeds the RNG.
`std::stoull` is modelled for plain base-10 digit strings (`String.toNat?`);
other strings take the hash fallback, as non-numeric strings do in the source. -/
def seedRandomM (hasher : String → ℕ) (seed : String) : GenState :=
  let numericSeed : ℕ :=
    match seed.toNat? with
    | some v => if v ≤ 2 ^ 64 - 1 then v else hasher seed % 2 ^ 64
    | none => hasher seed % 2 ^ 64
  { noiseSeed := numericSeed % 2 ^ 32,
    rngState := ((numericSeed / 2 ^ 32) ^^^ (numericSeed % 2 ^ 32)) % 2 ^ 32 }

/-- `std::uniform_int_distribution<>(a, b)(rng)`: one abstract RNG draw reduced
into `[a, b]`.  (`b < a` is undefined behaviour in C++; the model returns `a`,
and no theorem relies on that case.) -/
def uniformIntM (rngNext : ℕ → ℕ × ℕ) (a b : ℤ) (st : ℕ) : ℤ × ℕ :=
  let r := rngNext st
  (if a ≤ b then a + (r.1 : ℤ) % (b - a + 1) else a, r.2)

/-- Row-major cell list of the `for (y) for (x)` double loops over a
`width × height` rectangle. -/
def cellList (width height : ℤ) : List (ℤ × ℤ) :=
  (List.range height.toNat).flatMap fun y =>
    (List.range width.toNat).map fun x => ((x : ℤ), (y : ℤ))

/-- The 4-neighbourhood offsets, in the order of the source's `dx`/`dy` arrays. -/
def dirs4 : List (ℤ × ℤ) := [(-1, 0), (1, 0), (0, -1), (0, 1)]

/-- The 8-neighbourhood offsets, in the order of the source's `dx`/`dy` arrays. -/
def dirs8 : List (ℤ × ℤ) :=
  [(-1, 0), (1, 0), (0, -1), (0, 1), (-1, -1), (-1, 1), (1, -1), (1, 1)]

/-- Ground id of the tile at `p`, `none` when there is no tile or no ground
(the source treats both alike: `!tile || !tile->ground`). -/
def groundIdAt (m : MapM) (p : Pos) : Option ItemId :=
  match m.getTile p with
  | none => none
  | some t => t.ground

/-- Intermediate result of a map-writing step together with the recorded
progress-callback invocations it made. -/
structure StepOut where
  map : MapM
  trace : List ProgressCall

/-- Body of `MapGenerator::placeTiles`: classify each cell of the (masked)
height field against the normalized threshold, install the resulting ground id
(fetch-or-create the tile, clear old ground, set new ground, `setTile` back),
and every 1000 tiles report progress, aborting this subroutine (only) when the
callback returns false.  `hm x y` is the masked height at column `x`, row `y`.
The `static_cast<int>` of the progress fraction is `Int.floor` (the value is
nonnegative). -/
def placeTilesGo (cb : Callback) (hm : ℤ → ℤ → ℚ) (cfg : IslandConfig)
    (width height offsetX offsetY : ℤ) :
    List (ℤ × ℤ) → MapM → ℕ → List ProgressCall → StepOut
  | [], m, _, tr => ⟨m, tr⟩
  | (x, y) :: rest, m, placed, tr =>
    let normalizedThreshold : ℚ := (cfg.island_threshold + 1) / 2
    let tileId : ItemId := if hm x y < normalizedThreshold then cfg.water_id else cfg.ground_id
    let pos : Pos := (x + offsetX, y + offsetY, cfg.target_floor)
    let t0 : TileM :=
      match m.getTile pos with
      | some t => t
      | none => {}
    let m2 := m.setTile pos { t0 with ground := some tileId }
    let placed2 := placed + 1
    if placed2 % 1000 = 0 then
      let progress : ℤ := 40 + ⌊((placed2 : ℚ) / ((width * height : ℤ) : ℚ)) * 30⌋
      let ok := cb progress 100
      let tr2 := tr ++ [⟨progress, 100, ok⟩]
      if ok then placeTilesGo cb hm cfg width height offsetX offsetY rest m2 placed2 tr2
      else ⟨m2, tr2⟩
    else placeTilesGo cb hm cfg width height offsetX offsetY rest m2 placed2 tr

/-- `MapGenerator::placeTiles` over the whole rectangle. -/
def placeTiles (cb : Callback) (hm : ℤ → ℤ → ℚ) (cfg : IslandConfig)
    (width height offsetX offsetY : ℤ) (m : MapM) : StepOut :=
  placeTilesGo cb hm cfg width height offsetX offsetY (cellList width height) m 0 []

/-- The hardcoded replacement id of `MapGenerator::removeSmallPatches`
(`tile_id == 4608 ? 4526 : 4608`, source line 413). -/
def oppositeId (tile_id : ItemId) : ItemId := if tile_id = 4608 then 4526 else 4608

/-- The neighbour-examination step shared by the BFS loops of
`floodFillCount` and the visited-marking BFS of `removeSmallPatches`: bounds
check, skip-if-visited, then enqueue-and-mark when the live map holds the
target ground id. -/
def bfsStep (target : ItemId) (width height offsetX offsetY z : ℤ) (m : MapM)
    (c : ℤ × ℤ) (acc : List (ℤ × ℤ) × Finset (ℤ × ℤ)) (d : ℤ × ℤ) :
    List (ℤ × ℤ) × Finset (ℤ × ℤ) :=
  let nx := c.1 + d.1
  let ny := c.2 + d.2
  if 0 ≤ nx ∧ nx < width ∧ 0 ≤ ny ∧ ny < height then
    if (nx, ny) ∈ acc.2 then acc
    else
      match groundIdAt m (nx + offsetX, ny + offsetY, z) with
      | some gid =>
        if gid = target then (acc.1 ++ [(nx, ny)], insert (nx, ny) acc.2) else acc
      | none => acc
  else acc

/-- The in-place ground replacement of a dequeued cell
(`if (tile && tile->ground) { delete tile->ground; tile->ground = Item::Create(replacement_id); }`). -/
def replaceGroundAt (replacement : ItemId) (m : MapM) (pos : Pos) : MapM :=
  match m.getTile pos with
  | some t =>
    match t.ground with
    | some _ => m.setTile pos { t with ground := some replacement }
    | none => m
  | none => m

/-- BFS loop of `MapGenerator::floodFillCount`.  The queue and visited set hold
rectangle-local coordinates; map reads and the optional ground replacement use
the offset position at floor `z`.  The neighbour id checks read the live
(partially replaced) map, exactly as the source does.  Fuel bounds the number
of dequeues; `floodFillCount` supplies `width*height + 1`, which is proved
sufficient where it matters. -/
def floodFillGo (target replacement : ItemId) (width height offsetX offsetY z : ℤ) :
    ℕ → List (ℤ × ℤ) → Finset (ℤ × ℤ) → MapM → ℕ → ℕ × MapM
  | 0, _, _, m, count => (count, m)
  | _ + 1, [], _, m, count => (count, m)
  | fuel + 1, c :: queue, visited, m, count =>
    let count2 := count + 1
    let m2 : MapM :=
      if replacement ≠ 0 then replaceGroundAt replacement m (c.1 + offsetX, c.2 + offsetY, z)
      else m
    let next := dirs4.foldl (bfsStep target width height offsetX offsetY z m2 c) (queue, visited)
    floodFillGo target replacement width height offsetX offsetY z fuel next.1 next.2 m2 count2

/-- `MapGenerator::floodFillCount`: measure (and, when `replacement_id ≠ 0`,
replace) the 4-connected same-ground-id component at local `(x, y)`. -/
def floodFillCount (m : MapM) (x y z width height : ℤ) (target replacement : ItemId)
    (offsetX offsetY : ℤ) : ℕ × MapM :=
  match groundIdAt m (x + offsetX, y + offsetY, z) with
  | none => (0, m)
  | some gid =>
    if gid = target then
      floodFillGo target replacement width height offsetX offsetY z
        (width.toNat * height.toNat + 1) [(x, y)] {(x, y)} m 0
    else (0, m)

/-- The visited-marking BFS at the end of each `removeSmallPatches` scan step
(source lines 434-461): marks the whole same-id region of the current map as
visited in the scan's visited matrix. -/
def markVisitedGo (m : MapM) (target : ItemId) (width height offsetX offsetY z : ℤ) :
    ℕ → List (ℤ × ℤ) → Finset (ℤ × ℤ) → Finset (ℤ × ℤ)
  | 0, _, visited => visited
  | _ + 1, [], visited => visited
  | fuel + 1, c :: queue, visited =>
    let next := dirs4.foldl (bfsStep target width height offsetX offsetY z m c) (queue, visited)
    markVisitedGo m target width height offsetX offsetY z fuel next.1 next.2

/-- Scan loop of `MapGenerator::removeSmallPatches`: left-to-right,
top-to-bottom over the rectangle; for each unvisited cell whose ground id is
`tile_id`, probe the component size by flood fill, replace the component by the
(hardcoded) opposite id when `0 < size < min_size`, and mark the region
visited.  The floor is the hardcoded `z = 7` of the source (line 409). -/
def removeSmallPatchesGo (tile_id : ItemId) (min_size width height offsetX offsetY : ℤ) :
    List (ℤ × ℤ) → MapM → Finset (ℤ × ℤ) → MapM × Finset (ℤ × ℤ)
  | [], m, visited => (m, visited)
  | c :: rest, m, visited =>
    if c ∈ visited then
      removeSmallPatchesGo tile_id min_size width height offsetX offsetY rest m visited
    else
      match groundIdAt m (c.1 + offsetX, c.2 + offsetY, 7) with
      | none => removeSmallPatchesGo tile_id min_size width height offsetX offsetY rest m visited
      | some gid =>
        if gid = tile_id then
          let patchSize := (floodFillCount m c.1 c.2 7 width height tile_id 0 offsetX offsetY).1
          let m2 :=
            if (patchSize : ℤ) < min_size ∧ 0 < patchSize then
              (floodFillCount m c.1 c.2 7 width height tile_id (oppositeId tile_id) offsetX offsetY).2
            else m
          let visited2 :=
            markVisitedGo m2 tile_id width height offsetX offsetY 7
              (width.toNat * height.toNat + 1) [c] (insert c visited)
          removeSmallPatchesGo tile_id min_size width height offsetX offsetY rest m2 visited2
        else
          removeSmallPatchesGo tile_id min_size width height offsetX offsetY rest m visited

/-- `MapGenerator::removeSmallPatches`. -/
def removeSmallPatches (m : MapM) (tile_id : ItemId) (min_size width height offsetX offsetY : ℤ) :
    MapM :=
  (removeSmallPatchesGo tile_id min_size width height offsetX offsetY
    (cellList width height) m ∅).1

/-- `MapGenerator::fillSmallHoles`: delegates to `removeSmallPatches` with the
water id as target (the `fill_id` parameter is unused in the source). -/
def fillSmallHoles (m : MapM) (target_id _fill_id : ItemId)
    (max_size width height offsetX offsetY : ℤ) : MapM :=
  removeSmallPatches m target_id max_size width height offsetX offsetY

/-- Interior cells `x ∈ [1, width-2] × y ∈ [1, height-2]` in scan order, as in
the smoothing loops of `MapGenerator::smoothCoastline`. -/
def interiorCells (width height : ℤ) : List (ℤ × ℤ) :=
  (List.range (height - 2).toNat).flatMap fun j =>
    (List.range (width - 2).toNat).map fun i => ((i : ℤ) + 1, (j : ℤ) + 1)

/-- One pass of `MapGenerator::smoothCoastline`: snapshot all ground ids
(0 where there is no tile or no ground), then flip each interior cell to the
8-neighbourhood majority type, writing through to the live map. -/
def smoothPass (cfg : IslandConfig) (width height offsetX offsetY : ℤ) (m : MapM) : MapM :=
  let ids : ℤ → ℤ → ItemId := fun y x =>
    (groundIdAt m (x + offsetX, y + offsetY, cfg.target_floor)).getD 0
  (interiorCells width height).foldl
    (fun (m' : MapM) (c : ℤ × ℤ) =>
      let currentId : ItemId := ids c.2 c.1
      let counts : ℕ × ℕ :=
        dirs8.foldl
          (fun (wl : ℕ × ℕ) (d : ℤ × ℤ) =>
            let nx := c.1 + d.1
            let ny := c.2 + d.2
            if 0 ≤ nx ∧ nx < width ∧ 0 ≤ ny ∧ ny < height then
              let neighborId : ItemId := ids ny nx
              if neighborId = cfg.water_id then (wl.1 + 1, wl.2)
              else if neighborId = cfg.ground_id then (wl.1, wl.2 + 1)
              else wl
            else wl)
          (0, 0)
      let newId : ItemId :=
        if currentId = cfg.water_id ∧ counts.1 < counts.2 then cfg.ground_id
        else if currentId = cfg.ground_id ∧ counts.2 < counts.1 then cfg.water_id
        else currentId
      if newId ≠ currentId then
        match m'.getTile (c.1 + offsetX, c.2 + offsetY, cfg.target_floor) with
        | some t => m'.setTile (c.1 + offsetX, c.2 + offsetY, cfg.target_floor)
            { t with ground := some newId }
        | none => m'
      else m')
    m

/-- `MapGenerator::smoothCoastline`: `smoothing_passes` iterations of one pass. -/
def smoothCoastline (m : MapM) (cfg : IslandConfig) (width height offsetX offsetY : ℤ) : MapM :=
  (List.range cfg.smoothing_passes.toNat).foldl
    (fun m' _ => smoothPass cfg width height offsetX offsetY m') m

/-- `MapGenerator::cleanupTerrain`: patch removal, the 80% checkpoint, hole
filling, the 90% checkpoint, smoothing.  A false callback return aborts the
remaining cleanup steps (the subroutine returns; the caller continues). -/
def cleanupTerrain (cb : Callback) (m : MapM) (cfg : IslandConfig)
    (width height offsetX offsetY : ℤ) : StepOut :=
  let m1 :=
    if 0 < cfg.min_land_patch_size then
      removeSmallPatches m cfg.ground_id cfg.min_land_patch_size width height offsetX offsetY
    else m
  let r80 := cb 80 100
  if ¬r80 then ⟨m1, [⟨80, 100, r80⟩]⟩
  else
    let m2 :=
      if 0 < cfg.max_water_hole_size then
        fillSmallHoles m1 cfg.water_id cfg.ground_id cfg.max_water_hole_size
          width height offsetX offsetY
      else m1
    let r90 := cb 90 100
    if ¬r90 then ⟨m2, [⟨80, 100, r80⟩, ⟨90, 100, r90⟩]⟩
    else
      let m3 :=
        if 0 < cfg.smoothing_passes then
          smoothCoastline m2 cfg width height offsetX offsetY
        else m2
      ⟨m3, [⟨80, 100, r80⟩, ⟨90, 100, r90⟩]⟩

/-- Result of one generation entry point: the returned boolean, the final host
map, and the recorded progress-callback invocations in order. -/
structure RunOut where
  ok : Bool
  map : MapM
  trace : List ProgressCall

/-- `MapGenerator::generateIslandMap`.  `hm s x y` abstracts the composition of
`generateHeightMap` and `applyIslandMask` — the double-valued masked height at
cell `(x, y)` produced by the noise object seeded with `s` (both steps are pure
floating-point functions of the noise seed, the config and the cell).  `gs0` is
the generator-object state prior to the call; the call starts by reseeding
(`seedRandom(seed)`), which fully replaces it.  The callback's result at the
final 100% report is recorded but, as in the source, ignored. -/
def generateIslandMap (hasher : String → ℕ) (hm : ℕ → ℤ → ℤ → ℚ) (cb : Callback)
    (gs0 : GenState) (m0 : Option MapM) (cfg : IslandConfig)
    (width height : ℤ) (seed : String) (startX startY : ℤ) : RunOut :=
  match m0 with
  | none => ⟨false, emptyMap, []⟩
  | some m =>
    if width ≤ 0 ∨ height ≤ 0 then ⟨false, m, []⟩
    else
      let gs := seedRandomM hasher seed
      let r0 := cb 0 100
      if ¬r0 then ⟨false, m, [⟨0, 100, r0⟩]⟩
      else
        let field : ℤ → ℤ → ℚ := hm gs.noiseSeed
        let r20 := cb 20 100
        if ¬r20 then ⟨false, m, [⟨0, 100, r0⟩, ⟨20, 100, r20⟩]⟩
        else
          let r40 := cb 40 100
          let tr3 : List ProgressCall := [⟨0, 100, r0⟩, ⟨20, 100, r20⟩, ⟨40, 100, r40⟩]
          if ¬r40 then ⟨false, m, tr3⟩
          else
            let po := placeTiles cb field cfg width height startX startY m
            if cfg.enable_cleanup then
              let r70 := cb 70 100
              if ¬r70 then ⟨false, po.map, tr3 ++ po.trace ++ [⟨70, 100, r70⟩]⟩
              else
                let co := cleanupTerrain cb po.map cfg width height startX startY
                let r100 := cb 100 100
                ⟨true, co.map,
                  tr3 ++ po.trace ++ [⟨70, 100, r70⟩] ++ co.trace ++ [⟨100, 100, r100⟩]⟩
            else
              let r100 := cb 100 100
              ⟨true, po.map, tr3 ++ po.trace ++ [⟨100, 100, r100⟩]⟩

/-- `MapGenerator::Room` (map_generator.h). -/
structure Room where
  x : ℤ
  y : ℤ
  w : ℤ
  h : ℤ
deriving DecidableEq, Repr

/-- `Room::cx()`. -/
def Room.cx (r : Room) : ℤ := r.x + r.w / 2

/-- `Room::cy()`. -/
def Room.cy (r : Room) : ℤ := r.y + r.h / 2

/-- `Room::intersects` (map_generator.h lines 139-142). -/
def Room.intersects (r other : Room) : Prop :=
  r.x ≤ other.x + other.w ∧ other.x ≤ r.x + r.w ∧
  r.y ≤ other.y + other.h ∧ other.y ≤ r.y + r.h

instance (r other : Room) : Decidable (r.intersects other) := by
  unfold Room.intersects; infer_instance

/-- The 1-tile-expanded rectangle `{x-1, y-1, w+2, h+2}` used in the room
acceptance test (source line 99). -/
def Room.expandOne (r : Room) : Room := ⟨r.x - 1, r.y - 1, r.w + 2, r.h + 2⟩

/-- The set of grid cells a room occupies (the cells its carve loop marks). -/
def Room.containsCell (r : Room) (p : ℤ × ℤ) : Prop :=
  r.x ≤ p.1 ∧ p.1 < r.x + r.w ∧ r.y ≤ p.2 ∧ p.2 < r.y + r.h

instance (r : Room) (p : ℤ × ℤ) : Decidable (r.containsCell p) := by
  unfold Room.containsCell; infer_instance

/-- Loop of `MapGenerator::generateRooms`: rejection sampling with an attempt
budget.  Fuel counts attempts (`max_attempts = room_count * 10`). -/
def generateRoomsGo (rngNext : ℕ → ℕ × ℕ) (cfg : DungeonConfig) (width height : ℤ) :
    ℕ → List Room → ℕ → List Room × ℕ
  | 0, rooms, st => (rooms, st)
  | fuel + 1, rooms, st =>
    if (rooms.length : ℤ) < cfg.room_count then
      let dw := uniformIntM rngNext cfg.min_room_size cfg.max_room_size st
      let dh := uniformIntM rngNext cfg.min_room_size cfg.max_room_size dw.2
      let dx := uniformIntM rngNext 1 (width - dw.1 - 2) dh.2
      let dy := uniformIntM rngNext 1 (height - dh.1 - 2) dx.2
      let newRoom : Room := ⟨dx.1, dy.1, dw.1, dh.1⟩
      if rooms.any fun r => decide (newRoom.expandOne.intersects r) then
        generateRoomsGo rngNext cfg width height fuel rooms dy.2
      else
        generateRoomsGo rngNext cfg width height fuel (rooms ++ [newRoom]) dy.2
    else (rooms, st)

/-- `MapGenerator::generateRooms`. -/
def generateRooms (rngNext : ℕ → ℕ × ℕ) (cfg : DungeonConfig) (width height : ℤ)
    (st : ℕ) : List Room × ℕ :=
  generateRoomsGo rngNext cfg width height (cfg.room_count * 10).toNat [] st

/-- The dungeon working grid (`0 = Void, 1 = Floor`), as a total function;
all source reads and writes are bounds-checked by their callers. -/
abbrev Grid := ℤ → ℤ → ℕ

/-- The room-carving loops of `generateDungeonMap` (source lines 208-214).
Every write of the sequential loops is the constant 1 at a cell of some room,
so their net effect is exactly this pointwise update. -/
def carveRooms (rooms : List Room) (g : Grid) : Grid :=
  fun y x => if rooms.any fun r => decide (r.containsCell (x, y)) then 1 else g y x

/-- `MapGenerator::createCorridorTile`. -/
def createCorridorTile (g : Grid) (x y width height : ℤ) : Grid :=
  if 0 ≤ x ∧ x < width ∧ 0 ≤ y ∧ y < height then
    fun vy vx => if vy = y ∧ vx = x then 1 else g vy vx
  else g

/-- `MapGenerator::isWallPosition`. -/
def isWallPosition (g : Grid) (x y width height : ℤ) : Bool :=
  if x < 0 ∨ width ≤ x ∨ y < 0 ∨ height ≤ y then false
  else if g y x = 1 then false
  else dirs8.any fun d =>
    let nx := x + d.1
    let ny := y + d.2
    decide ((0 ≤ nx ∧ nx < width ∧ 0 ≤ ny ∧ ny < height) ∧ g ny nx = 1)

/-- `std::abs(a - b)` pieces of the Manhattan heuristic. -/
def manhattanDist (x1 y1 x2 y2 : ℤ) : ℕ := (x2 - x1).natAbs + (y2 - y1).natAbs

/-- A node of the A* open set (`struct Node` in `findShortestPath`). -/
structure AStarNode where
  x : ℤ
  y : ℤ
  g : ℕ
  h : ℕ
  px : ℤ
  py : ℤ
deriving DecidableEq, Repr

/-- `Node::f()`. -/
def nodeF (n : AStarNode) : ℕ := n.g + n.h

/-- Select an entry of minimal `f` from the open set (the element
`std::priority_queue` with `std::greater` pops; among equal-`f` entries the
heap's tie choice is unspecified, and every property proved below holds for
any minimal choice — this model takes the earliest). -/
def selectMinNode : List AStarNode → Option AStarNode
  | [] => none
  | n :: rest =>
    match selectMinNode rest with
    | none => some n
    | some msub => some (if nodeF n ≤ nodeF msub then n else msub)

/-- The mutable search state of `findShortestPath`: `gScore` (999999 = unset),
`cameFrom` (`(-1, -1)` = unset) and the open set. -/
structure AStarState where
  gScore : ℤ × ℤ → ℕ
  cameFrom : ℤ × ℤ → ℤ × ℤ
  openSet : List AStarNode

/-- One neighbour relaxation of the A* loop (source lines 653-671). -/
def aStarRelax (grid : Grid) (width height x2 y2 : ℤ) (cur : ℤ × ℤ)
    (st : AStarState) (d : ℤ × ℤ) : AStarState :=
  let nx := cur.1 + d.1
  let ny := cur.2 + d.2
  if 0 ≤ nx ∧ nx < width ∧ 0 ≤ ny ∧ ny < height then
    let cost : ℕ := if grid ny nx = 1 then 1 else 5
    let tg := st.gScore cur + cost
    if tg < st.gScore (nx, ny) then
      { gScore := Function.update st.gScore (nx, ny) tg,
        cameFrom := Function.update st.cameFrom (nx, ny) cur,
        openSet := st.openSet ++ [⟨nx, ny, tg, manhattanDist nx ny x2 y2, cur.1, cur.2⟩] }
    else st
  else st

/-- The main A* loop: pop the minimal-`f` entry; return the state on reaching
the goal coordinates, relax the four neighbours otherwise.  `none` models both
open-set exhaustion (`return {}` in the source) and fuel exhaustion (proved
not to occur where a theorem needs it). -/
def aStarLoop (grid : Grid) (width height x2 y2 : ℤ) : ℕ → AStarState → Option AStarState
  | 0, _ => none
  | fuel + 1, st =>
    match selectMinNode st.openSet with
    | none => none
    | some cur =>
      let st1 : AStarState := { st with openSet := st.openSet.erase cur }
      if cur.x = x2 ∧ cur.y = y2 then some st1
      else
        aStarLoop grid width height x2 y2 fuel
          (dirs4.foldl (aStarRelax grid width height x2 y2 (cur.x, cur.y)) st1)

/-- Path reconstruction (`while (cx != -1)`, source lines 638-645), before the
final `std::reverse`. -/
def reconstructGo (cameFrom : ℤ × ℤ → ℤ × ℤ) : ℕ → ℤ → ℤ → List (ℤ × ℤ)
  | 0, _, _ => []
  | fuel + 1, cx, cy =>
    if cx = -1 then []
    else (cx, cy) :: reconstructGo cameFrom fuel (cameFrom (cx, cy)).1 (cameFrom (cx, cy)).2

/-- Fuel for the A* loop: a bound on the total number of pops (each cell's
`gScore` strictly decreases at each of its pushes and all scores lie below
1000000). -/
def aStarFuel (width height : ℤ) : ℕ := width.toNat * height.toNat * 1000000 + 2

/-- `MapGenerator::findShortestPath`. -/
def findShortestPath (grid : Grid) (x1 y1 x2 y2 width height : ℤ) : List (ℤ × ℤ) :=
  let st0 : AStarState :=
    { gScore := Function.update (fun _ => 999999) (x1, y1) 0,
      cameFrom := fun _ => (-1, -1),
      openSet := [⟨x1, y1, 0, manhattanDist x1 y1 x2 y2, -1, -1⟩] }
  match aStarLoop grid width height x2 y2 (aStarFuel width height) st0 with
  | none => []
  | some st => (reconstructGo st.cameFrom (st.gScore (x2, y2) + 2) x2 y2).reverse

/-- Horizontal carving loop of `createImprovedCorridor`
(`while (cx != x2) { cx += step; for (w) createCorridorTile(cx, cy+w); }`). -/
def carveHGo (cfg : DungeonConfig) (width height cy x2 : ℤ) : ℕ → ℤ → Grid → Grid
  | 0, _, g => g
  | fuel + 1, cx, g =>
    if cx = x2 then g
    else
      let cx2 := cx + (if cx < x2 then 1 else -1)
      let g2 := (List.range cfg.corridor_width.toNat).foldl
        (fun gg w => createCorridorTile gg cx2 (cy + (w : ℤ)) width height) g
      carveHGo cfg width height cy x2 fuel cx2 g2

/-- Vertical carving loop of the horizontal-first branch of
`createImprovedCorridor` (two inner width loops; the first offsets `cy` by `w`
only when `x2 > x1`). -/
def carveVGo (cfg : DungeonConfig) (width height cx x1 x2 y2 : ℤ) : ℕ → ℤ → Grid → Grid
  | 0, _, g => g
  | fuel + 1, cy, g =>
    if cy = y2 then g
    else
      let cy2 := cy + (if cy < y2 then 1 else -1)
      let g2 := (List.range cfg.corridor_width.toNat).foldl
        (fun gg w => createCorridorTile gg cx (cy2 + (if x1 < x2 then (w : ℤ) else 0)) width height) g
      let g3 := (List.range cfg.corridor_width.toNat).foldl
        (fun gg w => createCorridorTile gg (cx + (w : ℤ)) cy2 width height) g2
      carveVGo cfg width height cx x1 x2 y2 fuel cy2 g3

/-- Vertical carving loop of the vertical-first branch of
`createImprovedCorridor`. -/
def carveV2Go (cfg : DungeonConfig) (width height cx y2 : ℤ) : ℕ → ℤ → Grid → Grid
  | 0, _, g => g
  | fuel + 1, cy, g =>
    if cy = y2 then g
    else
      let cy2 := cy + (if cy < y2 then 1 else -1)
      let g2 := (List.range cfg.corridor_width.toNat).foldl
        (fun gg w => createCorridorTile gg (cx + (w : ℤ)) cy2 width height) g
      carveV2Go cfg width height cx y2 fuel cy2 g2

/-- `MapGenerator::createImprovedCorridor`: a randomly-oriented L-shaped
corridor of the configured width. -/
def createImprovedCorridor (rngNext : ℕ → ℕ × ℕ) (g : Grid) (x1 y1 x2 y2 : ℤ)
    (cfg : DungeonConfig) (width height : ℤ) (st : ℕ) : Grid × ℕ :=
  let coin := uniformIntM rngNext 0 1 st
  if coin.1 ≠ 0 then
    let g2 := carveHGo cfg width height y1 x2 (x2 - x1).natAbs x1 g
    (carveVGo cfg width height x2 x1 x2 y2 (y2 - y1).natAbs y1 g2, coin.2)
  else
    let g2 := carveV2Go cfg width height x1 y2 (y2 - y1).natAbs y1 g
    (carveHGo cfg width height y2 x2 (x2 - x1).natAbs x1 g2, coin.2)

/-- The widened carving of one path cell in `createSmartCorridor`
(`for (dy) for (dx) createCorridorTile(p.first + dx, p.second + dy)`). -/
def carvePathCell (cfg : DungeonConfig) (width height : ℤ) (g : Grid) (p : ℤ × ℤ) : Grid :=
  (List.range cfg.corridor_width.toNat).foldl
    (fun gy dy =>
      (List.range cfg.corridor_width.toNat).foldl
        (fun gx dx => createCorridorTile gx (p.1 + (dx : ℤ)) (p.2 + (dy : ℤ)) width height)
        gy)
    g

/-- `MapGenerator::createSmartCorridor`: A* path carving with fallback to the
L-shaped corridor when disabled or when the path is empty. -/
def createSmartCorridor (rngNext : ℕ → ℕ × ℕ) (g : Grid) (x1 y1 x2 y2 : ℤ)
    (cfg : DungeonConfig) (width height : ℤ) (st : ℕ) : Grid × ℕ :=
  if cfg.use_smart_pathfinding then
    let path := findShortestPath g x1 y1 x2 y2 width height
    if path ≠ [] then (path.foldl (carvePathCell cfg width height) g, st)
    else createImprovedCorridor rngNext g x1 y1 x2 y2 cfg width height st
  else createImprovedCorridor rngNext g x1 y1 x2 y2 cfg width height st

/-- `MapGenerator::Intersection`. -/
structure Hub where
  centerX : ℤ
  centerY : ℤ
  size : ℤ
  connectionCount : ℤ
  connections : List (ℤ × ℤ)
deriving DecidableEq, Repr

/-- Loop of `MapGenerator::generateIntersections` (attempt budget 100). -/
def generateIntersectionsGo (rngNext : ℕ → ℕ × ℕ) (cfg : DungeonConfig)
    (rooms : List Room) (width height : ℤ) : ℕ → List Hub → ℕ → List Hub × ℕ
  | 0, acc, st => (acc, st)
  | fuel + 1, acc, st =>
    if (acc.length : ℤ) < cfg.intersection_count then
      let dx := uniformIntM rngNext 10 (width - 10) st
      let dy := uniformIntM rngNext 10 (height - 10) dx.2
      let farEnough := rooms.all fun r =>
        decide (dx.1 < r.x - 5 ∨ r.x + r.w + 5 < dx.1 ∨ dy.1 < r.y - 5 ∨ r.y + r.h + 5 < dy.1)
      if farEnough then
        generateIntersectionsGo rngNext cfg rooms width height fuel
          (acc ++ [⟨dx.1, dy.1, cfg.intersection_size, 4, []⟩]) dy.2
      else generateIntersectionsGo rngNext cfg rooms width height fuel acc dy.2
    else (acc, st)

/-- `MapGenerator::generateIntersections`. -/
def generateIntersections (rngNext : ℕ → ℕ × ℕ) (cfg : DungeonConfig)
    (rooms : List Room) (width height : ℤ) (st : ℕ) : List Hub × ℕ :=
  generateIntersectionsGo rngNext cfg rooms width height 100 [] st

/-- Integer range `[a, b]` as a list (empty when `b < a`). -/
def intRange (a b : ℤ) : List ℤ := (List.range (b - a + 1).toNat).map fun i => a + (i : ℤ)

/-- `MapGenerator::placeIntersection`: carve the `(2r+1) × (2r+1)` square
around the hub centre (the source passes `grid[0].size()`/`grid.size()` as the
bounds, i.e. the grid dimensions). -/
def placeIntersection (width height : ℤ) (g : Grid) (inter : Hub) : Grid :=
  (intRange (inter.centerY - inter.size) (inter.centerY + inter.size)).foldl
    (fun gy y =>
      (intRange (inter.centerX - inter.size) (inter.centerX + inter.size)).foldl
        (fun gx x => createCorridorTile gx x y width height) gy)
    g

/-- `MapGenerator::connectRoomsViaIntersections`: connect each room to its
nearest hub (first strict minimiser of the Manhattan distance, initial best
999999), then connect consecutive hubs. -/
def connectRoomsViaIntersections (rngNext : ℕ → ℕ × ℕ) (g : Grid) (rooms : List Room)
    (inters : List Hub) (cfg : DungeonConfig) (width height : ℤ) (st : ℕ) : Grid × ℕ :=
  let afterRooms := rooms.foldl
    (fun (acc : Grid × ℕ) room =>
      let best := inters.foldl
        (fun (b : ℤ × Option Hub) inter =>
          let d : ℤ := ((room.cx - inter.centerX).natAbs : ℤ) + ((room.cy - inter.centerY).natAbs : ℤ)
          if d < b.1 then (d, some inter) else b)
        (999999, none)
      match best.2 with
      | some inter =>
        createSmartCorridor rngNext acc.1 room.cx room.cy inter.centerX inter.centerY
          cfg width height acc.2
      | none => acc)
    (g, st)
  (List.range (inters.length - 1)).foldl
    (fun (acc : Grid × ℕ) i =>
      let a := inters.getD i ⟨0, 0, 0, 0, []⟩
      let b := inters.getD (i + 1) ⟨0, 0, 0, 0, []⟩
      createSmartCorridor rngNext acc.1 a.centerX a.centerY b.centerX b.centerY
        cfg width height acc.2)
    afterRooms

/-- `MapGenerator::generateCorridors`: connect consecutive rooms. -/
def generateCorridors (rngNext : ℕ → ℕ × ℕ) (g : Grid) (rooms : List Room)
    (cfg : DungeonConfig) (width height : ℤ) (st : ℕ) : Grid × ℕ :=
  (List.range (rooms.length - 1)).foldl
    (fun (acc : Grid × ℕ) i =>
      let a := rooms.getD i ⟨0, 0, 0, 0⟩
      let b := rooms.getD (i + 1) ⟨0, 0, 0, 0⟩
      createSmartCorridor rngNext acc.1 a.cx a.cy b.cx b.cy cfg width height acc.2)
    (g, st)

/-- The inner walk of one dead-end attempt (`for (s) { x += dx; ... }`). -/
def deadEndWalk (width height dx dy : ℤ) : ℕ → ℤ → ℤ → Grid → Grid
  | 0, _, _, g => g
  | steps + 1, x, y, g =>
    let x2 := x + dx
    let y2 := y + dy
    let g2 :=
      if 0 < x2 ∧ x2 < width - 1 ∧ 0 < y2 ∧ y2 < height - 1 then
        fun vy vx => if vy = y2 ∧ vx = x2 then 1 else g vy vx
      else g
    deadEndWalk width height dx dy steps x2 y2 g2

/-- `MapGenerator::addDeadEnds` (10 attempts). -/
def addDeadEnds (rngNext : ℕ → ℕ × ℕ) (g : Grid) (cfg : DungeonConfig)
    (width height : ℤ) (st : ℕ) : Grid × ℕ :=
  (List.range 10).foldl
    (fun (acc : Grid × ℕ) _ =>
      let dx0 := uniformIntM rngNext 1 (width - 2) acc.2
      let dy0 := uniformIntM rngNext 1 (height - 2) dx0.2
      if acc.1 dy0.1 dx0.1 = 1 then
        let dlen := uniformIntM rngNext 5 15 dy0.2
        let ddir := uniformIntM rngNext 0 3 dlen.2
        let sdx : ℤ := if ddir.1 = 0 then 1 else if ddir.1 = 1 then -1 else 0
        let sdy : ℤ := if ddir.1 = 2 then 1 else if ddir.1 = 3 then -1 else 0
        (deadEndWalk width height sdx sdy dlen.1.toNat dx0.1 dy0.1 acc.1, ddir.2)
      else (acc.1, dy0.2))
    (g, st)

/-- One recorded `noise->noise(x, y)` sample. -/
structure NoiseCall where
  seedUsed : ℕ
  xCoord : ℚ
  yCoord : ℚ
  value : ℚ
deriving DecidableEq, Repr

/-- The cave overlay of `generateDungeonMap` (source lines 247-256): sample
plain noise at `(x * 0.1, y * 0.1)` for every cell and carve cells above the
threshold.  Also returns the list of noise samples made, for the claims about
which noise seed the overlay uses. -/
def caveOverlay (noiseAt : ℕ → ℚ → ℚ → ℚ) (ns : ℕ) (cfg : DungeonConfig)
    (g : Grid) (width height : ℤ) : Grid × List NoiseCall :=
  (cellList width height).foldl
    (fun (acc : Grid × List NoiseCall) c =>
      let nx : ℚ := (c.1 : ℚ) * (1 / 10)
      let ny : ℚ := (c.2 : ℚ) * (1 / 10)
      let n := noiseAt ns nx ny
      let g2 : Grid :=
        if cfg.cave_threshold < n then
          fun vy vx => if vy = c.2 ∧ vx = c.1 then 1 else acc.1 vy vx
        else acc.1
      (g2, acc.2 ++ [⟨ns, nx, ny, n⟩]))
    (g, [])

/-- The commit pass of `generateDungeonMap` (source lines 265-293): for every
cell fetch-or-create the tile, clear its ground, then install the floor id on
Floor cells, or — on Void cells 8-adjacent to a Floor cell — the floor id plus
a stacked wall item. -/
def commitDungeon (cfg : DungeonConfig) (g : Grid) (width height startX startY : ℤ)
    (m : MapM) : MapM :=
  (cellList width height).foldl
    (fun (m' : MapM) c =>
      let pos : Pos := (c.1 + startX, c.2 + startY, cfg.target_floor)
      let t0 : TileM :=
        match m'.getTile pos with
        | some t => t
        | none => {}
      let t1 : TileM := { t0 with ground := none }
      let t2 : TileM :=
        if g c.2 c.1 = 1 then { t1 with ground := some cfg.floor_id }
        else if isWallPosition g c.1 c.2 width height then
          { t1 with ground := some cfg.floor_id, items := t1.items ++ [cfg.wall_id] }
        else t1
      m'.setTile pos t2)
    m

/-- Result of `generateDungeonMap`: returned boolean, final map, recorded
progress calls, and the noise samples made by the cave overlay. -/
structure DungeonOut where
  ok : Bool
  map : MapM
  trace : List ProgressCall
  noiseCalls : List NoiseCall

/-- `MapGenerator::generateDungeonMap`.  `noiseAt s x y` abstracts
`SimplexNoise(s).noise(x, y)` (pure floating-point, keyed by the construction
seed).  After `seedRandom(seed)` the source deletes the seeded noise object
and replaces it with a default-constructed `SimplexNoise()` (seed 0, header
line 42); the model mirrors this by resetting `noiseSeed` to 0.  Note the only
input validation is the null-map check (source line 194). -/
def generateDungeonMap (hasher : String → ℕ) (noiseAt : ℕ → ℚ → ℚ → ℚ)
    (rngNext : ℕ → ℕ × ℕ) (cb : Callback) (gs0 : GenState) (m0 : Option MapM)
    (cfg : DungeonConfig) (width height : ℤ) (seed : String) (startX startY : ℤ) :
    DungeonOut :=
  match m0 with
  | none => ⟨false, emptyMap, [], []⟩
  | some m =>
    let gs1 := seedRandomM hasher seed
    let gs : GenState := { gs1 with noiseSeed := 0 }
    let grid0 : Grid := fun _ _ => 0
    let rm := generateRooms rngNext cfg width height gs.rngState
    let rooms := rm.1
    let grid1 := carveRooms rooms grid0
    let r30 := cb 30 100
    if ¬r30 then ⟨false, m, [⟨30, 100, r30⟩], []⟩
    else
      let im :=
        if cfg.add_intersections then generateIntersections rngNext cfg rooms width height rm.2
        else ([], rm.2)
      let inters := im.1
      let grid2 := inters.foldl (placeIntersection width height) grid1
      let cm :=
        if cfg.add_intersections ∧ inters ≠ [] then
          connectRoomsViaIntersections rngNext grid2 rooms inters cfg width height im.2
        else generateCorridors rngNext grid2 rooms cfg width height im.2
      let cm2 :=
        if cfg.connect_all_rooms ∧ 1 < rooms.length then
          generateCorridors rngNext cm.1 rooms cfg width height cm.2
        else cm
      let cm3 :=
        if cfg.add_dead_ends then addDeadEnds rngNext cm2.1 cfg width height cm2.2
        else cm2
      let r60 := cb 60 100
      if ¬r60 then ⟨false, m, [⟨30, 100, r30⟩, ⟨60, 100, r60⟩], []⟩
      else
        let cv :=
          if cfg.generate_caves then caveOverlay noiseAt gs.noiseSeed cfg cm3.1 width height
          else (cm3.1, [])
        let r80 := cb 80 100
        if ¬r80 then ⟨false, m, [⟨30, 100, r30⟩, ⟨60, 100, r60⟩, ⟨80, 100, r80⟩], cv.2⟩
        else
          let mF := commitDungeon cfg cv.1 width height startX startY m
          ⟨true, mF, [⟨30, 100, r30⟩, ⟨60, 100, r60⟩, ⟨80, 100, r80⟩], cv.2⟩

/-- `MapGenerator::getDistance`: Euclidean distance (the `double` arithmetic is
modelled over `ℝ`; the subtractions happen on `int`). -/
noncomputable def getDistance (x y centerX centerY : ℤ) : ℝ :=
  Real.sqrt (((x - centerX : ℤ) : ℝ) ^ 2 + ((y - centerY : ℤ) : ℝ) ^ 2)

/-- `MapGenerator::applyFalloff`: power-law falloff with clamped domain
(`std::pow` over `ℝ` is `Real.rpow`). -/
noncomputable def applyFalloff (distance falloff : ℝ) : ℝ :=
  if distance < 0 then 0 else if 1 < distance then 1 else distance ^ falloff

/-- `MapGenerator::applyIslandMask` as a field transformer: subtract the radial
falloff from each height and clamp to `[0, 1]`.  The centre the source
measures distances from is `static_cast<int>(width / 2.0)` — for the
nonnegative dimensions the theorems use this is the integer division
`width / 2`.  `maxRadius = std::min(width, height) / 2.0`. -/
noncomputable def applyIslandMask (hm : ℤ → ℤ → ℝ) (cfg : IslandConfig)
    (width height : ℤ) : ℤ → ℤ → ℝ :=
  fun x y =>
    let distance := getDistance x y (width / 2) (height / 2)
    let maxRadius : ℝ := ((min width height : ℤ) : ℝ) / 2
    let normalizedDistance := distance / (maxRadius * (cfg.island_size : ℝ))
    let falloff := applyFalloff normalizedDistance (cfg.island_falloff : ℝ)
    max 0 (min 1 (hm x y - falloff))

/-- Separation of two rooms by at least a 2-cell gap on some axis — the
property the acceptance test of `generateRooms` establishes between an
accepted room and every earlier one. -/
def roomSep (a b : Room) : Prop :=
  b.x + b.w + 2 ≤ a.x ∨ a.x + a.w + 2 ≤ b.x ∨ b.y + b.h + 2 ≤ a.y ∨ a.y + a.h + 2 ≤ b.y

/-- A room whose cells lie inside `[1, width-2] × [1, height-2]`. -/
def roomInBounds (r : Room) (width height : ℤ) : Prop :=
  1 ≤ r.x ∧ 1 ≤ r.y ∧ r.x + r.w ≤ width - 2 ∧ r.y + r.h ≤ height - 2

/-! Connected-component vocabulary for the cleanup claims.  `removeSmallPatches`
works at floor 7 on the rectangle `[0, width) × [0, height)` of local
coordinates, reading map positions shifted by the offsets. -/

/-- The map position of a local rectangle cell, at the cleanup floor `z = 7`. -/
def cellPos (offsetX offsetY : ℤ) (p : ℤ × ℤ) : Pos := (p.1 + offsetX, p.2 + offsetY, 7)

/-- Ground id of a local cell. -/
def cellId (m : MapM) (offsetX offsetY : ℤ) (p : ℤ × ℤ) : Option ItemId :=
  groundIdAt m (cellPos offsetX offsetY p)

/-- Local cell inside the rectangle. -/
def inRect (width height : ℤ) (p : ℤ × ℤ) : Prop :=
  0 ≤ p.1 ∧ p.1 < width ∧ 0 ≤ p.2 ∧ p.2 < height

instance (width height : ℤ) (p : ℤ × ℤ) : Decidable (inRect width height p) := by
  unfold inRect; infer_instance

/-- The rectangle as a finite set of cells. -/
def rectCells (width height : ℤ) : Finset (ℤ × ℤ) :=
  Finset.Icc 0 (width - 1) ×ˢ Finset.Icc 0 (height - 1)

/-- An in-rectangle cell whose tile exists and carries ground id `t`. -/
def isTargetCell (m : MapM) (t : ItemId) (width height offsetX offsetY : ℤ) (p : ℤ × ℤ) :
    Prop :=
  inRect width height p ∧ cellId m offsetX offsetY p = some t

instance (m : MapM) (t : ItemId) (width height offsetX offsetY : ℤ) (p : ℤ × ℤ) :
    Decidable (isTargetCell m t width height offsetX offsetY p) := by
  unfold isTargetCell; infer_instance

/-- One step of 4-connected same-id reachability: move to an adjacent target
cell. -/
def compStep (m : MapM) (t : ItemId) (width height offsetX offsetY : ℤ)
    (a b : ℤ × ℤ) : Prop :=
  (∃ d ∈ dirs4, b = (a.1 + d.1, a.2 + d.2))
  ∧ isTargetCell m t width height offsetX offsetY b

/-- The 4-connected component of `tile_id` cells the flood fill explores from
`s` (it always contains `s` itself). -/
def comp (m : MapM) (t : ItemId) (width height offsetX offsetY : ℤ) (s : ℤ × ℤ) :
    Set (ℤ × ℤ) :=
  {q | Relation.ReflTransGen (compStep m t width height offsetX offsetY) s q}

/-- Invariant of the shared BFS queue/visited state.  `B` is the background
visited set (empty for `floodFillCount`, the scan's visited matrix for the
marking BFS), `D` the set of already-dequeued cells, `s` the BFS origin, and
`mbase` the map the traversal is measured against. -/
structure BfsQV (t : ItemId) (width height ox oy : ℤ) (mbase : MapM) (s : ℤ × ℤ)
    (B D : Finset (ℤ × ℤ)) (q : List (ℤ × ℤ)) (v : Finset (ℤ × ℤ)) : Prop where
  nodup : q.Nodup
  cover : v = (B ∪ D) ∪ q.toFinset
  disjQ : Disjoint (B ∪ D) q.toFinset
  reach : ∀ p ∈ D ∪ q.toFinset, p ∈ comp mbase t width height ox oy s
  rectQ : ∀ p ∈ D ∪ q.toFinset, inRect width height p

/-- Full invariant of the `floodFillGo` loop (background empty; also tracks
the count and the partially-replaced map). -/
structure FFInv (t r : ItemId) (width height ox oy : ℤ) (m0 : MapM) (s : ℤ × ℤ)
    (D : Finset (ℤ × ℤ)) (q : List (ℤ × ℤ)) (v : Finset (ℤ × ℤ)) (m : MapM)
    (count : ℕ) : Prop where
  qv : BfsQV t width height ox oy m0 s ∅ D q v
  smem : s ∈ v
  closure : ∀ p ∈ D, ∀ d ∈ dirs4,
    isTargetCell m0 t width height ox oy (p.1 + d.1, p.2 + d.2) →
    (p.1 + d.1, p.2 + d.2) ∈ v
  countEq : count = D.card
  mapOff : ∀ pos : Pos, (∀ p ∈ D, pos ≠ cellPos ox oy p) → m pos = m0 pos
  mapOn : ∀ p ∈ D, (r = 0 → m (cellPos ox oy p) = m0 (cellPos ox oy p)) ∧
    (r ≠ 0 → ∃ tl : TileM, m0 (cellPos ox oy p) = some tl ∧ tl.ground = some t ∧
      m (cellPos ox oy p) = some { tl with ground := some r })

/-- Postcondition of a completed flood fill from `s`: the returned count is
the component's size and the returned map is the input map with (for a
nonzero replacement id) exactly the component's grounds replaced. -/
structure BfsOut (t r : ItemId) (width height ox oy : ℤ) (m0 : MapM) (s : ℤ × ℤ)
    (res : ℕ × MapM) : Prop where
  countEq : res.1 = (comp m0 t width height ox oy s).ncard
  mapOff : ∀ pos : Pos, (∀ p ∈ comp m0 t width height ox oy s, pos ≠ cellPos ox oy p) →
    res.2 pos = m0 pos
  mapOn : ∀ p ∈ comp m0 t width height ox oy s,
    (r = 0 → res.2 (cellPos ox oy p) = m0 (cellPos ox oy p)) ∧
    (r ≠ 0 → ∃ tl : TileM, m0 (cellPos ox oy p) = some tl ∧ tl.ground = some t ∧
      res.2 (cellPos ox oy p) = some { tl with ground := some r })

/-- Invariant of the `removeSmallPatches` scan: every visited cell that is
still a target cell lies in a wholly-visited component of size at least
`min_size`. -/
def ScanInv (t : ItemId) (min_size width height ox oy : ℤ) (m : MapM)
    (V : Finset (ℤ × ℤ)) : Prop :=
  ∀ p ∈ V, isTargetCell m t width height ox oy p →
    comp m t width height ox oy p ⊆ ↑V ∧
    min_size ≤ ((comp m t width height ox oy p).ncard : ℤ)

/-! Vocabulary for the A* claims.  The claim quantifies over all-Void grids;
`voidGrid` is the canonical one. -/

/-- The all-Void grid (every cell `0`). -/
def voidGrid : Grid := fun _ _ => 0

/-- The `i`-th cell of the canonical monotone (x-first, then y) staircase walk
from `(x1, y1)` to `(x2, y2)`; it realizes the Manhattan distance and stays
inside any rectangle containing both endpoints. -/
def stairCell (x1 y1 x2 y2 : ℤ) (i : ℕ) : ℤ × ℤ :=
  if (i : ℤ) ≤ ((x2 - x1).natAbs : ℤ) then
    (x1 + (if x1 ≤ x2 then (i : ℤ) else -(i : ℤ)), y1)
  else
    (x2, y1 + (if y1 ≤ y2 then ((i : ℤ) - ((x2 - x1).natAbs : ℤ))
      else -((i : ℤ) - ((x2 - x1).natAbs : ℤ))))

/-- Invariant of the A* loop of `findShortestPath` on an all-Void grid (every
move costs 5).  `S` is the ghost set of settled cells: cells whose outgoing
relaxations have all been performed at their current score. -/
structure AInv (width height x1 y1 x2 y2 : ℤ) (st : AStarState) (S : Set (ℤ × ℤ)) :
    Prop where
  scoreL : ∀ n : ℤ × ℤ, st.gScore n = 999999 ∨
    (5 * manhattanDist x1 y1 n.1 n.2 ≤ st.gScore n ∧ st.gScore n < 999999)
  scoreS : st.gScore (x1, y1) = 0
  scoreInb : ∀ n : ℤ × ℤ, st.gScore n < 999999 →
    0 ≤ n.1 ∧ n.1 < width ∧ 0 ≤ n.2 ∧ n.2 < height
  entryH : ∀ e ∈ st.openSet, e.h = manhattanDist e.x e.y x2 y2
  entryG : ∀ e ∈ st.openSet, st.gScore (e.x, e.y) ≤ e.g ∧ e.g < 999999
  cover : ∀ n : ℤ × ℤ, st.gScore n < 999999 → n ∈ S ∨
    ∃ e ∈ st.openSet, (e.x, e.y) = n ∧ e.g = st.gScore n
  closed : ∀ n ∈ S, ∀ d ∈ dirs4,
    (0 ≤ n.1 + d.1 ∧ n.1 + d.1 < width ∧ 0 ≤ n.2 + d.2 ∧ n.2 + d.2 < height) →
    st.gScore (n.1 + d.1, n.2 + d.2) ≤ st.gScore n + 5
  goalNot : ((x2, y2) : ℤ × ℤ) ∉ S
  parentAdj : ∀ n : ℤ × ℤ, n ≠ (x1, y1) → st.gScore n < 999999 →
    (∃ d ∈ dirs4, st.cameFrom n = (n.1 + d.1, n.2 + d.2)) ∧
    st.gScore (st.cameFrom n) + 5 ≤ st.gScore n
  parentS : st.cameFrom (x1, y1) = (-1, -1)

/-- The part of the A* invariant that survives the final (goal) pop and drives
path reconstruction. -/
structure APost (width height x1 y1 x2 y2 : ℤ) (st : AStarState) : Prop where
  scoreL : ∀ n : ℤ × ℤ, st.gScore n = 999999 ∨
    (5 * manhattanDist x1 y1 n.1 n.2 ≤ st.gScore n ∧ st.gScore n < 999999)
  scoreS : st.gScore (x1, y1) = 0
  scoreInb : ∀ n : ℤ × ℤ, st.gScore n < 999999 →
    0 ≤ n.1 ∧ n.1 < width ∧ 0 ≤ n.2 ∧ n.2 < height
  parentAdj : ∀ n : ℤ × ℤ, n ≠ (x1, y1) → st.gScore n < 999999 →
    (∃ d ∈ dirs4, st.cameFrom n = (n.1 + d.1, n.2 + d.2)) ∧
    st.gScore (st.cameFrom n) + 5 ≤ st.gScore n
  parentS : st.cameFrom (x1, y1) = (-1, -1)

/-- Termination measure of the A* loop: every push strictly lowers some
in-rectangle score, every pop shortens the open set. -/
def aStarMeasure (width height : ℤ) (st : AStarState) : ℕ :=
  st.openSet.length + Finset.sum (rectCells width height) st.gScore

/-- Operational summary of folding `aStarRelax` over the direction list `dl`
from the popped cell `cur`, on an all-Void grid (every move costs 5). -/
structure FoldOut (width height x2 y2 : ℤ) (cur : ℤ × ℤ) (dl : List (ℤ × ℤ))
    (st0 st1 : AStarState) : Prop where
  mono : ∀ n : ℤ × ℤ, st1.gScore n ≤ st0.gScore n
  curEq : st1.gScore cur = st0.gScore cur
  changed : ∀ n : ℤ × ℤ, st1.gScore n < st0.gScore n →
    st1.gScore n = st0.gScore cur + 5 ∧
    (0 ≤ n.1 ∧ n.1 < width ∧ 0 ≤ n.2 ∧ n.2 < height) ∧
    (∃ d ∈ dl, n = (cur.1 + d.1, cur.2 + d.2)) ∧
    st1.cameFrom n = cur
  unchangedCF : ∀ n : ℤ × ℤ, st1.gScore n = st0.gScore n →
    st1.cameFrom n = st0.cameFrom n
  extOpen : ∃ ext : List AStarNode, st1.openSet = st0.openSet ++ ext
  entryNew : ∀ e ∈ st1.openSet, e ∈ st0.openSet ∨
    (e.h = manhattanDist e.x e.y x2 y2 ∧ e.g = st1.gScore (e.x, e.y) ∧
      st1.gScore (e.x, e.y) < st0.gScore (e.x, e.y))
  entryFor : ∀ n : ℤ × ℤ, st1.gScore n < st0.gScore n →
    ∃ e ∈ st1.openSet, (e.x, e.y) = n ∧ e.g = st1.gScore n
  relaxed : ∀ d ∈ dl,
    (0 ≤ cur.1 + d.1 ∧ cur.1 + d.1 < width ∧ 0 ≤ cur.2 + d.2 ∧ cur.2 + d.2 < height) →
    st1.gScore (cur.1 + d.1, cur.2 + d.2) ≤ st0.gScore cur + 5
  meas : st1.openSet.length + Finset.sum (rectCells width height) st1.gScore
    ≤ st0.openSet.length + Finset.sum (rectCells width height) st0.gScore

/-! ### Helper lemmas -/

/-- The recorded-samples component of the cave overlay does not depend on the
incoming grid. -/
theorem caveOverlayGo_snd_eq (noiseAt : ℕ → ℚ → ℚ → ℚ) (ns : ℕ) (cfg : DungeonConfig)
    (cells : List (ℤ × ℤ)) :
    ∀ p q : Grid × List NoiseCall, p.2 = q.2 →
      (cells.foldl (fun (acc : Grid × List NoiseCall) c =>
        let nx : ℚ := (c.1 : ℚ) * (1 / 10)
        let ny : ℚ := (c.2 : ℚ) * (1 / 10)
        let n := noiseAt ns nx ny
        let g2 : Grid :=
          if cfg.cave_threshold < n then
            fun vy vx => if vy = c.2 ∧ vx = c.1 then 1 else acc.1 vy vx
          else acc.1
        (g2, acc.2 ++ [⟨ns, nx, ny, n⟩])) p).2
      = (cells.foldl (fun (acc : Grid × List NoiseCall) c =>
        let nx : ℚ := (c.1 : ℚ) * (1 / 10)
        let ny : ℚ := (c.2 : ℚ) * (1 / 10)
        let n := noiseAt ns nx ny
        let g2 : Grid :=
          if cfg.cave_threshold < n then
            fun vy vx => if vy = c.2 ∧ vx = c.1 then 1 else acc.1 vy vx
          else acc.1
        (g2, acc.2 ++ [⟨ns, nx, ny, n⟩])) q).2 := by
  induction cells with
  | nil => intro p q h; simpa using h
  | cons c rest ih =>
    intro p q h
    simp only [List.foldl_cons]
    exact ih _ _ (by simp [h])

/-- The cave overlay records the same samples whatever the incoming grid. -/
theorem caveOverlay_snd_eq (noiseAt : ℕ → ℚ → ℚ → ℚ) (ns : ℕ) (cfg : DungeonConfig)
    (g g' : Grid) (width height : ℤ) :
    (caveOverlay noiseAt ns cfg g width height).2
      = (caveOverlay noiseAt ns cfg g' width height).2 := by
  unfold caveOverlay
  exact caveOverlayGo_snd_eq noiseAt ns cfg (cellList width height) (g, []) (g', []) rfl

/-- Every sample the cave overlay records uses the noise seed it was given. -/
theorem caveOverlay_seedUsed (noiseAt : ℕ → ℚ → ℚ → ℚ) (ns : ℕ) (cfg : DungeonConfig)
    (g : Grid) (width height : ℤ) :
    ∀ c ∈ (caveOverlay noiseAt ns cfg g width height).2, c.seedUsed = ns := by
  unfold caveOverlay
  suffices h : ∀ (cells : List (ℤ × ℤ)) (p : Grid × List NoiseCall),
      (∀ c ∈ p.2, c.seedUsed = ns) →
      ∀ c ∈ (cells.foldl (fun (acc : Grid × List NoiseCall) c =>
        let nx : ℚ := (c.1 : ℚ) * (1 / 10)
        let ny : ℚ := (c.2 : ℚ) * (1 / 10)
        let n := noiseAt ns nx ny
        let g2 : Grid :=
          if cfg.cave_threshold < n then
            fun vy vx => if vy = c.2 ∧ vx = c.1 then 1 else acc.1 vy vx
          else acc.1
        (g2, acc.2 ++ [⟨ns, nx, ny, n⟩])) p).2, c.seedUsed = ns by
    exact h (cellList width height) (g, []) (by simp)
  intro cells
  induction cells with
  | nil => intro p hp; simpa using hp
  | cons c rest ih =>
    intro p hp
    simp only [List.foldl_cons]
    refine ih _ ?_
    intro e he
    have hsplit : e ∈ p.2 ∨ e = (⟨ns, (c.1 : ℚ) * (1 / 10), (c.2 : ℚ) * (1 / 10),
        noiseAt ns ((c.1 : ℚ) * (1 / 10)) ((c.2 : ℚ) * (1 / 10))⟩ : NoiseCall) := by
      simpa using he
    rcases hsplit with h1 | h2
    · exact hp e h1
    · subst h2; rfl

/-- `uniformIntM` returns a value in `[a, b]` when `a ≤ b`. -/
theorem uniformIntM_bounds (rngNext : ℕ → ℕ × ℕ) (a b : ℤ) (st : ℕ) (hab : a ≤ b) :
    a ≤ (uniformIntM rngNext a b st).1 ∧ (uniformIntM rngNext a b st).1 ≤ b := by
  unfold uniformIntM
  simp only [if_pos hab]
  have hpos : (0 : ℤ) < b - a + 1 := by omega
  have h1 : 0 ≤ ((rngNext st).1 : ℤ) % (b - a + 1) :=
    Int.emod_nonneg _ (by omega)
  have h2 : ((rngNext st).1 : ℤ) % (b - a + 1) < b - a + 1 :=
    Int.emod_lt_of_pos _ hpos
  constructor <;> [skip; skip] <;> dsimp <;> omega

/-- The acceptance test implies the 2-cell separation, in both directions. -/
theorem sep_of_not_intersects (a b : Room) (h : ¬a.expandOne.intersects b) :
    roomSep a b ∧ roomSep b a := by
  unfold Room.intersects Room.expandOne at h
  unfold roomSep
  simp only [not_and_or, not_le] at h
  constructor <;> omega

/-- Separated rooms have disjoint 1-tile-expanded cell rectangles. -/
theorem sep_expand_disjoint (a b : Room) (h : roomSep a b) :
    ∀ p : ℤ × ℤ, ¬(a.expandOne.containsCell p ∧ b.expandOne.containsCell p) := by
  intro p
  unfold roomSep at h
  unfold Room.expandOne Room.containsCell
  dsimp
  omega

/-- Loop invariant of `generateRoomsGo`: every accepted room stays inside the
margins and pairwise 2-separated, given a workable configuration. -/
theorem generateRoomsGo_inv (rngNext : ℕ → ℕ × ℕ) (cfg : DungeonConfig)
    (width height : ℤ) (h1 : 1 ≤ cfg.min_room_size)
    (h2 : cfg.min_room_size ≤ cfg.max_room_size)
    (h3 : cfg.max_room_size + 3 ≤ width) (h4 : cfg.max_room_size + 3 ≤ height) :
    ∀ (fuel : ℕ) (rooms : List Room) (st : ℕ),
      (∀ r ∈ rooms, roomInBounds r width height) → rooms.Pairwise roomSep →
      (∀ r ∈ (generateRoomsGo rngNext cfg width height fuel rooms st).1,
        roomInBounds r width height)
      ∧ (generateRoomsGo rngNext cfg width height fuel rooms st).1.Pairwise roomSep := by
  intro fuel
  induction fuel with
  | zero => intro rooms st hb hp; exact ⟨hb, hp⟩
  | succ n ih =>
    intro rooms st hb hp
    rw [generateRoomsGo]
    by_cases hcount : (rooms.length : ℤ) < cfg.room_count
    · rw [if_pos hcount]
      have hwb := uniformIntM_bounds rngNext cfg.min_room_size cfg.max_room_size st h2
      set dw := uniformIntM rngNext cfg.min_room_size cfg.max_room_size st with hdw
      have hhb := uniformIntM_bounds rngNext cfg.min_room_size cfg.max_room_size dw.2 h2
      set dh := uniformIntM rngNext cfg.min_room_size cfg.max_room_size dw.2 with hdh
      have hxb := uniformIntM_bounds rngNext 1 (width - dw.1 - 2) dh.2 (by omega)
      set dx := uniformIntM rngNext 1 (width - dw.1 - 2) dh.2 with hdx
      have hyb := uniformIntM_bounds rngNext 1 (height - dh.1 - 2) dx.2 (by omega)
      set dy := uniformIntM rngNext 1 (height - dh.1 - 2) dx.2 with hdy
      by_cases hacc : rooms.any fun r => decide ((Room.expandOne ⟨dx.1, dy.1, dw.1, dh.1⟩).intersects r)
      · rw [if_pos hacc]
        exact ih rooms dy.2 hb hp
      · rw [if_neg hacc]
        have hnew : roomInBounds ⟨dx.1, dy.1, dw.1, dh.1⟩ width height := by
          unfold roomInBounds; dsimp; omega
        have hsep : ∀ r ∈ rooms, ¬(Room.expandOne ⟨dx.1, dy.1, dw.1, dh.1⟩).intersects r := by
          intro r hr hint
          apply hacc
          simp only [List.any_eq_true, decide_eq_true_eq]
          exact ⟨r, hr, hint⟩
        refine ih (rooms ++ [⟨dx.1, dy.1, dw.1, dh.1⟩]) dy.2 ?_ ?_
        · intro r hr
          rcases List.mem_append.mp hr with hrl | hrr
          · exact hb r hrl
          · simp only [List.mem_singleton] at hrr
            subst hrr; exact hnew
        · refine List.pairwise_append.mpr ⟨hp, List.pairwise_singleton _ _, ?_⟩
          intro a ha b hbb
          simp only [List.mem_singleton] at hbb
          subst hbb
          exact (sep_of_not_intersects _ a (hsep a ha)).2
    · rw [if_neg hcount]
      exact ⟨hb, hp⟩

/-! ### Flood-fill component lemmas (for claims C7 and C3) -/

theorem cellPos_inj (ox oy : ℤ) {p q : ℤ × ℤ} (h : cellPos ox oy p = cellPos ox oy q) :
    p = q := by
  obtain ⟨p1, p2⟩ := p
  obtain ⟨q1, q2⟩ := q
  simp only [cellPos, Prod.mk.injEq] at h
  simp only [Prod.mk.injEq]
  omega

theorem mem_rectCells (width height : ℤ) (p : ℤ × ℤ) :
    p ∈ rectCells width height ↔ inRect width height p := by
  unfold rectCells inRect
  rw [Finset.mem_product, Finset.mem_Icc, Finset.mem_Icc]
  constructor
  · rintro ⟨⟨h1, h2⟩, h3, h4⟩; exact ⟨h1, by omega, h3, by omega⟩
  · rintro ⟨h1, h2, h3, h4⟩; exact ⟨⟨h1, by omega⟩, h3, by omega⟩

theorem oppositeId_ne (t : ItemId) : oppositeId t ≠ t ∧ oppositeId t ≠ 0 := by
  unfold oppositeId
  by_cases h : t = 4608
  · subst h; exact ⟨by decide, by decide⟩
  · rw [if_neg h]; exact ⟨fun hc => h hc.symm, by decide⟩

theorem comp_self (m : MapM) (t : ItemId) (width height ox oy : ℤ) (s : ℤ × ℤ) :
    s ∈ comp m t width height ox oy s :=
  Relation.ReflTransGen.refl

theorem comp_target (m : MapM) (t : ItemId) (width height ox oy : ℤ) (s : ℤ × ℤ)
    (hs : isTargetCell m t width height ox oy s) :
    ∀ p ∈ comp m t width height ox oy s, isTargetCell m t width height ox oy p := by
  intro p hp
  induction hp with
  | refl => exact hs
  | tail _ hstep _ => exact hstep.2

theorem comp_tail (m : MapM) (t : ItemId) (width height ox oy : ℤ) (s p q : ℤ × ℤ)
    (hp : p ∈ comp m t width height ox oy s)
    (hstep : compStep m t width height ox oy p q) :
    q ∈ comp m t width height ox oy s :=
  Relation.ReflTransGen.tail hp hstep

theorem comp_subset_rect (m : MapM) (t : ItemId) (width height ox oy : ℤ) (s : ℤ × ℤ)
    (hs : inRect width height s) :
    comp m t width height ox oy s ⊆ ↑(rectCells width height) := by
  intro p hp
  rw [Finset.mem_coe, mem_rectCells]
  induction hp with
  | refl => exact hs
  | tail _ hstep _ => exact hstep.2.1

theorem comp_finite (m : MapM) (t : ItemId) (width height ox oy : ℤ) (s : ℤ × ℤ)
    (hs : inRect width height s) :
    (comp m t width height ox oy s).Finite :=
  Set.Finite.subset (rectCells width height).finite_toSet
    (comp_subset_rect m t width height ox oy s hs)

theorem compStep_symm (m : MapM) (t : ItemId) (width height ox oy : ℤ) (a b : ℤ × ℤ)
    (ha : isTargetCell m t width height ox oy a)
    (h : compStep m t width height ox oy a b) :
    compStep m t width height ox oy b a := by
  obtain ⟨⟨d, hd, hb⟩, _⟩ := h
  subst hb
  refine ⟨⟨(-d.1, -d.2), ?_, ?_⟩, ha⟩
  · fin_cases hd <;> simp [dirs4]
  · fin_cases hd <;> exact Prod.ext (by simp) (by simp)

theorem comp_symm_reach (m : MapM) (t : ItemId) (width height ox oy : ℤ) (s q : ℤ × ℤ)
    (hs : isTargetCell m t width height ox oy s)
    (hq : q ∈ comp m t width height ox oy s) :
    s ∈ comp m t width height ox oy q := by
  induction hq with
  | refl => exact Relation.ReflTransGen.refl
  | tail hr hstep ih =>
    rename_i b c
    have hb : isTargetCell m t width height ox oy b :=
      comp_target m t width height ox oy s hs b hr
    exact Relation.ReflTransGen.head (compStep_symm m t width height ox oy b c hb hstep) ih

theorem comp_eq_of_mem (m : MapM) (t : ItemId) (width height ox oy : ℤ) (s q : ℤ × ℤ)
    (hs : isTargetCell m t width height ox oy s)
    (hq : q ∈ comp m t width height ox oy s) :
    comp m t width height ox oy q = comp m t width height ox oy s := by
  have hqs := comp_symm_reach m t width height ox oy s q hs hq
  ext x
  constructor
  · exact fun hx => Relation.ReflTransGen.trans hq hx
  · exact fun hx => Relation.ReflTransGen.trans hqs hx

/-- Component transfer: if the target-cell predicate of `m2` is that of `m`
minus a set `X` that the component of `p` avoids, the component of `p` is
unchanged. -/
theorem comp_transfer (m m2 : MapM) (t : ItemId) (width height ox oy : ℤ)
    (X : Set (ℤ × ℤ)) (p : ℤ × ℤ)
    (hchar : ∀ q, isTargetCell m2 t width height ox oy q ↔
      (isTargetCell m t width height ox oy q ∧ q ∉ X))
    (hdisj : ∀ q ∈ comp m t width height ox oy p, q ∉ X) :
    comp m2 t width height ox oy p = comp m t width height ox oy p := by
  ext x
  constructor
  · intro hx
    induction hx with
    | refl => exact Relation.ReflTransGen.refl
    | tail hr hstep ih =>
      exact Relation.ReflTransGen.tail ih ⟨hstep.1, ((hchar _).mp hstep.2).1⟩
  · intro hx
    induction hx with
    | refl => exact Relation.ReflTransGen.refl
    | tail hr hstep ih =>
      rename_i b c
      have hcX : c ∉ X := hdisj c (Relation.ReflTransGen.tail hr hstep)
      exact Relation.ReflTransGen.tail ih ⟨hstep.1, (hchar c).mpr ⟨hstep.2, hcX⟩⟩

/-- A cell with no same-id neighbour (in the current map) has the singleton
component. -/
theorem comp_singleton (m : MapM) (t : ItemId) (width height ox oy : ℤ) (c : ℤ × ℤ)
    (h : ∀ q, ¬compStep m t width height ox oy c q) :
    comp m t width height ox oy c = {c} := by
  ext x
  simp only [Set.mem_singleton_iff]
  constructor
  · intro hx
    rcases (Relation.ReflTransGen.cases_head hx) with h1 | ⟨b, hb, _⟩
    · exact h1.symm
    · exact absurd hb (h b)
  · rintro rfl; exact Relation.ReflTransGen.refl

/-- One `bfsStep` preserves the queue/visited invariant; it grows the visited
set, marks the examined neighbour whenever that neighbour is a target cell of
the base map, and preserves `queue length + unvisited-rectangle count`. -/
theorem bfsStep_spec (t : ItemId) (width height ox oy : ℤ) (mread mbase : MapM)
    (s c : ℤ × ℤ) (B D : Finset (ℤ × ℤ))
    (hagree : ∀ p : ℤ × ℤ, p ∉ B ∪ D → cellId mread ox oy p = cellId mbase ox oy p)
    (hc : c ∈ comp mbase t width height ox oy s)
    (d : ℤ × ℤ) (hd : d ∈ dirs4) (q : List (ℤ × ℤ)) (v : Finset (ℤ × ℤ))
    (h : BfsQV t width height ox oy mbase s B D q v) :
    BfsQV t width height ox oy mbase s B D
        (bfsStep t width height ox oy 7 mread c (q, v) d).1
        (bfsStep t width height ox oy 7 mread c (q, v) d).2
    ∧ v ⊆ (bfsStep t width height ox oy 7 mread c (q, v) d).2
    ∧ (isTargetCell mbase t width height ox oy (c.1 + d.1, c.2 + d.2) →
        (c.1 + d.1, c.2 + d.2) ∈ (bfsStep t width height ox oy 7 mread c (q, v) d).2)
    ∧ (bfsStep t width height ox oy 7 mread c (q, v) d).1.length
        + ((rectCells width height) \ (bfsStep t width height ox oy 7 mread c (q, v) d).2).card
      = q.length + ((rectCells width height) \ v).card := by
  unfold bfsStep
  dsimp only
  by_cases hb : 0 ≤ c.1 + d.1 ∧ c.1 + d.1 < width ∧ 0 ≤ c.2 + d.2 ∧ c.2 + d.2 < height
  · rw [if_pos hb]
    by_cases hmem : (c.1 + d.1, c.2 + d.2) ∈ v
    · rw [if_pos hmem]
      exact ⟨h, Finset.Subset.refl v, fun _ => hmem, rfl⟩
    · rw [if_neg hmem]
      have hnBD : (c.1 + d.1, c.2 + d.2) ∉ B ∪ D := by
        intro hx
        exact hmem (by rw [h.cover]; exact Finset.mem_union_left _ hx)
      have hagr := hagree (c.1 + d.1, c.2 + d.2) hnBD
      rcases hgid : groundIdAt mread (c.1 + d.1 + ox, c.2 + d.2 + oy, 7) with _ | gid
      · dsimp only
        refine ⟨h, Finset.Subset.refl v, ?_, rfl⟩
        intro htgt
        have hsome : groundIdAt mread (c.1 + d.1 + ox, c.2 + d.2 + oy, 7) = some t := by
          exact hagr.trans htgt.2
        rw [hgid] at hsome
        exact absurd hsome (by simp)
      · dsimp only
        by_cases hgt : gid = t
        · rw [if_pos hgt]
          have htgtB : isTargetCell mbase t width height ox oy (c.1 + d.1, c.2 + d.2) := by
            refine ⟨⟨hb.1, hb.2.1, hb.2.2.1, hb.2.2.2⟩, ?_⟩
            rw [← hgt]
            exact hagr.symm.trans hgid
          have hreachN : (c.1 + d.1, c.2 + d.2) ∈ comp mbase t width height ox oy s :=
            comp_tail mbase t width height ox oy s c _ hc ⟨⟨d, hd, rfl⟩, htgtB⟩
          have hnq : (c.1 + d.1, c.2 + d.2) ∉ q := by
            intro hx
            exact hmem (by
              rw [h.cover]
              exact Finset.mem_union_right _ (List.mem_toFinset.mpr hx))
          have hrectN : (c.1 + d.1, c.2 + d.2) ∈ rectCells width height := by
            rw [mem_rectCells]
            exact ⟨hb.1, hb.2.1, hb.2.2.1, hb.2.2.2⟩
          refine ⟨?_, ?_, fun _ => Finset.mem_insert_self _ _, ?_⟩
          · refine ⟨?_, ?_, ?_, ?_, ?_⟩
            · refine List.Nodup.append h.nodup (List.nodup_singleton _) ?_
              intro a ha hx
              simp only [List.mem_singleton] at hx
              subst hx
              exact hnq ha
            · rw [h.cover]
              ext z
              simp only [Finset.mem_insert, Finset.mem_union, List.mem_toFinset,
                List.mem_append, List.mem_singleton]
              tauto
            · rw [Finset.disjoint_left]
              intro a ha hx
              rw [List.mem_toFinset, List.mem_append] at hx
              rcases hx with hx | hx
              · exact (Finset.disjoint_left.mp h.disjQ ha) (List.mem_toFinset.mpr hx)
              · simp only [List.mem_singleton] at hx
                subst hx
                exact hnBD ha
            · intro p hp
              rcases Finset.mem_union.mp hp with hp | hp
              · exact h.reach p (Finset.mem_union_left _ hp)
              · rw [List.mem_toFinset, List.mem_append] at hp
                rcases hp with hp | hp
                · exact h.reach p (Finset.mem_union_right _ (List.mem_toFinset.mpr hp))
                · simp only [List.mem_singleton] at hp
                  subst hp
                  exact hreachN
            · intro p hp
              rcases Finset.mem_union.mp hp with hp | hp
              · exact h.rectQ p (Finset.mem_union_left _ hp)
              · rw [List.mem_toFinset, List.mem_append] at hp
                rcases hp with hp | hp
                · exact h.rectQ p (Finset.mem_union_right _ (List.mem_toFinset.mpr hp))
                · simp only [List.mem_singleton] at hp
                  subst hp
                  exact ⟨hb.1, hb.2.1, hb.2.2.1, hb.2.2.2⟩
          · exact Finset.subset_insert _ v
          · have hsd : rectCells width height \ insert (c.1 + d.1, c.2 + d.2) v
                = (rectCells width height \ v).erase (c.1 + d.1, c.2 + d.2) := by
              ext z
              simp only [Finset.mem_sdiff, Finset.mem_insert, Finset.mem_erase]
              tauto
            have hmemSd : (c.1 + d.1, c.2 + d.2) ∈ rectCells width height \ v :=
              Finset.mem_sdiff.mpr ⟨hrectN, hmem⟩
            have hcard : (rectCells width height \ v).card ≠ 0 :=
              Finset.card_ne_zero_of_mem hmemSd
            rw [hsd, Finset.card_erase_of_mem hmemSd]
            simp only [List.length_append, List.length_singleton]
            omega
        · rw [if_neg hgt]
          refine ⟨h, Finset.Subset.refl v, ?_, rfl⟩
          intro htgt
          have hsome : groundIdAt mread (c.1 + d.1 + ox, c.2 + d.2 + oy, 7) = some t :=
            hagr.trans htgt.2
          rw [hgid] at hsome
          exact absurd (Option.some.inj hsome) hgt
  · rw [if_neg hb]
    refine ⟨h, Finset.Subset.refl v, ?_, rfl⟩
    intro htgt
    exact absurd htgt.1 hb

/-- Folding `bfsStep` over (a sublist of) the four directions preserves the
invariant, grows the visited set, marks every examined target neighbour of
the dequeued cell, and preserves `queue length + unvisited count`. -/
theorem bfsFold_spec (t : ItemId) (width height ox oy : ℤ) (mread mbase : MapM)
    (s c : ℤ × ℤ) (B D : Finset (ℤ × ℤ))
    (hagree : ∀ p : ℤ × ℤ, p ∉ B ∪ D → cellId mread ox oy p = cellId mbase ox oy p)
    (hc : c ∈ comp mbase t width height ox oy s) :
    ∀ dl : List (ℤ × ℤ), (∀ d ∈ dl, d ∈ dirs4) →
    ∀ (q : List (ℤ × ℤ)) (v : Finset (ℤ × ℤ)),
      BfsQV t width height ox oy mbase s B D q v →
      BfsQV t width height ox oy mbase s B D
          (dl.foldl (bfsStep t width height ox oy 7 mread c) (q, v)).1
          (dl.foldl (bfsStep t width height ox oy 7 mread c) (q, v)).2
      ∧ v ⊆ (dl.foldl (bfsStep t width height ox oy 7 mread c) (q, v)).2
      ∧ (∀ d ∈ dl, isTargetCell mbase t width height ox oy (c.1 + d.1, c.2 + d.2) →
          (c.1 + d.1, c.2 + d.2) ∈ (dl.foldl (bfsStep t width height ox oy 7 mread c) (q, v)).2)
      ∧ (dl.foldl (bfsStep t width height ox oy 7 mread c) (q, v)).1.length
          + ((rectCells width height)
              \ (dl.foldl (bfsStep t width height ox oy 7 mread c) (q, v)).2).card
        = q.length + ((rectCells width height) \ v).card := by
  intro dl
  induction dl with
  | nil =>
    intro _ q v h
    exact ⟨h, Finset.Subset.refl v, by simp, rfl⟩
  | cons d rest ih =>
    intro hdl q v h
    simp only [List.foldl_cons]
    obtain ⟨h1, hsub1, htgt1, hmeas1⟩ :=
      bfsStep_spec t width height ox oy mread mbase s c B D hagree hc d
        (hdl d (List.mem_cons_self d rest)) q v h
    obtain ⟨h2, hsub2, htgt2, hmeas2⟩ :=
      ih (fun e he => hdl e (List.mem_cons_of_mem d he))
        (bfsStep t width height ox oy 7 mread c (q, v) d).1
        (bfsStep t width height ox oy 7 mread c (q, v) d).2 h1
    refine ⟨h2, hsub1.trans hsub2, ?_, hmeas2.trans hmeas1⟩
    intro e he htgt
    rcases List.mem_cons.mp he with rfl | he2
    · exact hsub2 (htgt1 htgt)
    · exact htgt2 e he2 htgt

/-- If a map agrees with `m` everywhere except possibly at `pos0`, so does
`replaceGroundAt` applied at `pos0`. -/
theorem replaceGroundAt_off (r : ItemId) (m : MapM) (pos0 pos : Pos) (h : pos ≠ pos0) :
    replaceGroundAt r m pos0 pos = m pos := by
  unfold replaceGroundAt
  cases hm : m.getTile pos0 with
  | none => rfl
  | some tl =>
    obtain ⟨og, its⟩ := tl
    cases og with
    | none => rfl
    | some g =>
      dsimp only
      unfold MapM.setTile
      rw [if_neg h]

/-- Main induction for `floodFillGo`: from any invariant state with adequate
fuel, the loop computes the component count and performs exactly the
component's replacements. -/
theorem floodFillGo_spec (t r : ItemId) (width height ox oy : ℤ) (m0 : MapM)
    (s : ℤ × ℤ) (hsT : isTargetCell m0 t width height ox oy s) :
    ∀ (fuel : ℕ) (D : Finset (ℤ × ℤ)) (q : List (ℤ × ℤ)) (v : Finset (ℤ × ℤ))
      (m : MapM) (count : ℕ),
      FFInv t r width height ox oy m0 s D q v m count →
      q.length + ((rectCells width height) \ v).card < fuel →
      BfsOut t r width height ox oy m0 s
        (floodFillGo t r width height ox oy 7 fuel q v m count) := by
  intro fuel
  induction fuel with
  | zero => intro D q v m count _ hlt; exact absurd hlt (Nat.not_lt_zero _)
  | succ n ih =>
    intro D q v m count inv hlt
    match q with
    | [] =>
      rw [floodFillGo]
      have hvD : v = D := by
        have := inv.qv.cover
        simpa using this
      have hsD : s ∈ D := by rw [← hvD]; exact inv.smem
      have hDcomp : ∀ p ∈ comp m0 t width height ox oy s, p ∈ D := by
        intro p hp
        induction hp with
        | refl => exact hsD
        | tail hr hstep ihp =>
          obtain ⟨⟨d, hd, rfl⟩, htgt⟩ := hstep
          have := inv.closure _ ihp d hd htgt
          rw [hvD] at this
          exact this
      have hset : (↑D : Set (ℤ × ℤ)) = comp m0 t width height ox oy s := by
        ext p
        constructor
        · intro hp
          exact inv.qv.reach p (by simpa using hp)
        · exact fun hp => hDcomp p hp
      constructor
      · show count = _
        rw [inv.countEq, ← hset, Set.ncard_coe_Finset]
      · intro pos hpos
        refine inv.mapOff pos ?_
        intro p hp
        exact hpos p (by rw [← hset]; exact hp)
      · intro p hp
        exact inv.mapOn p (hDcomp p hp)
    | c :: qrest =>
      rw [floodFillGo]
      have hcq : c ∈ (c :: qrest).toFinset := by simp
      have hcv : c ∈ v := by
        rw [inv.qv.cover]; exact Finset.mem_union_right _ hcq
      have hcD : c ∉ D := by
        intro hx
        exact (Finset.disjoint_left.mp inv.qv.disjQ (Finset.mem_union_right _ hx)) hcq
      have hcreach : c ∈ comp m0 t width height ox oy s :=
        inv.qv.reach c (Finset.mem_union_right _ hcq)
      have hcT : isTargetCell m0 t width height ox oy c :=
        comp_target m0 t width height ox oy s hsT c hcreach
      have hmc : m (cellPos ox oy c) = m0 (cellPos ox oy c) := by
        refine inv.mapOff _ ?_
        intro p hp heq
        exact hcD ((cellPos_inj ox oy heq) ▸ hp)
      obtain ⟨tl, htl, htlg⟩ : ∃ tl : TileM, m0 (cellPos ox oy c) = some tl ∧
          tl.ground = some t := by
        have hci := hcT.2
        unfold cellId groundIdAt MapM.getTile at hci
        cases hm0 : m0 (cellPos ox oy c) with
        | none => rw [hm0] at hci; exact absurd hci (by simp)
        | some tl => rw [hm0] at hci; exact ⟨tl, rfl, hci⟩
      have hcp : ((c.1 + ox, c.2 + oy, 7) : Pos) = cellPos ox oy c := rfl
      set m2 : MapM :=
        (if r ≠ 0 then replaceGroundAt r m (c.1 + ox, c.2 + oy, 7) else m) with hm2def
      have hm2off : ∀ pos : Pos, pos ≠ cellPos ox oy c → m2 pos = m pos := by
        intro pos hne
        rw [hm2def]
        by_cases hr : r ≠ 0
        · rw [if_pos hr, hcp]
          exact replaceGroundAt_off r m _ pos hne
        · rw [if_neg hr]
      have hm2c : r ≠ 0 → m2 (cellPos ox oy c) = some { tl with ground := some r } := by
        intro hr
        rw [hm2def, if_pos hr, hcp]
        unfold replaceGroundAt MapM.getTile
        rw [hmc, htl]
        dsimp only
        rw [htlg]
        dsimp only
        unfold MapM.setTile
        rw [if_pos rfl]
      have hm2c0 : r = 0 → m2 = m := by
        intro hr
        rw [hm2def, if_neg (by simpa using hr)]
      -- invariant for the state after popping c
      have hqv2 : BfsQV t width height ox oy m0 s ∅ (insert c D) qrest v := by
        refine ⟨inv.qv.nodup.of_cons, ?_, ?_, ?_, ?_⟩
        · rw [inv.qv.cover]
          ext z
          simp only [Finset.mem_union, Finset.mem_insert, List.mem_toFinset,
            List.mem_cons, Finset.not_mem_empty, false_or]
          tauto
        · rw [Finset.disjoint_left]
          intro a ha hx
          simp only [Finset.mem_union, Finset.mem_insert, Finset.not_mem_empty,
            false_or] at ha
          rcases ha with rfl | ha
          · exact (List.nodup_cons.mp inv.qv.nodup).1 (List.mem_toFinset.mp hx)
          · exact (Finset.disjoint_left.mp inv.qv.disjQ (Finset.mem_union_right _ ha))
              (by simp [List.mem_toFinset.mp hx])
        · intro p hp
          refine inv.qv.reach p ?_
          simp only [Finset.mem_union, Finset.mem_insert, List.mem_toFinset] at hp ⊢
          simp only [List.mem_cons]
          tauto
        · intro p hp
          refine inv.qv.rectQ p ?_
          simp only [Finset.mem_union, Finset.mem_insert, List.mem_toFinset] at hp ⊢
          simp only [List.mem_cons]
          tauto
      have hagree2 : ∀ p : ℤ × ℤ, p ∉ (∅ : Finset (ℤ × ℤ)) ∪ insert c D →
          cellId m2 ox oy p = cellId m0 ox oy p := by
        intro p hp
        simp only [Finset.mem_union, Finset.mem_insert, Finset.not_mem_empty,
          false_or, not_or] at hp
        have hpc : cellPos ox oy p ≠ cellPos ox oy c := by
          intro heq
          exact hp.1 (cellPos_inj ox oy heq)
        have h1 : m2 (cellPos ox oy p) = m (cellPos ox oy p) := hm2off _ hpc
        have h2 : m (cellPos ox oy p) = m0 (cellPos ox oy p) := by
          refine inv.mapOff _ ?_
          intro a ha heq
          exact hp.2 ((cellPos_inj ox oy heq) ▸ ha)
        unfold cellId groundIdAt MapM.getTile
        rw [h1, h2]
      obtain ⟨hqvF, hsubF, htgtF, hmeasF⟩ :=
        bfsFold_spec t width height ox oy m2 m0 s c ∅ (insert c D) hagree2 hcreach
          dirs4 (fun d hd => hd) qrest v hqv2
      have hinv2 : FFInv t r width height ox oy m0 s (insert c D)
          (dirs4.foldl (bfsStep t width height ox oy 7 m2 c) (qrest, v)).1
          (dirs4.foldl (bfsStep t width height ox oy 7 m2 c) (qrest, v)).2
          m2 (count + 1) := by
        refine ⟨hqvF, hsubF inv.smem, ?_, ?_, ?_, ?_⟩
        · intro p hp d hd htgt
          rcases Finset.mem_insert.mp hp with rfl | hp2
          · exact htgtF d hd htgt
          · exact hsubF (inv.closure p hp2 d hd htgt)
        · rw [inv.countEq, Finset.card_insert_of_not_mem hcD]
        · intro pos hpos
          have hpc : pos ≠ cellPos ox oy c := hpos c (Finset.mem_insert_self c D)
          rw [hm2off pos hpc]
          exact inv.mapOff pos fun p hp => hpos p (Finset.mem_insert_of_mem hp)
        · intro p hp
          rcases Finset.mem_insert.mp hp with rfl | hp2
          · exact ⟨fun hr => by rw [hm2c0 hr, hmc], fun hr => ⟨tl, htl, htlg, hm2c hr⟩⟩
          · have hpc : cellPos ox oy p ≠ cellPos ox oy c := by
              intro heq
              exact hcD ((cellPos_inj ox oy heq) ▸ hp2)
            have hme : m2 (cellPos ox oy p) = m (cellPos ox oy p) := hm2off _ hpc
            obtain ⟨h0, hr⟩ := inv.mapOn p hp2
            exact ⟨fun h => by rw [hme, h0 h],
              fun h => by obtain ⟨tl2, a, b, cc⟩ := hr h; exact ⟨tl2, a, b, by rw [hme, cc]⟩⟩
      refine ih (insert c D) _ _ m2 (count + 1) hinv2 ?_
      rw [hmeasF]
      simp only [List.length_cons] at hlt
      omega

/-- Main induction for the visited-marking BFS: from an invariant state whose
component avoids the background set `V0`, the loop returns the background plus
exactly the component of the origin. -/
theorem markVisitedGo_spec (t : ItemId) (width height ox oy : ℤ) (m : MapM)
    (s : ℤ × ℤ) (V0 : Finset (ℤ × ℤ))
    (hdisj : ∀ p ∈ comp m t width height ox oy s, p ∉ V0) :
    ∀ (fuel : ℕ) (D : Finset (ℤ × ℤ)) (q : List (ℤ × ℤ)) (v : Finset (ℤ × ℤ)),
      BfsQV t width height ox oy m s V0 D q v →
      s ∈ v →
      (∀ p ∈ D, ∀ d ∈ dirs4,
        isTargetCell m t width height ox oy (p.1 + d.1, p.2 + d.2) →
        (p.1 + d.1, p.2 + d.2) ∈ v) →
      q.length + ((rectCells width height) \ v).card < fuel →
      ∃ CF : Finset (ℤ × ℤ), (↑CF : Set (ℤ × ℤ)) = comp m t width height ox oy s ∧
        markVisitedGo m t width height ox oy 7 fuel q v = V0 ∪ CF := by
  intro fuel
  induction fuel with
  | zero => intro D q v _ _ _ hlt; exact absurd hlt (Nat.not_lt_zero _)
  | succ n ih =>
    intro D q v hqv hsv hclo hlt
    match q with
    | [] =>
      rw [markVisitedGo]
      refine ⟨D, ?_, ?_⟩
      · ext p
        constructor
        · intro hp
          exact hqv.reach p (by simpa using hp)
        · intro hp
          induction hp with
          | refl =>
            have : s ∈ V0 ∪ D ∪ (∅ : Finset (ℤ × ℤ)) := by
              have hc := hqv.cover
              simp only [List.toFinset_nil] at hc
              rw [← hc]
              simpa using hsv
            have hsnV : s ∉ V0 := hdisj s (comp_self m t width height ox oy s)
            simp only [Finset.union_empty, Finset.mem_union] at this
            tauto
          | tail hr hstep ihp =>
            rename_i b c2
            obtain ⟨⟨d, hd, rfl⟩, htgt⟩ := hstep
            have hbv := hclo b ihp d hd htgt
            have hc := hqv.cover
            simp only [List.toFinset_nil] at hc
            rw [hc] at hbv
            simp only [Finset.union_empty, Finset.mem_union] at hbv
            rcases hbv with hbv | hbv
            · exact absurd hbv (hdisj _ (Relation.ReflTransGen.tail hr ⟨⟨d, hd, rfl⟩, htgt⟩))
            · exact hbv
      · have hc := hqv.cover
        simp only [List.toFinset_nil] at hc
        rw [hc]
        simp
    | c :: qrest =>
      rw [markVisitedGo]
      have hcq : c ∈ (c :: qrest).toFinset := by simp
      have hcreach : c ∈ comp m t width height ox oy s :=
        hqv.reach c (Finset.mem_union_right _ hcq)
      have hqv2 : BfsQV t width height ox oy m s V0 (insert c D) qrest v := by
        refine ⟨hqv.nodup.of_cons, ?_, ?_, ?_, ?_⟩
        · rw [hqv.cover]
          ext z
          simp only [Finset.mem_union, Finset.mem_insert, List.mem_toFinset,
            List.mem_cons]
          tauto
        · rw [Finset.disjoint_left]
          intro a ha hx
          simp only [Finset.mem_union, Finset.mem_insert] at ha
          rcases ha with ha | rfl | ha
          · exact (Finset.disjoint_left.mp hqv.disjQ (Finset.mem_union_left _ ha))
              (by simp [List.mem_toFinset.mp hx])
          · exact (List.nodup_cons.mp hqv.nodup).1 (List.mem_toFinset.mp hx)
          · exact (Finset.disjoint_left.mp hqv.disjQ (Finset.mem_union_right _ ha))
              (by simp [List.mem_toFinset.mp hx])
        · intro p hp
          refine hqv.reach p ?_
          simp only [Finset.mem_union, Finset.mem_insert, List.mem_toFinset] at hp ⊢
          simp only [List.mem_cons]
          tauto
        · intro p hp
          refine hqv.rectQ p ?_
          simp only [Finset.mem_union, Finset.mem_insert, List.mem_toFinset] at hp ⊢
          simp only [List.mem_cons]
          tauto
      obtain ⟨hqvF, hsubF, htgtF, hmeasF⟩ :=
        bfsFold_spec t width height ox oy m m s c V0 (insert c D)
          (fun p _ => rfl) hcreach dirs4 (fun d hd => hd) qrest v hqv2
      refine ih (insert c D) _ _ hqvF (hsubF hsv) ?_ ?_
      · intro p hp d hd htgt
        rcases Finset.mem_insert.mp hp with rfl | hp2
        · exact htgtF d hd htgt
        · exact hsubF (hclo p hp2 d hd htgt)
      · rw [hmeasF]
        simp only [List.length_cons] at hlt
        omega

theorem rectCells_card (width height : ℤ) :
    (rectCells width height).card = width.toNat * height.toNat := by
  unfold rectCells
  rw [Finset.card_product, Int.card_Icc, Int.card_Icc]
  congr 1 <;> omega

/-- The initial flood-fill state satisfies the invariant. -/
theorem ffInv_init (t r : ItemId) (width height ox oy : ℤ) (m : MapM) (s : ℤ × ℤ)
    (hT : isTargetCell m t width height ox oy s) :
    FFInv t r width height ox oy m s ∅ [s] {s} m 0 := by
  refine ⟨⟨List.nodup_singleton s, ?_, ?_, ?_, ?_⟩, ?_, ?_, rfl, ?_, ?_⟩
  · simp
  · simp
  · intro p hp
    simp only [Finset.empty_union, List.toFinset_cons, List.toFinset_nil,
      insert_emptyc_eq, Finset.mem_singleton] at hp
    rw [hp]
    exact comp_self m t width height ox oy s
  · intro p hp
    simp only [Finset.empty_union, List.toFinset_cons, List.toFinset_nil,
      insert_emptyc_eq, Finset.mem_singleton] at hp
    rw [hp]
    exact hT.1
  · exact Finset.mem_singleton_self s
  · intro p hp; simp at hp
  · intro pos _; rfl
  · intro p hp; simp at hp

/-- The initial fuel `width*height + 1` exceeds the loop measure. -/
theorem ffFuel_init (width height : ℤ) (s : ℤ × ℤ) (hs : inRect width height s) :
    ([s].length : ℕ) + ((rectCells width height) \ {s}).card
      < width.toNat * height.toNat + 1 := by
  have hsr : s ∈ rectCells width height := (mem_rectCells width height s).mpr hs
  have hsub : {s} ⊆ rectCells width height := Finset.singleton_subset_iff.mpr hsr
  have hcard : ((rectCells width height) \ {s}).card
      = (rectCells width height).card - 1 := by
    rw [Finset.card_sdiff hsub, Finset.card_singleton]
  have hpos : 1 ≤ (rectCells width height).card := Finset.card_pos.mpr ⟨s, hsr⟩
  rw [hcard, rectCells_card]
  rw [rectCells_card] at hpos
  simp only [List.length_singleton]
  omega

/-- `floodFillCount` with replacement id 0 probes the component size and
leaves the map untouched. -/
theorem floodFillCount_probe (m : MapM) (t : ItemId) (width height ox oy : ℤ)
    (s : ℤ × ℤ) (hT : isTargetCell m t width height ox oy s) :
    floodFillCount m s.1 s.2 7 width height t 0 ox oy
      = ((comp m t width height ox oy s).ncard, m) := by
  unfold floodFillCount
  have hgid : groundIdAt m (s.1 + ox, s.2 + oy, 7) = some t := hT.2
  rw [hgid]
  dsimp only
  rw [if_pos rfl]
  have hout := floodFillGo_spec t 0 width height ox oy m s hT
    (width.toNat * height.toNat + 1) ∅ [s] {s} m 0
    (ffInv_init t 0 width height ox oy m s hT) (ffFuel_init width height s hT.1)
  refine Prod.ext hout.countEq ?_
  show (floodFillGo t 0 width height ox oy 7 _ [s] {s} m 0).2 = m
  funext pos
  by_cases hex : ∃ p ∈ comp m t width height ox oy s, pos = cellPos ox oy p
  · obtain ⟨p, hp, rfl⟩ := hex
    exact (hout.mapOn p hp).1 rfl
  · push_neg at hex
    exact hout.mapOff pos hex

/-- `floodFillCount` with a nonzero replacement id counts the component and
replaces exactly its grounds. -/
theorem floodFillCount_replace (m : MapM) (t r : ItemId) (width height ox oy : ℤ)
    (s : ℤ × ℤ) (hT : isTargetCell m t width height ox oy s) (hr : r ≠ 0) :
    (floodFillCount m s.1 s.2 7 width height t r ox oy).1
        = (comp m t width height ox oy s).ncard
    ∧ (∀ pos : Pos, (∀ p ∈ comp m t width height ox oy s, pos ≠ cellPos ox oy p) →
        (floodFillCount m s.1 s.2 7 width height t r ox oy).2 pos = m pos)
    ∧ (∀ p ∈ comp m t width height ox oy s, ∃ tl : TileM,
        m (cellPos ox oy p) = some tl ∧ tl.ground = some t ∧
        (floodFillCount m s.1 s.2 7 width height t r ox oy).2 (cellPos ox oy p)
          = some { tl with ground := some r }) := by
  unfold floodFillCount
  have hgid : groundIdAt m (s.1 + ox, s.2 + oy, 7) = some t := hT.2
  rw [hgid]
  dsimp only
  rw [if_pos rfl]
  have hout := floodFillGo_spec t r width height ox oy m s hT
    (width.toNat * height.toNat + 1) ∅ [s] {s} m 0
    (ffInv_init t r width height ox oy m s hT) (ffFuel_init width height s hT.1)
  exact ⟨hout.countEq, hout.mapOff, fun p hp => (hout.mapOn p hp).2 hr⟩

/-- After a component replacement with `r ≠ t`, the target cells are exactly
the old target cells outside the replaced component. -/
theorem replace_target_char (m mF : MapM) (t r : ItemId) (width height ox oy : ℤ)
    (s : ℤ × ℤ)
    (hOff : ∀ pos : Pos, (∀ p ∈ comp m t width height ox oy s, pos ≠ cellPos ox oy p) →
      mF pos = m pos)
    (hOn : ∀ p ∈ comp m t width height ox oy s, ∃ tl : TileM,
      m (cellPos ox oy p) = some tl ∧ tl.ground = some t ∧
      mF (cellPos ox oy p) = some { tl with ground := some r })
    (hrt : r ≠ t) :
    ∀ q : ℤ × ℤ, isTargetCell mF t width height ox oy q ↔
      (isTargetCell m t width height ox oy q ∧ q ∉ comp m t width height ox oy s) := by
  intro q
  by_cases hq : q ∈ comp m t width height ox oy s
  · obtain ⟨tl, _, _, hqF⟩ := hOn q hq
    constructor
    · intro htgt
      have := htgt.2
      unfold cellId groundIdAt MapM.getTile at this
      rw [hqF] at this
      dsimp at this
      exact absurd (Option.some.inj this) hrt
    · intro ⟨_, hnq⟩
      exact absurd hq hnq
  · have heq : mF (cellPos ox oy q) = m (cellPos ox oy q) := by
      refine hOff _ ?_
      intro p hp hpe
      exact hq ((cellPos_inj ox oy hpe) ▸ hp)
    have hcid : cellId mF ox oy q = cellId m ox oy q := by
      unfold cellId groundIdAt MapM.getTile
      rw [heq]
    unfold isTargetCell
    rw [hcid]
    tauto

theorem mem_cellList (width height : ℤ) (p : ℤ × ℤ) :
    p ∈ cellList width height ↔ inRect width height p := by
  obtain ⟨a, b⟩ := p
  unfold cellList
  simp [List.mem_flatMap, List.mem_map, List.mem_range, inRect]
  constructor
  · rintro ⟨y, hy, x, ⟨n, hn, rfl⟩, rfl, rfl⟩
    refine ⟨by omega, by omega, by omega, by omega⟩
  · rintro ⟨h1, h2, h3, h4⟩
    exact ⟨b.toNat, by omega, a, ⟨a.toNat, by omega, by omega⟩, rfl, by omega⟩

/-- The visited-marking call of the scan, at its concrete parameters: marks
the previous visited set plus exactly the component of the scanned cell. -/
theorem markVisited_wrap (m : MapM) (t : ItemId) (width height ox oy : ℤ) (c : ℤ × ℤ)
    (V : Finset (ℤ × ℤ)) (hcV : c ∉ V) (hrect : inRect width height c)
    (hdisj : ∀ p ∈ comp m t width height ox oy c, p ∉ V) :
    ∃ CF : Finset (ℤ × ℤ), (↑CF : Set (ℤ × ℤ)) = comp m t width height ox oy c ∧
      markVisitedGo m t width height ox oy 7 (width.toNat * height.toNat + 1)
        [c] (insert c V) = V ∪ CF := by
  have hqv : BfsQV t width height ox oy m c V ∅ [c] (insert c V) := by
    refine ⟨List.nodup_singleton c, ?_, ?_, ?_, ?_⟩
    · ext z
      simp only [Finset.mem_insert, Finset.mem_union, List.mem_toFinset,
        List.mem_cons, List.not_mem_nil, or_false, Finset.union_empty,
        Finset.not_mem_empty]
      tauto
    · rw [Finset.disjoint_left]
      intro a ha hb
      simp only [List.mem_toFinset, List.mem_cons, List.not_mem_nil, or_false] at hb
      simp only [Finset.union_empty] at ha
      rw [hb] at ha
      exact hcV ha
    · intro p hp
      simp only [Finset.empty_union, List.toFinset_cons, List.toFinset_nil,
        insert_emptyc_eq, Finset.mem_singleton] at hp
      rw [hp]
      exact comp_self m t width height ox oy c
    · intro p hp
      simp only [Finset.empty_union, List.toFinset_cons, List.toFinset_nil,
        insert_emptyc_eq, Finset.mem_singleton] at hp
      rw [hp]
      exact hrect
  have h1 : (rectCells width height) \ insert c V ⊆ (rectCells width height) \ {c} :=
    Finset.sdiff_subset_sdiff (Finset.Subset.refl _)
      (Finset.singleton_subset_iff.mpr (Finset.mem_insert_self c V))
  have h2 := Finset.card_le_card h1
  have h3 := ffFuel_init width height c hrect
  have hfuel : [c].length + ((rectCells width height) \ (insert c V)).card
      < width.toNat * height.toNat + 1 := by
    simp only [List.length_singleton] at h3 ⊢
    omega
  exact markVisitedGo_spec t width height ox oy m c V hdisj
    (width.toNat * height.toNat + 1) ∅ [c] (insert c V) hqv
    (Finset.mem_insert_self c V)
    (fun p hp => absurd hp (Finset.not_mem_empty p)) hfuel

/-- Main induction over the `removeSmallPatches` scan: the invariant is
maintained, every scanned cell that is still a target cell ends visited, the
visited set grows, and grounds only ever change to the opposite id. -/
theorem removeSmallPatchesGo_spec (t : ItemId) (min_size width height ox oy : ℤ) :
    ∀ (cells : List (ℤ × ℤ)) (m : MapM) (V : Finset (ℤ × ℤ)) (mF : MapM)
      (VF : Finset (ℤ × ℤ)),
      removeSmallPatchesGo t min_size width height ox oy cells m V = (mF, VF) →
      (∀ c ∈ cells, inRect width height c) →
      ScanInv t min_size width height ox oy m V →
      ScanInv t min_size width height ox oy mF VF
      ∧ (∀ c ∈ cells, isTargetCell mF t width height ox oy c → c ∈ VF)
      ∧ V ⊆ VF
      ∧ (∀ p : ℤ × ℤ, cellId mF ox oy p = cellId m ox oy p
          ∨ cellId mF ox oy p = some (oppositeId t)) := by
  intro cells
  induction cells with
  | nil =>
    intro m V mF VF hres hcells hinv
    rw [removeSmallPatchesGo] at hres
    injection hres with e1 e2
    subst e1; subst e2
    exact ⟨hinv, fun c hc => absurd hc (List.not_mem_nil c), Finset.Subset.refl _,
      fun p => Or.inl rfl⟩
  | cons c rest ih =>
    intro m V mF VF hres hcells hinv
    have hrectc : inRect width height c := hcells c (List.mem_cons_self c rest)
    have hcellsr : ∀ x ∈ rest, inRect width height x :=
      fun x hx => hcells x (List.mem_cons_of_mem c hx)
    rw [removeSmallPatchesGo] at hres
    by_cases hcV : c ∈ V
    · rw [if_pos hcV] at hres
      obtain ⟨h1, h2, h3, h4⟩ := ih m V mF VF hres hcellsr hinv
      refine ⟨h1, ?_, h3, h4⟩
      intro x hx htx
      rcases List.mem_cons.mp hx with hxc | hx2
      · rw [hxc]
        exact h3 hcV
      · exact h2 x hx2 htx
    · rw [if_neg hcV] at hres
      rcases hgid : groundIdAt m (c.1 + ox, c.2 + oy, 7) with _ | gid
      · rw [hgid] at hres
        dsimp only at hres
        obtain ⟨h1, h2, h3, h4⟩ := ih m V mF VF hres hcellsr hinv
        refine ⟨h1, ?_, h3, h4⟩
        intro x hx htx
        rcases List.mem_cons.mp hx with hxc | hx2
        · exfalso
          rw [hxc] at htx
          have hcm : cellId m ox oy c = none := hgid
          rcases h4 c with hcid | hcid
          · have he := htx.2
            rw [hcid, hcm] at he
            exact Option.noConfusion he
          · have he := htx.2
            rw [hcid] at he
            exact (oppositeId_ne t).1 (Option.some.inj he)
        · exact h2 x hx2 htx
      · rw [hgid] at hres
        dsimp only at hres
        by_cases hgt : gid = t
        · rw [if_pos hgt] at hres
          rw [hgt] at hgid
          have hT : isTargetCell m t width height ox oy c := ⟨hrectc, hgid⟩
          have hprobe := floodFillCount_probe m t width height ox oy c hT
          rw [hprobe] at hres
          dsimp only at hres
          have hdisjV : ∀ p ∈ comp m t width height ox oy c, p ∉ V := by
            intro p hp hpV
            have hpt := comp_target m t width height ox oy c hT p hp
            have hcomp := (hinv p hpV hpt).1
            have hpc : comp m t width height ox oy p = comp m t width height ox oy c :=
              comp_eq_of_mem m t width height ox oy c p hT hp
            rw [hpc] at hcomp
            exact hcV (Finset.mem_coe.mp (hcomp (comp_self m t width height ox oy c)))
          by_cases hcond : ((comp m t width height ox oy c).ncard : ℤ) < min_size
              ∧ 0 < (comp m t width height ox oy c).ncard
          · -- small component: replaced by the opposite id
            rw [if_pos hcond] at hres
            obtain ⟨hcnt, hOff, hOn⟩ := floodFillCount_replace m t (oppositeId t)
              width height ox oy c hT (oppositeId_ne t).2
            have hchar := replace_target_char m
              ((floodFillCount m c.1 c.2 7 width height t (oppositeId t) ox oy).2)
              t (oppositeId t) width height ox oy c hOff hOn (oppositeId_ne t).1
            have hsing : comp ((floodFillCount m c.1 c.2 7 width height t
                (oppositeId t) ox oy).2) t width height ox oy c = {c} := by
              refine comp_singleton _ t width height ox oy c ?_
              intro q hq
              obtain ⟨hadj, htgt2⟩ := hq
              obtain ⟨htgtm, hqnc⟩ := (hchar q).mp htgt2
              exact hqnc (comp_tail m t width height ox oy c c q
                (comp_self m t width height ox oy c) ⟨hadj, htgtm⟩)
            have hdisj2 : ∀ p ∈ comp ((floodFillCount m c.1 c.2 7 width height t
                (oppositeId t) ox oy).2) t width height ox oy c, p ∉ V := by
              intro p hp
              rw [hsing, Set.mem_singleton_iff] at hp
              rw [hp]
              exact hcV
            obtain ⟨CF, hCF, hmark⟩ := markVisited_wrap
              ((floodFillCount m c.1 c.2 7 width height t (oppositeId t) ox oy).2)
              t width height ox oy c V hcV hrectc hdisj2
            rw [hmark] at hres
            have hm2cell : ∀ p : ℤ × ℤ,
                cellId ((floodFillCount m c.1 c.2 7 width height t (oppositeId t) ox oy).2)
                  ox oy p = cellId m ox oy p
                ∨ cellId ((floodFillCount m c.1 c.2 7 width height t (oppositeId t) ox oy).2)
                  ox oy p = some (oppositeId t) := by
              intro p
              by_cases hpc : p ∈ comp m t width height ox oy c
              · right
                obtain ⟨tl, _, _, hp2⟩ := hOn p hpc
                unfold cellId groundIdAt MapM.getTile
                rw [hp2]
              · left
                have hposne : ∀ q ∈ comp m t width height ox oy c,
                    cellPos ox oy p ≠ cellPos ox oy q := by
                  intro q hq he
                  exact hpc ((cellPos_inj ox oy he) ▸ hq)
                have hoffp := hOff (cellPos ox oy p) hposne
                unfold cellId groundIdAt MapM.getTile
                rw [hoffp]
            have hinv2 : ScanInv t min_size width height ox oy
                ((floodFillCount m c.1 c.2 7 width height t (oppositeId t) ox oy).2)
                (V ∪ CF) := by
              intro p hpV hpt
              rcases Finset.mem_union.mp hpV with hpV | hpCF
              · obtain ⟨htm, hpnc⟩ := (hchar p).mp hpt
                obtain ⟨hsub, hsz⟩ := hinv p hpV htm
                have hdisjC : ∀ q ∈ comp m t width height ox oy p,
                    q ∉ comp m t width height ox oy c := by
                  intro q hq hqc
                  have he1 : comp m t width height ox oy q
                      = comp m t width height ox oy p :=
                    comp_eq_of_mem m t width height ox oy p q htm hq
                  have he2 : comp m t width height ox oy q
                      = comp m t width height ox oy c :=
                    comp_eq_of_mem m t width height ox oy c q hT hqc
                  have hps := comp_self m t width height ox oy p
                  rw [← he1, he2] at hps
                  exact hpnc hps
                have heq := comp_transfer m
                  ((floodFillCount m c.1 c.2 7 width height t (oppositeId t) ox oy).2)
                  t width height ox oy (comp m t width height ox oy c) p hchar hdisjC
                rw [heq]
                refine ⟨hsub.trans ?_, hsz⟩
                exact Finset.coe_subset.mpr Finset.subset_union_left
              · exfalso
                have hpc : p ∈ comp ((floodFillCount m c.1 c.2 7 width height t
                    (oppositeId t) ox oy).2) t width height ox oy c := by
                  rw [← hCF]
                  exact Finset.mem_coe.mpr hpCF
                rw [hsing, Set.mem_singleton_iff] at hpc
                rw [hpc] at hpt
                obtain ⟨_, hcnc⟩ := (hchar c).mp hpt
                exact hcnc (comp_self m t width height ox oy c)
            obtain ⟨h1, h2, h3, h4⟩ := ih
              ((floodFillCount m c.1 c.2 7 width height t (oppositeId t) ox oy).2)
              (V ∪ CF) mF VF hres hcellsr hinv2
            refine ⟨h1, ?_, ?_, ?_⟩
            · intro x hx htx
              rcases List.mem_cons.mp hx with hxc | hx2
              · have hcCF : c ∈ CF := by
                  have h0 := comp_self ((floodFillCount m c.1 c.2 7 width height t
                    (oppositeId t) ox oy).2) t width height ox oy c
                  rw [← hCF] at h0
                  exact Finset.mem_coe.mp h0
                rw [hxc]
                exact h3 (Finset.mem_union_right _ hcCF)
              · exact h2 x hx2 htx
            · exact Finset.subset_union_left.trans h3
            · intro p
              rcases h4 p with hp4 | hp4
              · rcases hm2cell p with hp2 | hp2
                · left; rw [hp4, hp2]
                · right; rw [hp4, hp2]
              · right; exact hp4
          · -- big (or empty) component: kept, only marked visited
            rw [if_neg hcond] at hres
            obtain ⟨CF, hCF, hmark⟩ := markVisited_wrap m t width height ox oy c V
              hcV hrectc hdisjV
            rw [hmark] at hres
            have hpos : 0 < (comp m t width height ox oy c).ncard :=
              (Set.ncard_pos (comp_finite m t width height ox oy c hrectc)).mpr
                ⟨c, comp_self m t width height ox oy c⟩
            have hsize : min_size ≤ ((comp m t width height ox oy c).ncard : ℤ) := by
              omega
            have hinv2 : ScanInv t min_size width height ox oy m (V ∪ CF) := by
              intro p hpV hpt
              rcases Finset.mem_union.mp hpV with hpV | hpCF
              · obtain ⟨hsub, hsz⟩ := hinv p hpV hpt
                exact ⟨hsub.trans (Finset.coe_subset.mpr Finset.subset_union_left), hsz⟩
              · have hpc : p ∈ comp m t width height ox oy c := by
                  rw [← hCF]
                  exact Finset.mem_coe.mpr hpCF
                have heq : comp m t width height ox oy p
                    = comp m t width height ox oy c :=
                  comp_eq_of_mem m t width height ox oy c p hT hpc
                rw [heq]
                refine ⟨?_, hsize⟩
                rw [← hCF]
                exact Finset.coe_subset.mpr Finset.subset_union_right
            obtain ⟨h1, h2, h3, h4⟩ := ih m (V ∪ CF) mF VF hres hcellsr hinv2
            refine ⟨h1, ?_, ?_, h4⟩
            · intro x hx htx
              rcases List.mem_cons.mp hx with hxc | hx2
              · have hcCF : c ∈ CF := by
                  have h0 := comp_self m t width height ox oy c
                  rw [← hCF] at h0
                  exact Finset.mem_coe.mp h0
                rw [hxc]
                exact h3 (Finset.mem_union_right _ hcCF)
              · exact h2 x hx2 htx
            · exact Finset.subset_union_left.trans h3
        · rw [if_neg hgt] at hres
          obtain ⟨h1, h2, h3, h4⟩ := ih m V mF VF hres hcellsr hinv
          refine ⟨h1, ?_, h3, h4⟩
          intro x hx htx
          rcases List.mem_cons.mp hx with hxc | hx2
          · exfalso
            rw [hxc] at htx
            have hcm : cellId m ox oy c = some gid := hgid
            rcases h4 c with hcid | hcid
            · have he := htx.2
              rw [hcid, hcm] at he
              exact hgt (Option.some.inj he)
            · have he := htx.2
              rw [hcid] at he
              exact (oppositeId_ne t).1 (Option.some.inj he)
          · exact h2 x hx2 htx

/-- After one full `removeSmallPatches` run, every remaining target component
has size at least `min_size`. -/
theorem removeSmallPatches_post (m : MapM) (t : ItemId)
    (min_size width height ox oy : ℤ) :
    ∀ p : ℤ × ℤ,
      isTargetCell (removeSmallPatches m t min_size width height ox oy)
        t width height ox oy p →
      min_size ≤ ((comp (removeSmallPatches m t min_size width height ox oy)
        t width height ox oy p).ncard : ℤ) := by
  intro p hp
  rcases hres : removeSmallPatchesGo t min_size width height ox oy
    (cellList width height) m ∅ with ⟨mF, VF⟩
  have hMF : removeSmallPatches m t min_size width height ox oy = mF := by
    unfold removeSmallPatches
    rw [hres]
  obtain ⟨h1, h2, _, _⟩ := removeSmallPatchesGo_spec t min_size width height ox oy
    (cellList width height) m ∅ mF VF hres
    (fun c hc => (mem_cellList width height c).mp hc)
    (fun q hq => absurd hq (Finset.not_mem_empty q))
  rw [hMF] at hp ⊢
  have hpl : p ∈ cellList width height := (mem_cellList width height p).mpr hp.1
  exact (h1 p (h2 p hpl hp) hp).2

/-- A scan over a map all of whose target components already have size at
least `min_size` never changes the map. -/
theorem removeSmallPatchesGo_noop (t : ItemId) (min_size width height ox oy : ℤ)
    (m : MapM)
    (hbig : ∀ p : ℤ × ℤ, isTargetCell m t width height ox oy p →
      min_size ≤ ((comp m t width height ox oy p).ncard : ℤ)) :
    ∀ (cells : List (ℤ × ℤ)) (V : Finset (ℤ × ℤ)),
      (∀ c ∈ cells, inRect width height c) →
      (removeSmallPatchesGo t min_size width height ox oy cells m V).1 = m := by
  intro cells
  induction cells with
  | nil =>
    intro V hcells
    rw [removeSmallPatchesGo]
  | cons c rest ih =>
    intro V hcells
    have hrectc : inRect width height c := hcells c (List.mem_cons_self c rest)
    have hcellsr : ∀ x ∈ rest, inRect width height x :=
      fun x hx => hcells x (List.mem_cons_of_mem c hx)
    rw [removeSmallPatchesGo]
    by_cases hcV : c ∈ V
    · rw [if_pos hcV]
      exact ih V hcellsr
    · rw [if_neg hcV]
      rcases hgid : groundIdAt m (c.1 + ox, c.2 + oy, 7) with _ | gid
      · dsimp only
        exact ih V hcellsr
      · dsimp only
        by_cases hgt : gid = t
        · rw [if_pos hgt]
          rw [hgt] at hgid
          have hT : isTargetCell m t width height ox oy c := ⟨hrectc, hgid⟩
          have hprobe := floodFillCount_probe m t width height ox oy c hT
          rw [hprobe]
          dsimp only
          have hsz := hbig c hT
          have hcond : ¬(((comp m t width height ox oy c).ncard : ℤ) < min_size
              ∧ 0 < (comp m t width height ox oy c).ncard) := by
            omega
          rw [if_neg hcond]
          exact ih _ hcellsr
        · rw [if_neg hgt]
          exact ih V hcellsr

/-! ### A* helper lemmas (for claim C6) -/

theorem selectMinNode_eq_none : ∀ l : List AStarNode, selectMinNode l = none → l = [] := by
  intro l
  cases l with
  | nil => intro _; rfl
  | cons a rest =>
    intro h
    rw [selectMinNode] at h
    cases hr : selectMinNode rest with
    | none => rw [hr] at h; exact Option.noConfusion h
    | some m => rw [hr] at h; exact Option.noConfusion h

theorem selectMinNode_mem : ∀ (l : List AStarNode) (n : AStarNode),
    selectMinNode l = some n → n ∈ l := by
  intro l
  induction l with
  | nil => intro n h; exact Option.noConfusion h
  | cons a rest ih =>
    intro n h
    rw [selectMinNode] at h
    cases hr : selectMinNode rest with
    | none =>
      rw [hr] at h
      injection h with h2
      rw [← h2]
      exact List.mem_cons_self a rest
    | some m =>
      rw [hr] at h
      injection h with h2
      by_cases hc : nodeF a ≤ nodeF m
      · rw [if_pos hc] at h2
        rw [← h2]
        exact List.mem_cons_self a rest
      · rw [if_neg hc] at h2
        rw [← h2]
        exact List.mem_cons_of_mem a (ih m hr)

theorem selectMinNode_min : ∀ (l : List AStarNode) (n : AStarNode),
    selectMinNode l = some n → ∀ m ∈ l, nodeF n ≤ nodeF m := by
  intro l
  induction l with
  | nil => intro n h; exact Option.noConfusion h
  | cons a rest ih =>
    intro n h m hm
    rw [selectMinNode] at h
    cases hr : selectMinNode rest with
    | none =>
      have hrest : rest = [] := selectMinNode_eq_none rest hr
      rw [hr] at h
      injection h with h2
      subst hrest
      rcases List.mem_cons.mp hm with hma | hm2
      · rw [← h2, hma]
      · exact absurd hm2 (List.not_mem_nil m)
    | some msub =>
      rw [hr] at h
      injection h with h2
      have hsub := ih msub hr
      rcases List.mem_cons.mp hm with hma | hm2
      · by_cases hc : nodeF a ≤ nodeF msub
        · rw [if_pos hc] at h2
          rw [← h2, hma]
        · rw [if_neg hc] at h2
          rw [← h2, hma]
          omega
      · have hm3 := hsub m hm2
        by_cases hc : nodeF a ≤ nodeF msub
        · rw [if_pos hc] at h2
          rw [← h2]
          omega
        · rw [if_neg hc] at h2
          rw [← h2]
          exact hm3

theorem manhattan_adj (x1 y1 a b : ℤ) (d : ℤ × ℤ) (hd : d ∈ dirs4) :
    manhattanDist x1 y1 a b ≤ manhattanDist x1 y1 (a + d.1) (b + d.2) + 1 ∧
    manhattanDist x1 y1 (a + d.1) (b + d.2) ≤ manhattanDist x1 y1 a b + 1 := by
  fin_cases hd <;> simp only [manhattanDist] <;> omega

theorem stairCell_zero (x1 y1 x2 y2 : ℤ) : stairCell x1 y1 x2 y2 0 = (x1, y1) := by
  unfold stairCell
  rw [if_pos (by omega)]
  split_ifs <;> rw [Prod.mk.injEq] <;> constructor <;> omega

theorem stairCell_last (x1 y1 x2 y2 : ℤ) :
    stairCell x1 y1 x2 y2 (manhattanDist x1 y1 x2 y2) = (x2, y2) := by
  unfold stairCell
  unfold manhattanDist
  by_cases hB : (y2 - y1).natAbs = 0
  · rw [if_pos (by omega)]
    split_ifs <;> rw [Prod.mk.injEq] <;> constructor <;> omega
  · rw [if_neg (by omega)]
    split_ifs <;> rw [Prod.mk.injEq] <;> constructor <;> omega

theorem stairCell_dist (x1 y1 x2 y2 : ℤ) (i : ℕ) (hi : i ≤ manhattanDist x1 y1 x2 y2) :
    manhattanDist x1 y1 (stairCell x1 y1 x2 y2 i).1 (stairCell x1 y1 x2 y2 i).2 = i
    ∧ manhattanDist (stairCell x1 y1 x2 y2 i).1 (stairCell x1 y1 x2 y2 i).2 x2 y2
      = manhattanDist x1 y1 x2 y2 - i := by
  unfold stairCell
  unfold manhattanDist at hi ⊢
  by_cases h1 : ((i : ℤ) ≤ ((x2 - x1).natAbs : ℤ))
  · rw [if_pos h1]
    split_ifs <;> dsimp only <;> constructor <;> omega
  · rw [if_neg h1]
    split_ifs <;> dsimp only <;> constructor <;> omega

theorem stairCell_inb (width height x1 y1 x2 y2 : ℤ)
    (hs : 0 ≤ x1 ∧ x1 < width ∧ 0 ≤ y1 ∧ y1 < height)
    (hg : 0 ≤ x2 ∧ x2 < width ∧ 0 ≤ y2 ∧ y2 < height)
    (i : ℕ) (hi : i ≤ manhattanDist x1 y1 x2 y2) :
    0 ≤ (stairCell x1 y1 x2 y2 i).1 ∧ (stairCell x1 y1 x2 y2 i).1 < width ∧
    0 ≤ (stairCell x1 y1 x2 y2 i).2 ∧ (stairCell x1 y1 x2 y2 i).2 < height := by
  unfold stairCell
  unfold manhattanDist at hi
  by_cases h1 : ((i : ℤ) ≤ ((x2 - x1).natAbs : ℤ))
  · rw [if_pos h1]
    split_ifs <;> dsimp only <;> omega
  · rw [if_neg h1]
    split_ifs <;> dsimp only <;> omega

theorem stairCell_adj (x1 y1 x2 y2 : ℤ) (i : ℕ)
    (hi : i + 1 ≤ manhattanDist x1 y1 x2 y2) :
    ∃ d ∈ dirs4, stairCell x1 y1 x2 y2 (i + 1)
      = ((stairCell x1 y1 x2 y2 i).1 + d.1, (stairCell x1 y1 x2 y2 i).2 + d.2) := by
  unfold manhattanDist at hi
  by_cases h1 : ((i : ℤ) + 1 ≤ ((x2 - x1).natAbs : ℤ))
  · by_cases hx : x1 ≤ x2
    · refine ⟨(1, 0), by simp [dirs4], ?_⟩
      unfold stairCell
      split_ifs <;> rw [Prod.mk.injEq] <;> dsimp only <;> constructor <;> omega
    · refine ⟨(-1, 0), by simp [dirs4], ?_⟩
      unfold stairCell
      split_ifs <;> rw [Prod.mk.injEq] <;> dsimp only <;> constructor <;> omega
  · by_cases hy : y1 ≤ y2
    · refine ⟨(0, 1), by simp [dirs4], ?_⟩
      unfold stairCell
      split_ifs <;> rw [Prod.mk.injEq] <;> dsimp only <;> constructor <;> omega
    · refine ⟨(0, -1), by simp [dirs4], ?_⟩
      unfold stairCell
      split_ifs <;> rw [Prod.mk.injEq] <;> dsimp only <;> constructor <;> omega

/-- One `aStarRelax` call satisfies the fold summary for its single direction. -/
theorem aStarRelax_foldOut (grid : Grid) (width height x2 y2 : ℤ)
    (hvoid : ∀ y x : ℤ, grid y x = 0) (cur : ℤ × ℤ) (d : ℤ × ℤ) (hd : d ∈ dirs4)
    (st0 : AStarState) :
    FoldOut width height x2 y2 cur [d] st0
      (aStarRelax grid width height x2 y2 cur st0 d) := by
  have hdnz : d.1 ≠ 0 ∨ d.2 ≠ 0 := by fin_cases hd <;> simp
  have hne : ((cur.1 + d.1, cur.2 + d.2) : ℤ × ℤ) ≠ cur := by
    intro he
    have hA : cur.1 + d.1 = cur.1 := congrArg Prod.fst he
    have hB : cur.2 + d.2 = cur.2 := congrArg Prod.snd he
    omega
  unfold aStarRelax
  dsimp only
  by_cases hbnd : 0 ≤ cur.1 + d.1 ∧ cur.1 + d.1 < width ∧ 0 ≤ cur.2 + d.2
      ∧ cur.2 + d.2 < height
  case neg =>
    rw [if_neg hbnd]
    refine ⟨fun n => le_refl _, rfl, fun n h => absurd h (lt_irrefl _), fun n _ => rfl,
      ⟨[], (List.append_nil _).symm⟩, fun e he => Or.inl he,
      fun n h => absurd h (lt_irrefl _), ?_, le_refl _⟩
    intro d' hd' hbnd'
    rw [List.mem_singleton.mp hd'] at hbnd'
    exact absurd hbnd' hbnd
  case pos =>
    rw [if_pos hbnd]
    rw [hvoid (cur.2 + d.2) (cur.1 + d.1)]
    rw [if_neg (by decide : ¬((0 : ℕ) = 1))]
    by_cases hlt : st0.gScore cur + 5 < st0.gScore (cur.1 + d.1, cur.2 + d.2)
    case neg =>
      rw [if_neg hlt]
      refine ⟨fun n => le_refl _, rfl, fun n h => absurd h (lt_irrefl _), fun n _ => rfl,
        ⟨[], (List.append_nil _).symm⟩, fun e he => Or.inl he,
        fun n h => absurd h (lt_irrefl _), ?_, le_refl _⟩
      intro d' hd' _
      rw [List.mem_singleton.mp hd']
      omega
    case pos =>
      rw [if_pos hlt]
      have hcellrect : (cur.1 + d.1, cur.2 + d.2) ∈ rectCells width height := by
        rw [mem_rectCells]
        exact hbnd
      refine ⟨?_, ?_, ?_, ?_, ?_, ?_, ?_, ?_, ?_⟩
      · intro n
        dsimp only
        by_cases hn : n = (cur.1 + d.1, cur.2 + d.2)
        · rw [hn, Function.update_same]
          omega
        · rw [Function.update_noteq hn]
      · dsimp only
        rw [Function.update_noteq (fun he => hne he.symm)]
      · intro n hlt2
        dsimp only at hlt2 ⊢
        by_cases hn : n = (cur.1 + d.1, cur.2 + d.2)
        · refine ⟨by rw [hn, Function.update_same], ?_, ⟨d, List.mem_singleton_self d, hn⟩,
            by rw [hn, Function.update_same]⟩
          rw [hn]
          exact hbnd
        · rw [Function.update_noteq hn] at hlt2
          exact absurd hlt2 (lt_irrefl _)
      · intro n heq
        dsimp only at heq ⊢
        by_cases hn : n = (cur.1 + d.1, cur.2 + d.2)
        · exfalso
          rw [hn, Function.update_same] at heq
          omega
        · rw [Function.update_noteq hn]
      · exact ⟨_, rfl⟩
      · intro e he
        dsimp only at he
        rcases List.mem_append.mp he with h | h
        · exact Or.inl h
        · right
          rw [List.mem_singleton.mp h]
          dsimp only
          refine ⟨rfl, ?_, ?_⟩
          · rw [Function.update_same]
          · rw [Function.update_same]
            exact hlt
      · intro n hlt2
        dsimp only at hlt2 ⊢
        by_cases hn : n = (cur.1 + d.1, cur.2 + d.2)
        · subst hn
          refine ⟨⟨cur.1 + d.1, cur.2 + d.2, st0.gScore cur + 5,
            manhattanDist (cur.1 + d.1) (cur.2 + d.2) x2 y2, cur.1, cur.2⟩,
            List.mem_append_right _ (List.mem_singleton_self _), rfl, ?_⟩
          rw [Function.update_same]
        · rw [Function.update_noteq hn] at hlt2
          exact absurd hlt2 (lt_irrefl _)
      · intro d' hd' _
        rw [List.mem_singleton.mp hd']
        dsimp only
        rw [Function.update_same]
      · dsimp only
        rw [List.length_append, List.length_singleton]
        rw [Finset.sum_update_of_mem hcellrect]
        rw [Finset.sum_eq_sum_diff_singleton_add hcellrect st0.gScore]
        omega

/-- Composition of fold summaries over disjoint direction lists. -/
theorem foldOut_comp (width height x2 y2 : ℤ) (cur : ℤ × ℤ)
    (dl1 dl2 : List (ℤ × ℤ)) (st0 st1 st2 : AStarState)
    (hdisj : ∀ d1 ∈ dl1, ∀ d2 ∈ dl2, d1 ≠ d2)
    (f1 : FoldOut width height x2 y2 cur dl1 st0 st1)
    (f2 : FoldOut width height x2 y2 cur dl2 st1 st2) :
    FoldOut width height x2 y2 cur (dl1 ++ dl2) st0 st2 := by
  refine ⟨?_, ?_, ?_, ?_, ?_, ?_, ?_, ?_, ?_⟩
  · intro n
    exact le_trans (f2.mono n) (f1.mono n)
  · rw [f2.curEq, f1.curEq]
  · intro n hlt
    by_cases h21 : st2.gScore n < st1.gScore n
    · obtain ⟨hval, hinb, ⟨d, hdm, hnd⟩, hcf⟩ := f2.changed n h21
      exact ⟨by rw [hval, f1.curEq], hinb, ⟨d, List.mem_append_right _ hdm, hnd⟩, hcf⟩
    · have heq : st2.gScore n = st1.gScore n :=
        le_antisymm (f2.mono n) (not_lt.mp h21)
      have h10 : st1.gScore n < st0.gScore n := by omega
      obtain ⟨hval, hinb, ⟨d, hdm, hnd⟩, hcf⟩ := f1.changed n h10
      exact ⟨by rw [heq, hval], hinb, ⟨d, List.mem_append_left _ hdm, hnd⟩,
        by rw [f2.unchangedCF n heq, hcf]⟩
  · intro n heq
    have ha := f1.mono n
    have hb := f2.mono n
    have h1 : st1.gScore n = st0.gScore n := by omega
    have h2 : st2.gScore n = st1.gScore n := by omega
    rw [f2.unchangedCF n h2, f1.unchangedCF n h1]
  · obtain ⟨e1, h1⟩ := f1.extOpen
    obtain ⟨e2, h2⟩ := f2.extOpen
    exact ⟨e1 ++ e2, by rw [h2, h1, List.append_assoc]⟩
  · intro e he
    rcases f2.entryNew e he with h | ⟨hh, hg, hlt⟩
    · rcases f1.entryNew e h with h0 | ⟨hh, hg, hlt⟩
      · exact Or.inl h0
      · right
        have hcell : st2.gScore (e.x, e.y) = st1.gScore (e.x, e.y) := by
          by_contra hne2
          have hlt2 : st2.gScore (e.x, e.y) < st1.gScore (e.x, e.y) :=
            lt_of_le_of_ne (f2.mono _) hne2
          obtain ⟨_, _, ⟨d2, hd2, hnd2⟩, _⟩ := f2.changed _ hlt2
          obtain ⟨_, _, ⟨d1, hd1, hnd1⟩, _⟩ := f1.changed _ hlt
          apply hdisj d1 hd1 d2 hd2
          rw [hnd1] at hnd2
          have hA : cur.1 + d1.1 = cur.1 + d2.1 := congrArg Prod.fst hnd2
          have hB : cur.2 + d1.2 = cur.2 + d2.2 := congrArg Prod.snd hnd2
          exact Prod.ext (by omega) (by omega)
        refine ⟨hh, by rw [hg, hcell], ?_⟩
        rw [hcell]
        exact hlt
    · right
      exact ⟨hh, hg, lt_of_lt_of_le hlt (f1.mono _)⟩
  · intro n hlt
    by_cases h21 : st2.gScore n < st1.gScore n
    · exact f2.entryFor n h21
    · have heq : st2.gScore n = st1.gScore n :=
        le_antisymm (f2.mono n) (not_lt.mp h21)
      have h10 : st1.gScore n < st0.gScore n := by omega
      obtain ⟨e, he, hxy, hg⟩ := f1.entryFor n h10
      obtain ⟨ext2, hext2⟩ := f2.extOpen
      exact ⟨e, by rw [hext2]; exact List.mem_append_left _ he, hxy, by rw [hg, heq]⟩
  · intro d hd hbnd
    rcases List.mem_append.mp hd with h | h
    · exact le_trans (f2.mono _) (f1.relaxed d h hbnd)
    · rw [← f1.curEq]
      exact f2.relaxed d h hbnd
  · exact le_trans f2.meas f1.meas

/-- The full relaxation fold of one A* iteration satisfies the fold summary. -/
theorem foldRelax_foldOut (grid : Grid) (width height x2 y2 : ℤ)
    (hvoid : ∀ y x : ℤ, grid y x = 0) (cur : ℤ × ℤ) :
    ∀ dl : List (ℤ × ℤ), (∀ d ∈ dl, d ∈ dirs4) → dl.Nodup →
    ∀ st0 : AStarState,
      FoldOut width height x2 y2 cur dl st0
        (List.foldl (aStarRelax grid width height x2 y2 cur) st0 dl) := by
  intro dl
  induction dl with
  | nil =>
    intro _ _ st0
    exact ⟨fun n => le_refl _, rfl, fun n h => absurd h (lt_irrefl _), fun n _ => rfl,
      ⟨[], (List.append_nil _).symm⟩, fun e he => Or.inl he,
      fun n h => absurd h (lt_irrefl _),
      fun d hd _ => absurd hd (List.not_mem_nil d), le_refl _⟩
  | cons d rest ih =>
    intro hsub hnd st0
    have h1 := aStarRelax_foldOut grid width height x2 y2 hvoid cur d
      (hsub d (List.mem_cons_self d rest)) st0
    have h2 := ih (fun d' hd' => hsub d' (List.mem_cons_of_mem d hd'))
      (List.nodup_cons.mp hnd).2 (aStarRelax grid width height x2 y2 cur st0 d)
    have hdisj : ∀ d1 ∈ [d], ∀ d2 ∈ rest, d1 ≠ d2 := by
      intro d1 hd1 d2 hd2
      rw [List.mem_singleton.mp hd1]
      intro he
      exact (List.nodup_cons.mp hnd).1 (he ▸ hd2)
    have hcomp := foldOut_comp width height x2 y2 cur [d] rest st0 _ _ hdisj h1 h2
    simpa using hcomp

/-- While the goal is unsettled, some open entry has `f`-value at most
`5 * M` (walk up the staircase path until the first unsettled cell). -/
theorem frontier_exists (width height x1 y1 x2 y2 : ℤ) (st : AStarState)
    (S : Set (ℤ × ℤ)) (inv : AInv width height x1 y1 x2 y2 st S)
    (hs : 0 ≤ x1 ∧ x1 < width ∧ 0 ≤ y1 ∧ y1 < height)
    (hg : 0 ≤ x2 ∧ x2 < width ∧ 0 ≤ y2 ∧ y2 < height)
    (hM : 5 * manhattanDist x1 y1 x2 y2 < 999999) :
    ∃ e ∈ st.openSet, nodeF e ≤ 5 * manhattanDist x1 y1 x2 y2 := by
  have key : ∀ i : ℕ, i ≤ manhattanDist x1 y1 x2 y2 →
      (∃ j ≤ i, ∃ e ∈ st.openSet, (e.x, e.y) = stairCell x1 y1 x2 y2 j ∧ e.g = 5 * j)
      ∨ (stairCell x1 y1 x2 y2 i ∈ S
          ∧ st.gScore (stairCell x1 y1 x2 y2 i) = 5 * i) := by
    intro i
    induction i with
    | zero =>
      intro _
      rw [stairCell_zero]
      have h0 : st.gScore (x1, y1) < 999999 := by rw [inv.scoreS]; omega
      rcases inv.cover (x1, y1) h0 with hS | ⟨e, he, hxy, hgv⟩
      · right
        refine ⟨hS, ?_⟩
        rw [inv.scoreS]
      · left
        refine ⟨0, le_refl 0, e, he, ?_, ?_⟩
        · rw [stairCell_zero]
          exact hxy
        · rw [hgv, inv.scoreS]
    | succ i ihi =>
      intro hix
      have hi : i ≤ manhattanDist x1 y1 x2 y2 := Nat.le_of_succ_le hix
      rcases ihi hi with ⟨j, hj, e, he, hxy, hgv⟩ | ⟨hSi, hgi⟩
      · left
        exact ⟨j, Nat.le_succ_of_le hj, e, he, hxy, hgv⟩
      · obtain ⟨d, hd, hstep⟩ := stairCell_adj x1 y1 x2 y2 i hix
        have hinb1 := stairCell_inb width height x1 y1 x2 y2 hs hg (i + 1) hix
        have hc1 : (stairCell x1 y1 x2 y2 (i + 1)).1
            = (stairCell x1 y1 x2 y2 i).1 + d.1 := congrArg Prod.fst hstep
        have hc2 : (stairCell x1 y1 x2 y2 (i + 1)).2
            = (stairCell x1 y1 x2 y2 i).2 + d.2 := congrArg Prod.snd hstep
        rw [hc1, hc2] at hinb1
        have hclosed := inv.closed _ hSi d hd hinb1
        rw [← hstep] at hclosed
        rw [hgi] at hclosed
        have hdist := (stairCell_dist x1 y1 x2 y2 (i + 1) hix).1
        rcases inv.scoreL (stairCell x1 y1 x2 y2 (i + 1)) with h999 | ⟨hge, hlt999⟩
        · exfalso
          rw [h999] at hclosed
          omega
        · rw [hdist] at hge
          have hgeq : st.gScore (stairCell x1 y1 x2 y2 (i + 1)) = 5 * (i + 1) := by
            omega
          rcases inv.cover _ hlt999 with hS1 | ⟨e, he, hxy, hgv⟩
          · right
            exact ⟨hS1, hgeq⟩
          · left
            exact ⟨i + 1, le_refl _, e, he, hxy, by rw [hgv, hgeq]⟩
  rcases key (manhattanDist x1 y1 x2 y2) (le_refl _)
    with ⟨j, hj, e, he, hxy, hgv⟩ | ⟨hSM, _⟩
  · refine ⟨e, he, ?_⟩
    have hh := inv.entryH e he
    have hd2 := (stairCell_dist x1 y1 x2 y2 j hj).2
    have hex : e.x = (stairCell x1 y1 x2 y2 j).1 := congrArg Prod.fst hxy
    have hey : e.y = (stairCell x1 y1 x2 y2 j).2 := congrArg Prod.snd hxy
    unfold nodeF
    rw [hh, hex, hey, hd2, hgv]
    omega
  · exfalso
    rw [stairCell_last] at hSM
    exact inv.goalNot hSM

/-- One non-goal iteration of the A* loop preserves the invariant (with the
popped cell settled and any reopened cells unsettled) and strictly decreases
the measure. -/
theorem aStarPop_preserve (grid : Grid) (width height x1 y1 x2 y2 : ℤ)
    (hvoid : ∀ y x : ℤ, grid y x = 0)
    (st : AStarState) (S : Set (ℤ × ℤ)) (inv : AInv width height x1 y1 x2 y2 st S)
    (e0 : AStarNode) (hsel : selectMinNode st.openSet = some e0)
    (hng : ¬(e0.x = x2 ∧ e0.y = y2)) :
    ∃ S2 : Set (ℤ × ℤ),
      AInv width height x1 y1 x2 y2
        (List.foldl (aStarRelax grid width height x2 y2 (e0.x, e0.y))
          { st with openSet := st.openSet.erase e0 } dirs4) S2
      ∧ aStarMeasure width height
          (List.foldl (aStarRelax grid width height x2 y2 (e0.x, e0.y))
            { st with openSet := st.openSet.erase e0 } dirs4)
        < aStarMeasure width height st := by
  have hmem := selectMinNode_mem _ _ hsel
  obtain ⟨hge0, he0lt⟩ := inv.entryG e0 hmem
  have hcur999 : st.gScore (e0.x, e0.y) < 999999 := lt_of_le_of_lt hge0 he0lt
  have hLold : ∀ n : ℤ × ℤ, st.gScore n ≤ 999999 := by
    intro n
    rcases inv.scoreL n with h | ⟨_, h⟩ <;> omega
  have fo := foldRelax_foldOut grid width height x2 y2 hvoid (e0.x, e0.y) dirs4
    (fun d hd => hd) (by decide) { st with openSet := st.openSet.erase e0 }
  set st2 := List.foldl (aStarRelax grid width height x2 y2 (e0.x, e0.y))
    { st with openSet := st.openSet.erase e0 } dirs4 with hst2
  have hmono := fo.mono
  have hcurEq := fo.curEq
  have hchangedF := fo.changed
  have huncf := fo.unchangedCF
  have hextO := fo.extOpen
  have hentryNew := fo.entryNew
  have hentryFor := fo.entryFor
  have hrelaxed := fo.relaxed
  have hmeas := fo.meas
  dsimp only at hmono hcurEq hchangedF huncf hextO hentryNew hentryFor hrelaxed hmeas
  refine ⟨insert (e0.x, e0.y) {m | m ∈ S ∧ st2.gScore m = st.gScore m},
    ⟨?_, ?_, ?_, ?_, ?_, ?_, ?_, ?_, ?_, ?_⟩, ?_⟩
  · -- scoreL
    intro n
    by_cases hch : st2.gScore n < st.gScore n
    · obtain ⟨hval, hinb, ⟨d, hd, hnd⟩, _⟩ := hchangedF n hch
      right
      have hn1 : n.1 = e0.x + d.1 := by rw [hnd]
      have hn2 : n.2 = e0.y + d.2 := by rw [hnd]
      constructor
      · rcases inv.scoreL (e0.x, e0.y) with h9 | ⟨hbc, _⟩
        · exfalso
          omega
        · have hadj := (manhattan_adj x1 y1 e0.x e0.y d hd).2
          dsimp only at hbc
          rw [hn1, hn2, hval]
          omega
      · have := hLold n
        omega
    · have heq : st2.gScore n = st.gScore n := le_antisymm (hmono n) (not_lt.mp hch)
      rw [heq]
      exact inv.scoreL n
  · -- scoreS
    have := hmono (x1, y1)
    rw [inv.scoreS] at this
    omega
  · -- scoreInb
    intro n hlt
    by_cases hch : st2.gScore n < st.gScore n
    · exact (hchangedF n hch).2.1
    · have heq : st2.gScore n = st.gScore n := le_antisymm (hmono n) (not_lt.mp hch)
      exact inv.scoreInb n (by omega)
  · -- entryH
    intro e he
    rcases hentryNew e he with hold | ⟨hh, _, _⟩
    · exact inv.entryH e (List.mem_of_mem_erase hold)
    · exact hh
  · -- entryG
    intro e he
    rcases hentryNew e he with hold | ⟨_, hg2, hlt2⟩
    · obtain ⟨hg3, hl3⟩ := inv.entryG e (List.mem_of_mem_erase hold)
      exact ⟨le_trans (hmono _) hg3, hl3⟩
    · constructor
      · rw [hg2]
      · have := hLold (e.x, e.y)
        omega
  · -- cover
    intro n hlt
    by_cases hch : st2.gScore n < st.gScore n
    · exact Or.inr (hentryFor n hch)
    · have heq : st2.gScore n = st.gScore n := le_antisymm (hmono n) (not_lt.mp hch)
      rcases inv.cover n (by omega) with hS | ⟨e, he, hxy, hge⟩
      · exact Or.inl (Set.mem_insert_of_mem _ ⟨hS, heq⟩)
      · by_cases hee : e = e0
        · left
          rw [← hxy, hee]
          exact Set.mem_insert _ _
        · right
          obtain ⟨ext, hext⟩ := hextO
          refine ⟨e, ?_, hxy, by rw [hge, heq]⟩
          rw [hext]
          exact List.mem_append_left _ ((List.mem_erase_of_ne hee).mpr he)
  · -- closed
    intro m hm d hd hbnd
    rcases Set.mem_insert_iff.mp hm with hmc | ⟨hmS, hmeq⟩
    · subst hmc
      dsimp only at hbnd ⊢
      rw [hcurEq]
      exact hrelaxed d hd hbnd
    · have hold := inv.closed m hmS d hd hbnd
      have hmono2 := hmono (m.1 + d.1, m.2 + d.2)
      rw [hmeq]
      omega
  · -- goalNot
    intro hcon
    rcases Set.mem_insert_iff.mp hcon with h | ⟨hS, _⟩
    · apply hng
      exact ⟨(congrArg Prod.fst h).symm, (congrArg Prod.snd h).symm⟩
    · exact inv.goalNot hS
  · -- parentAdj
    intro n hns hlt
    by_cases hch : st2.gScore n < st.gScore n
    · obtain ⟨hval, hinb, ⟨d, hd, hnd⟩, hcf⟩ := hchangedF n hch
      constructor
      · refine ⟨(-d.1, -d.2), ?_, ?_⟩
        · fin_cases hd <;> simp [dirs4]
        · rw [hcf, hnd]
          exact Prod.ext (by dsimp only; omega) (by dsimp only; omega)
      · rw [hcf, hval, hcurEq]
    · have heq : st2.gScore n = st.gScore n := le_antisymm (hmono n) (not_lt.mp hch)
      obtain ⟨⟨d, hd, hcf⟩, hpar⟩ := inv.parentAdj n hns (by omega)
      have hcf2 : st2.cameFrom n = st.cameFrom n := huncf n heq
      constructor
      · exact ⟨d, hd, by rw [hcf2, hcf]⟩
      · rw [hcf2, heq]
        have := hmono (st.cameFrom n)
        omega
  · -- parentS
    have h0 : st2.gScore (x1, y1) = st.gScore (x1, y1) := by
      have := hmono (x1, y1)
      rw [inv.scoreS] at this ⊢
      omega
    rw [huncf (x1, y1) h0, inv.parentS]
  · -- measure
    have hlen : (st.openSet.erase e0).length = st.openSet.length - 1 :=
      List.length_erase_of_mem hmem
    have hpos : 0 < st.openSet.length := List.length_pos_of_mem hmem
    unfold aStarMeasure
    omega

/-- Main induction for the A* loop on an all-Void grid: from any invariant
state with adequate fuel, the loop terminates by popping the goal, and the
goal's score is then exactly `5 * M`. -/
theorem aStarLoop_spec (grid : Grid) (width height x1 y1 x2 y2 : ℤ)
    (hvoid : ∀ y x : ℤ, grid y x = 0)
    (hs : 0 ≤ x1 ∧ x1 < width ∧ 0 ≤ y1 ∧ y1 < height)
    (hg : 0 ≤ x2 ∧ x2 < width ∧ 0 ≤ y2 ∧ y2 < height)
    (hM : 5 * manhattanDist x1 y1 x2 y2 < 999999) :
    ∀ (fuel : ℕ) (st : AStarState) (S : Set (ℤ × ℤ)),
      AInv width height x1 y1 x2 y2 st S →
      aStarMeasure width height st < fuel →
      ∃ stF : AStarState,
        aStarLoop grid width height x2 y2 fuel st = some stF
        ∧ stF.gScore (x2, y2) = 5 * manhattanDist x1 y1 x2 y2
        ∧ APost width height x1 y1 x2 y2 stF := by
  intro fuel
  induction fuel with
  | zero =>
    intro st S inv hm
    exact absurd hm (Nat.not_lt_zero _)
  | succ f ih =>
    intro st S inv hm
    obtain ⟨efr, hefr, hfbound⟩ :=
      frontier_exists width height x1 y1 x2 y2 st S inv hs hg hM
    cases hsel : selectMinNode st.openSet with
    | none =>
      exfalso
      rw [selectMinNode_eq_none _ hsel] at hefr
      exact List.not_mem_nil efr hefr
    | some e0 =>
      rw [aStarLoop, hsel]
      dsimp only
      by_cases hgoal : e0.x = x2 ∧ e0.y = y2
      · rw [if_pos hgoal]
        have hmin := selectMinNode_min _ _ hsel efr hefr
        have hmem := selectMinNode_mem _ _ hsel
        have hh := inv.entryH e0 hmem
        obtain ⟨hge0, he0lt⟩ := inv.entryG e0 hmem
        have hh0 : e0.h = 0 := by
          rw [hh, hgoal.1, hgoal.2]
          unfold manhattanDist
          omega
        have hcoords : ((e0.x, e0.y) : ℤ × ℤ) = (x2, y2) := by
          rw [hgoal.1, hgoal.2]
        have hgsc : st.gScore (x2, y2) = 5 * manhattanDist x1 y1 x2 y2 := by
          rw [← hcoords]
          have hF : nodeF e0 ≤ 5 * manhattanDist x1 y1 x2 y2 :=
            le_trans hmin hfbound
          unfold nodeF at hF
          rcases inv.scoreL (e0.x, e0.y) with h9 | ⟨hbc, _⟩
          · omega
          · dsimp only at hbc
            have hMe : manhattanDist x1 y1 e0.x e0.y = manhattanDist x1 y1 x2 y2 := by
              rw [hgoal.1, hgoal.2]
            rw [hMe] at hbc
            omega
        refine ⟨_, rfl, hgsc, ?_⟩
        exact ⟨inv.scoreL, inv.scoreS, inv.scoreInb, inv.parentAdj, inv.parentS⟩
      · rw [if_neg hgoal]
        obtain ⟨S2, inv2, hmeas2⟩ := aStarPop_preserve grid width height x1 y1 x2 y2
          hvoid st S inv e0 hsel hgoal
        exact ih _ S2 inv2 (by omega)

/-- Path reconstruction along optimal `cameFrom` chains: from a cell whose
score is exactly five times its distance from the start, `reconstructGo`
returns the chain down to the start. -/
theorem reconstructGo_spec (width height x1 y1 x2 y2 : ℤ) (st : AStarState)
    (post : APost width height x1 y1 x2 y2 st) :
    ∀ j : ℕ, ∀ n : ℤ × ℤ,
      st.gScore n = 5 * j → manhattanDist x1 y1 n.1 n.2 = j → 5 * j < 999999 →
      ∀ fuel : ℕ, j + 2 ≤ fuel →
      ∃ l : List (ℤ × ℤ), reconstructGo st.cameFrom fuel n.1 n.2 = l
        ∧ l.length = j + 1 ∧ l.head? = some n ∧ l.getLast? = some (x1, y1) := by
  intro j
  induction j with
  | zero =>
    intro n hgsc hd h999 fuel hfuel
    have hn : n = (x1, y1) := by
      unfold manhattanDist at hd
      exact Prod.ext (show n.1 = x1 by omega) (show n.2 = y1 by omega)
    subst hn
    have hb := post.scoreInb (x1, y1) (by rw [post.scoreS]; omega)
    dsimp only at hb
    obtain ⟨f1, rfl⟩ : ∃ f1, fuel = f1 + 1 := ⟨fuel - 1, by omega⟩
    rw [reconstructGo]
    rw [if_neg (show ¬((x1, y1).1 = -1) by dsimp only; omega)]
    rw [post.parentS]
    obtain ⟨f2, rfl⟩ : ∃ f2, f1 = f2 + 1 := ⟨f1 - 1, by omega⟩
    rw [reconstructGo]
    rw [if_pos (show ((-1 : ℤ), (-1 : ℤ)).1 = -1 from rfl)]
    refine ⟨[((x1, y1).1, (x1, y1).2)], rfl, rfl, ?_, ?_⟩ <;> simp
  | succ j ihj =>
    intro n hgsc hd h999 fuel hfuel
    have hns : n ≠ (x1, y1) := by
      intro he
      rw [he, post.scoreS] at hgsc
      omega
    have hlt : st.gScore n < 999999 := by omega
    obtain ⟨⟨d, hdd, hcf⟩, hpar⟩ := post.parentAdj n hns hlt
    have hadj := manhattan_adj x1 y1 n.1 n.2 d hdd
    have hp1 : (st.cameFrom n).1 = n.1 + d.1 := by rw [hcf]
    have hp2 : (st.cameFrom n).2 = n.2 + d.2 := by rw [hcf]
    have hgp : st.gScore (st.cameFrom n) + 5 ≤ 5 * (j + 1) := by omega
    have hgp999 : st.gScore (st.cameFrom n) < 999999 := by omega
    rcases post.scoreL (st.cameFrom n) with ha | ⟨hb, _⟩
    · omega
    · rw [hp1, hp2] at hb
      have hMp : manhattanDist x1 y1 (st.cameFrom n).1 (st.cameFrom n).2 = j := by
        rw [hp1, hp2]
        omega
      have hgpe : st.gScore (st.cameFrom n) = 5 * j := by
        rw [hp1, hp2] at hMp
        omega
      obtain ⟨f1, rfl⟩ : ∃ f1, fuel = f1 + 1 := ⟨fuel - 1, by omega⟩
      rw [reconstructGo]
      have hnb := post.scoreInb n hlt
      rw [if_neg (show ¬(n.1 = -1) by omega)]
      obtain ⟨l2, hl2, hlen, hhead, hlast⟩ :=
        ihj (st.cameFrom n) hgpe hMp (by omega) f1 (by omega)
      have heta : ((n.1, n.2) : ℤ × ℤ) = n := rfl
      rw [heta, hl2]
      refine ⟨(n.1, n.2) :: l2, rfl, ?_, ?_, ?_⟩
      · simp [hlen]
      · simp
      · cases l2 with
        | nil =>
          exfalso
          simp at hlen
        | cons b t =>
          rw [List.getLast?_cons_cons]
          exact hlast

/-- The initial search state of `findShortestPath` satisfies the invariant. -/
theorem aStarInit_inv (width height x1 y1 x2 y2 : ℤ)
    (hs : 0 ≤ x1 ∧ x1 < width ∧ 0 ≤ y1 ∧ y1 < height) :
    AInv width height x1 y1 x2 y2
      { gScore := Function.update (fun _ => 999999) (x1, y1) 0,
        cameFrom := fun _ => (-1, -1),
        openSet := [⟨x1, y1, 0, manhattanDist x1 y1 x2 y2, -1, -1⟩] } ∅ := by
  refine ⟨?_, ?_, ?_, ?_, ?_, ?_, ?_, ?_, ?_, ?_⟩
  · intro n
    by_cases hn : n = (x1, y1)
    · right
      subst hn
      dsimp only
      rw [Function.update_same]
      constructor
      · unfold manhattanDist
        omega
      · omega
    · left
      dsimp only
      rw [Function.update_noteq hn]
  · dsimp only
    rw [Function.update_same]
  · intro n hlt
    dsimp only at hlt
    by_cases hn : n = (x1, y1)
    · subst hn
      exact hs
    · rw [Function.update_noteq hn] at hlt
      exact absurd hlt (lt_irrefl _)
  · intro e he
    rw [List.mem_singleton.mp he]
  · intro e he
    rw [List.mem_singleton.mp he]
    constructor
    · dsimp only
      rw [Function.update_same]
    · dsimp only
      omega
  · intro n hlt
    dsimp only at hlt
    by_cases hn : n = (x1, y1)
    · right
      refine ⟨⟨x1, y1, 0, manhattanDist x1 y1 x2 y2, -1, -1⟩,
        List.mem_singleton_self _, ?_, ?_⟩
      · rw [hn]
      · dsimp only
        rw [hn, Function.update_same]
    · rw [Function.update_noteq hn] at hlt
      exact absurd hlt (lt_irrefl _)
  · intro m hm
    exact absurd hm (Set.not_mem_empty m)
  · exact Set.not_mem_empty _
  · intro n hns hlt
    dsimp only at hlt
    rw [Function.update_noteq hns] at hlt
    exact absurd hlt (lt_irrefl _)
  · rfl

/-- The initial measure is below the fuel `findShortestPath` supplies. -/
theorem aStarInit_measure (width height x1 y1 x2 y2 : ℤ)
    (hs : 0 ≤ x1 ∧ x1 < width ∧ 0 ≤ y1 ∧ y1 < height) :
    aStarMeasure width height
      { gScore := Function.update (fun _ => 999999) (x1, y1) 0,
        cameFrom := fun _ => (-1, -1),
        openSet := [⟨x1, y1, 0, manhattanDist x1 y1 x2 y2, -1, -1⟩] }
      < aStarFuel width height := by
  unfold aStarMeasure aStarFuel
  dsimp only
  have hmem : ((x1, y1) : ℤ × ℤ) ∈ rectCells width height := by
    rw [mem_rectCells]
    exact hs
  rw [Finset.sum_update_of_mem hmem, Finset.sum_const, smul_eq_mul]
  have hcard : (rectCells width height \ {(x1, y1)}).card
      = width.toNat * height.toNat - 1 := by
    rw [Finset.card_sdiff (Finset.singleton_subset_iff.mpr hmem),
      Finset.card_singleton, rectCells_card]
  have hpos : 1 ≤ width.toNat * height.toNat := by
    have hc := Finset.card_pos.mpr ⟨_, hmem⟩
    rw [rectCells_card] at hc
    omega
  rw [hcard]
  set A := width.toNat * height.toNat with hA
  simp only [List.length_singleton]
  omega

/-- **C6** (amended A* optimality): on an all-Void grid with in-bounds start
and goal whose scaled distance stays below the 999999 sentinel, the search
pops the goal with score exactly `5 * Manhattan` and the returned path has
`Manhattan + 1` coordinates from start to goal. -/
theorem findShortestPath_optimal_amended (grid : Grid) (x1 y1 x2 y2 width height : ℤ)
    (hvoid : ∀ y x : ℤ, grid y x = 0)
    (hs : 0 ≤ x1 ∧ x1 < width ∧ 0 ≤ y1 ∧ y1 < height)
    (hg : 0 ≤ x2 ∧ x2 < width ∧ 0 ≤ y2 ∧ y2 < height)
    (hM : 5 * manhattanDist x1 y1 x2 y2 < 999999) :
    ∃ st : AStarState,
      aStarLoop grid width height x2 y2 (aStarFuel width height)
        { gScore := Function.update (fun _ => 999999) (x1, y1) 0,
          cameFrom := fun _ => (-1, -1),
          openSet := [⟨x1, y1, 0, manhattanDist x1 y1 x2 y2, -1, -1⟩] } = some st
      ∧ st.gScore (x2, y2) = 5 * manhattanDist x1 y1 x2 y2
      ∧ (findShortestPath grid x1 y1 x2 y2 width height).length
          = manhattanDist x1 y1 x2 y2 + 1
      ∧ (findShortestPath grid x1 y1 x2 y2 width height).head? = some (x1, y1)
      ∧ (findShortestPath grid x1 y1 x2 y2 width height).getLast? = some (x2, y2) := by
  obtain ⟨stF, hloop, hgsc, post⟩ := aStarLoop_spec grid width height x1 y1 x2 y2
    hvoid hs hg hM (aStarFuel width height) _ ∅
    (aStarInit_inv width height x1 y1 x2 y2 hs)
    (aStarInit_measure width height x1 y1 x2 y2 hs)
  obtain ⟨l, hl, hlen, hhead, hlast⟩ :=
    reconstructGo_spec width height x1 y1 x2 y2 stF post
      (manhattanDist x1 y1 x2 y2) (x2, y2) hgsc rfl hM
      (stF.gScore (x2, y2) + 2) (by rw [hgsc]; omega)
  have hl2 : reconstructGo stF.cameFrom (stF.gScore (x2, y2) + 2) x2 y2 = l := hl
  have hpath : findShortestPath grid x1 y1 x2 y2 width height
      = (reconstructGo stF.cameFrom (stF.gScore (x2, y2) + 2) x2 y2).reverse := by
    unfold findShortestPath
    dsimp only
    rw [hloop]
  refine ⟨stF, hloop, hgsc, ?_, ?_, ?_⟩
  · rw [hpath, hl2, List.length_reverse, hlen]
  · rw [hpath, hl2, List.head?_reverse, hlast]
  · rw [hpath, hl2, List.getLast?_reverse, hhead]

theorem findShortestPath_optimal_amended_witness :
    ∃ st : AStarState,
      aStarLoop voidGrid 2 2 1 1 (aStarFuel 2 2)
        { gScore := Function.update (fun _ => 999999) ((0 : ℤ), (0 : ℤ)) 0,
          cameFrom := fun _ => (-1, -1),
          openSet := [⟨0, 0, 0, manhattanDist 0 0 1 1, -1, -1⟩] } = some st
      ∧ st.gScore (1, 1) = 5 * manhattanDist 0 0 1 1
      ∧ (findShortestPath voidGrid 0 0 1 1 2 2).length = manhattanDist 0 0 1 1 + 1
      ∧ (findShortestPath voidGrid 0 0 1 1 2 2).head? = some (0, 0)
      ∧ (findShortestPath voidGrid 0 0 1 1 2 2).getLast? = some (1, 1) :=
  findShortestPath_optimal_amended voidGrid 0 0 1 1 2 2 (fun _ _ => rfl)
    (by norm_num) (by norm_num) (by norm_num [manhattanDist])

theorem aStarRelax_oob (grid : Grid) (width height x2 y2 : ℤ) (cur : ℤ × ℤ)
    (st : AStarState) (d : ℤ × ℤ)
    (h : ¬(0 ≤ cur.1 + d.1 ∧ cur.1 + d.1 < width ∧ 0 ≤ cur.2 + d.2
      ∧ cur.2 + d.2 < height)) :
    aStarRelax grid width height x2 y2 cur st d = st := by
  unfold aStarRelax
  dsimp only
  rw [if_neg h]

theorem aStarRelax_noUpdate (width height x2 y2 : ℤ) (cur : ℤ × ℤ)
    (st : AStarState) (d : ℤ × ℤ)
    (h : ¬(st.gScore cur + 5 < st.gScore (cur.1 + d.1, cur.2 + d.2))) :
    aStarRelax voidGrid width height x2 y2 cur st d = st := by
  unfold aStarRelax
  dsimp only
  by_cases hb : 0 ≤ cur.1 + d.1 ∧ cur.1 + d.1 < width ∧ 0 ≤ cur.2 + d.2
      ∧ cur.2 + d.2 < height
  · rw [if_pos hb]
    rw [show voidGrid (cur.2 + d.2) (cur.1 + d.1) = 0 from rfl]
    rw [if_neg (by decide : ¬((0 : ℕ) = 1))]
    rw [if_neg h]
  · rw [if_neg hb]

theorem aStarRelax_update (width height x2 y2 : ℤ) (cur : ℤ × ℤ)
    (st : AStarState) (d : ℤ × ℤ)
    (hb : 0 ≤ cur.1 + d.1 ∧ cur.1 + d.1 < width ∧ 0 ≤ cur.2 + d.2
      ∧ cur.2 + d.2 < height)
    (h : st.gScore cur + 5 < st.gScore (cur.1 + d.1, cur.2 + d.2)) :
    aStarRelax voidGrid width height x2 y2 cur st d
      = { gScore := Function.update st.gScore (cur.1 + d.1, cur.2 + d.2)
            (st.gScore cur + 5),
          cameFrom := Function.update st.cameFrom (cur.1 + d.1, cur.2 + d.2) cur,
          openSet := st.openSet ++ [⟨cur.1 + d.1, cur.2 + d.2, st.gScore cur + 5,
            manhattanDist (cur.1 + d.1) (cur.2 + d.2) x2 y2, cur.1, cur.2⟩] } := by
  unfold aStarRelax
  dsimp only
  rw [if_pos hb]
  rw [show voidGrid (cur.2 + d.2) (cur.1 + d.1) = 0 from rfl]
  rw [if_neg (by decide : ¬((0 : ℕ) = 1))]
  rw [if_pos h]

/-- On the 1 × 200001 all-Void strip with goal at x = 200000, the search
marches right with scores 0, 5, 10, …; once the tentative score 5·(k+1)
reaches the 999999 sentinel the relaxation is rejected, the open set drains,
and the loop returns `none`. -/
theorem aStarDrain :
    ∀ fuel : ℕ, ∀ k : ℕ, k ≤ 199999 → 200001 - k ≤ fuel →
    ∀ (cf : ℤ × ℤ → ℤ × ℤ) (px py : ℤ),
    aStarLoop voidGrid 200001 1 200000 0 fuel
      { gScore := fun n : ℤ × ℤ => if n.2 = 0 ∧ 0 ≤ n.1 ∧ n.1 ≤ ((k : ℕ) : ℤ)
          then 5 * n.1.toNat else 999999,
        cameFrom := cf,
        openSet := [⟨((k : ℕ) : ℤ), 0, 5 * k, 200000 - k, px, py⟩] } = none := by
  intro fuel
  induction fuel with
  | zero =>
    intro k hk hf cf px py
    exact absurd hf (by omega)
  | succ f ih =>
    intro k hk hf cf px py
    rw [aStarLoop]
    dsimp only
    rw [show selectMinNode [(⟨((k : ℕ) : ℤ), 0, 5 * k, 200000 - k, px, py⟩ : AStarNode)]
      = some ⟨((k : ℕ) : ℤ), 0, 5 * k, 200000 - k, px, py⟩ from rfl]
    dsimp only
    rw [if_neg (show ¬(((k : ℕ) : ℤ) = 200000 ∧ (0 : ℤ) = 0) by omega)]
    rw [List.erase_cons_head]
    rw [show dirs4 = [(-1, 0), (1, 0), (0, -1), (0, 1)] from rfl]
    rw [List.foldl_cons, List.foldl_cons, List.foldl_cons, List.foldl_cons,
      List.foldl_nil]
    -- step 1: left neighbour — out of bounds (k = 0) or already better
    have hstep1 : aStarRelax voidGrid 200001 1 200000 0 (((k : ℕ) : ℤ), 0)
        { gScore := (fun n : ℤ × ℤ => if n.2 = 0 ∧ 0 ≤ n.1 ∧ n.1 ≤ ((k : ℕ) : ℤ)
                then 5 * n.1.toNat else 999999),
          cameFrom := cf, openSet := [] } (-1, 0)
        = { gScore := (fun n : ℤ × ℤ => if n.2 = 0 ∧ 0 ≤ n.1 ∧ n.1 ≤ ((k : ℕ) : ℤ)
                then 5 * n.1.toNat else 999999),
            cameFrom := cf, openSet := [] } := by
      by_cases hk0 : k = 0
      · exact aStarRelax_oob voidGrid 200001 1 200000 0 _ _ _
          (by dsimp only; omega)
      · exact aStarRelax_noUpdate 200001 1 200000 0 _ _ _
          (by dsimp only; split_ifs <;> omega)
    rw [hstep1]
    by_cases hklast : k = 199999
    · -- step 2 rejected by the sentinel: the open set stays empty
      rw [aStarRelax_noUpdate 200001 1 200000 0 _ _ (1, 0)
        (by dsimp only; split_ifs <;> omega)]
      rw [aStarRelax_oob voidGrid 200001 1 200000 0 _ _ (0, -1)
        (by dsimp only; omega)]
      rw [aStarRelax_oob voidGrid 200001 1 200000 0 _ _ (0, 1)
        (by dsimp only; omega)]
      obtain ⟨f2, rfl⟩ : ∃ f2, f = f2 + 1 := ⟨f - 1, by omega⟩
      rfl
    · -- step 2 accepted: recurse at k + 1
      rw [aStarRelax_update 200001 1 200000 0 _ _ (1, 0)
        (by dsimp only; omega)
        (by dsimp only; split_ifs <;> omega)]
      dsimp only
      rw [aStarRelax_oob voidGrid 200001 1 200000 0 _ _ (0, -1)
        (by dsimp only; omega)]
      rw [aStarRelax_oob voidGrid 200001 1 200000 0 _ _ (0, 1)
        (by dsimp only; omega)]
      have hgeq : Function.update
          (fun n : ℤ × ℤ => if n.2 = 0 ∧ 0 ≤ n.1 ∧ n.1 ≤ ((k : ℕ) : ℤ)
            then 5 * n.1.toNat else 999999)
          (((k : ℕ) : ℤ) + 1, (0 : ℤ) + 0)
          ((if ((0 : ℤ) = 0 ∧ 0 ≤ ((k : ℕ) : ℤ) ∧ ((k : ℕ) : ℤ) ≤ ((k : ℕ) : ℤ))
            then 5 * ((k : ℕ) : ℤ).toNat else 999999) + 5)
          = (fun n : ℤ × ℤ => if n.2 = 0 ∧ 0 ≤ n.1 ∧ n.1 ≤ (((k + 1 : ℕ)) : ℤ)
            then 5 * n.1.toNat else 999999) := by
        rw [if_pos (show (0 : ℤ) = 0 ∧ 0 ≤ ((k : ℕ) : ℤ) ∧ ((k : ℕ) : ℤ) ≤ ((k : ℕ) : ℤ)
          from ⟨rfl, by omega, le_refl _⟩)]
        funext n
        obtain ⟨a, b⟩ := n
        rw [Function.update_apply]
        simp only [Prod.mk.injEq]
        split_ifs <;> omega
      have hentry : (⟨((k : ℕ) : ℤ) + 1, (0 : ℤ) + 0,
          (if ((0 : ℤ) = 0 ∧ 0 ≤ ((k : ℕ) : ℤ) ∧ ((k : ℕ) : ℤ) ≤ ((k : ℕ) : ℤ))
            then 5 * ((k : ℕ) : ℤ).toNat else 999999) + 5,
          manhattanDist (((k : ℕ) : ℤ) + 1) ((0 : ℤ) + 0) 200000 0,
          ((k : ℕ) : ℤ), (0 : ℤ)⟩ : AStarNode)
          = ⟨(((k + 1 : ℕ)) : ℤ), 0, 5 * (k + 1), 200000 - (k + 1), ((k : ℕ) : ℤ), 0⟩ := by
        rw [if_pos (show (0 : ℤ) = 0 ∧ 0 ≤ ((k : ℕ) : ℤ) ∧ ((k : ℕ) : ℤ) ≤ ((k : ℕ) : ℤ)
          from ⟨rfl, by omega, le_refl _⟩)]
        unfold manhattanDist
        simp only [AStarNode.mk.injEq]
        refine ⟨by omega, by omega, by omega, by omega, trivial, trivial⟩
      rw [hgeq, hentry]
      exact ih (k + 1) (by omega) (by omega) _ _ _

/-- The concrete initial state of `findShortestPath` on the `200001 × 1` strip
from `(0, 0)` to `(200000, 0)` drains for any sufficient fuel: it is the
`k = 0` instance of the drain invariant. -/
theorem aStarDrain0 (fuel : ℕ) (hf : 200001 ≤ fuel) :
    aStarLoop voidGrid 200001 1 200000 0 fuel
      { gScore := Function.update (fun _ => 999999) ((0 : ℤ), (0 : ℤ)) 0,
        cameFrom := fun _ => (-1, -1),
        openSet := [⟨0, 0, 0, manhattanDist 0 0 200000 0, -1, -1⟩] } = none := by
  have hstart : (Function.update (fun _ : ℤ × ℤ => (999999 : ℕ)) ((0 : ℤ), (0 : ℤ)) 0)
      = (fun n : ℤ × ℤ => if n.2 = 0 ∧ 0 ≤ n.1 ∧ n.1 ≤ (((0 : ℕ)) : ℤ)
          then 5 * n.1.toNat else 999999) := by
    funext n
    obtain ⟨a, b⟩ := n
    rw [Function.update_apply]
    simp only [Prod.mk.injEq]
    split_ifs <;> omega
  have hentry : (⟨(0 : ℤ), (0 : ℤ), 0, manhattanDist 0 0 200000 0,
        (-1 : ℤ), (-1 : ℤ)⟩ : AStarNode)
      = ⟨(((0 : ℕ)) : ℤ), 0, 5 * 0, 200000 - 0, -1, -1⟩ := by
    rw [show (((0 : ℕ)) : ℤ) = (0 : ℤ) from by omega]
    rw [show (5 * 0 : ℕ) = 0 from by omega]
    rw [show manhattanDist 0 0 200000 0 = 200000 - 0 from by
      unfold manhattanDist; omega]
  rw [hstart, hentry]
  exact aStarDrain fuel 0 (by omega) (by omega) _ (-1) (-1)

/-- `findShortestPath` returns the empty path whenever the A* loop exhausts
its open set and returns `none`. -/
theorem findShortestPath_eq_nil (grid : Grid) (x1 y1 x2 y2 width height : ℤ)
    (h : aStarLoop grid width height x2 y2 (aStarFuel width height)
      { gScore := Function.update (fun _ => 999999) (x1, y1) 0,
        cameFrom := fun _ => (-1, -1),
        openSet := [⟨x1, y1, 0, manhattanDist x1 y1 x2 y2, -1, -1⟩] } = none) :
    findShortestPath grid x1 y1 x2 y2 width height = [] := by
  unfold findShortestPath
  dsimp only
  rw [h]

/-! ### Claim C5 -/

/-- C5: for a workable configuration (positive room sizes that fit the domain
with margins), every accepted room's cells lie inside
`[1, width-2] × [1, height-2]`, and the 1-tile-expanded rectangles of two
distinct accepted rooms occupy disjoint cell sets. -/
theorem generateRooms_inside_and_disjoint (rngNext : ℕ → ℕ × ℕ) (cfg : DungeonConfig)
    (width height : ℤ) (st : ℕ) (h1 : 1 ≤ cfg.min_room_size)
    (h2 : cfg.min_room_size ≤ cfg.max_room_size)
    (h3 : cfg.max_room_size + 3 ≤ width) (h4 : cfg.max_room_size + 3 ≤ height) :
    (∀ r ∈ (generateRooms rngNext cfg width height st).1, ∀ p : ℤ × ℤ,
      r.containsCell p → 1 ≤ p.1 ∧ p.1 ≤ width - 2 ∧ 1 ≤ p.2 ∧ p.2 ≤ height - 2)
    ∧ (generateRooms rngNext cfg width height st).1.Pairwise fun a b =>
        ∀ p : ℤ × ℤ, ¬(a.expandOne.containsCell p ∧ b.expandOne.containsCell p) := by
  obtain ⟨hbnd, hpair⟩ :=
    generateRoomsGo_inv rngNext cfg width height h1 h2 h3 h4
      (cfg.room_count * 10).toNat [] st (by simp) (by simp)
  constructor
  · intro r hr p hpc
    have hin := hbnd r hr
    unfold roomInBounds at hin
    unfold Room.containsCell at hpc
    omega
  · exact hpair.imp (fun hsep => sep_expand_disjoint _ _ hsep)

/-- C5 witness: concrete workable configuration. -/
theorem generateRooms_inside_and_disjoint_witness :
    ((1 : ℤ) ≤ 1 ∧ (1 : ℤ) ≤ 1 ∧ (1 : ℤ) + 3 ≤ 4 ∧ (1 : ℤ) + 3 ≤ 4) ∧
    ((∀ r ∈ (generateRooms (fun s => (0, s))
        { room_count := 1, min_room_size := 1, max_room_size := 1 } 4 4 0).1,
      ∀ p : ℤ × ℤ, r.containsCell p → 1 ≤ p.1 ∧ p.1 ≤ 4 - 2 ∧ 1 ≤ p.2 ∧ p.2 ≤ 4 - 2)
    ∧ (generateRooms (fun s => (0, s))
        { room_count := 1, min_room_size := 1, max_room_size := 1 } 4 4 0).1.Pairwise
        fun a b => ∀ p : ℤ × ℤ,
          ¬(a.expandOne.containsCell p ∧ b.expandOne.containsCell p)) :=
  ⟨by decide,
    generateRooms_inside_and_disjoint (fun s => (0, s))
      { room_count := 1, min_room_size := 1, max_room_size := 1 } 4 4 0
      (by decide) (by decide) (by decide) (by decide)⟩

/-! ### Claim C2 -/

/-- C2 counterexample: `generateDungeonMap` performs no width/height
validation.  With a non-null map, zero width and height (non-positive), an
always-true callback and a configuration whose optional steps are off, the
call returns `true`, contradicting the claim that both entry points return
false whenever the requested width or height is non-positive. -/
theorem dungeonNoDimCheck_cex :
    (generateDungeonMap (fun _ => 0) (fun _ _ _ => 0) (fun s => (s, s))
      (fun _ _ => true) ⟨0, 0⟩ (some emptyMap)
      { room_count := 0, generate_caves := false, add_dead_ends := false,
        add_intersections := false, connect_all_rooms := false }
      0 0 "s" 0 0).ok = true := by
  decide

/-- C2 (amended): `generateIslandMap` returns false — writing nothing — when
the map is null or either dimension is non-positive; `generateDungeonMap`
validates only the null map (its dimension behaviour is refuted by
`dungeonNoDimCheck_cex`). -/
theorem invalidInput_amended (hasher : String → ℕ) (hm : ℕ → ℤ → ℤ → ℚ)
    (noiseAt : ℕ → ℚ → ℚ → ℚ) (rngNext : ℕ → ℕ × ℕ) (cb : Callback) (gs : GenState)
    (m : MapM) (icfg : IslandConfig) (dcfg : DungeonConfig) (width height : ℤ)
    (seed : String) (sx sy : ℤ) :
    (generateIslandMap hasher hm cb gs none icfg width height seed sx sy).ok = false
    ∧ (width ≤ 0 ∨ height ≤ 0 →
        (generateIslandMap hasher hm cb gs (some m) icfg width height seed sx sy).ok = false
        ∧ (generateIslandMap hasher hm cb gs (some m) icfg width height seed sx sy).map = m
        ∧ (generateIslandMap hasher hm cb gs (some m) icfg width height seed sx sy).trace = [])
    ∧ (generateDungeonMap hasher noiseAt rngNext cb gs none dcfg width height seed sx sy).ok
        = false := by
  refine ⟨rfl, fun hbad => ?_, rfl⟩
  simp [generateIslandMap, if_pos hbad]

/-- C2 amended-claim witness at a concrete invalid input (width 0). -/
theorem invalidInput_amended_witness :
    ((0 : ℤ) ≤ 0 ∨ (5 : ℤ) ≤ 0) ∧
      (generateIslandMap (fun _ => 0) (fun _ _ _ => 0) (fun _ _ => true) ⟨0, 0⟩
        (some emptyMap) {} 0 5 "s" 0 0).ok = false :=
  ⟨Or.inl le_rfl,
    ((invalidInput_amended (fun _ => 0) (fun _ _ _ => 0) (fun _ _ _ => 0) (fun s => (s, s))
      (fun _ _ => true) ⟨0, 0⟩ emptyMap {} {} 0 5 "s" 0 0).2.1 (Or.inl le_rfl)).1⟩

/-! ### Claim C1 -/

/-- C1 counterexample: a callback that returns false from the 80% report
onwards.  On a 1×1 island generation with cleanup enabled, the callback
returns false at the (80, 100) invocation made inside `cleanupTerrain` (and at
the final (100, 100) report), yet `generateIslandMap` returns `true` — the
false return aborts only the cleanup subroutine and the final report's result
is ignored, contradicting the claim that a false return at any invocation
makes the entry point return false. -/
theorem islandCancelIgnored_cex :
    (generateIslandMap (fun _ => 0) (fun _ _ _ => 0) (fun cur _ => decide (cur < 80))
      ⟨0, 0⟩ (some emptyMap) {} 1 1 "s" 0 0).ok = true
    ∧ (⟨80, 100, false⟩ : ProgressCall) ∈
      (generateIslandMap (fun _ => 0) (fun _ _ _ => 0) (fun cur _ => decide (cur < 80))
        ⟨0, 0⟩ (some emptyMap) {} 1 1 "s" 0 0).trace := by
  constructor
  · decide
  · decide

/-- C1 (amended): with valid inputs, the island entry point returns false
exactly when the callback fails one of the checkpoints the entry point itself
tests — 0%, 20%, 40%, and 70% when cleanup is enabled; a false return at the
per-1000-tiles tick inside `placeTiles` or at the 80%/90% checks inside
`cleanupTerrain` aborts only that subroutine, and the result of the final 100%
report is ignored.  The dungeon entry point returns false exactly when the
callback fails one of its 30%, 60%, 80% checkpoints. -/
theorem progressCancellation_amended (hasher : String → ℕ) (hm : ℕ → ℤ → ℤ → ℚ)
    (noiseAt : ℕ → ℚ → ℚ → ℚ) (rngNext : ℕ → ℕ × ℕ) (cb : Callback) (gs : GenState)
    (m : MapM) (icfg : IslandConfig) (dcfg : DungeonConfig) (width height : ℤ)
    (seed : String) (sx sy : ℤ) (hw : 0 < width) (hh : 0 < height) :
    (generateIslandMap hasher hm cb gs (some m) icfg width height seed sx sy).ok
      = (cb 0 100 && cb 20 100 && cb 40 100 && (!icfg.enable_cleanup || cb 70 100))
    ∧ (generateDungeonMap hasher noiseAt rngNext cb gs (some m) dcfg width height seed sx sy).ok
      = (cb 30 100 && cb 60 100 && cb 80 100) := by
  constructor
  · have hdim : ¬(width ≤ 0 ∨ height ≤ 0) := by omega
    simp only [generateIslandMap, if_neg hdim]
    cases h0 : cb 0 100 <;> cases h20 : cb 20 100 <;> cases h40 : cb 40 100 <;>
      cases h70 : cb 70 100 <;> cases hcl : icfg.enable_cleanup <;>
        simp [h0, h20, h40, h70, hcl]
  · simp only [generateDungeonMap]
    cases h30 : cb 30 100 <;> cases h60 : cb 60 100 <;> cases h80 : cb 80 100 <;>
      simp [h30, h60, h80]

/-- C1 amended-claim witness: concrete valid dimensions and a callback
cancelling from 40% on; the island call returns false and the dungeon call
returns true (its checkpoints are 30/60/80, none of which fails before 40). -/
theorem progressCancellation_amended_witness :
    (0 : ℤ) < 1 ∧ (0 : ℤ) < 1 ∧
    (generateIslandMap (fun _ => 0) (fun _ _ _ => 0) (fun cur _ => decide (cur < 40))
      ⟨0, 0⟩ (some emptyMap) {} 1 1 "s" 0 0).ok
      = ((fun (cur : ℤ) (_ : ℤ) => decide (cur < 40)) 0 100
          && (fun (cur : ℤ) (_ : ℤ) => decide (cur < 40)) 20 100
          && (fun (cur : ℤ) (_ : ℤ) => decide (cur < 40)) 40 100
          && (!(({} : IslandConfig).enable_cleanup)
              || (fun (cur : ℤ) (_ : ℤ) => decide (cur < 40)) 70 100)) :=
  ⟨by decide, by decide,
    (progressCancellation_amended (fun _ => 0) (fun _ _ _ => 0) (fun _ _ _ => 0)
      (fun s => (s, s)) (fun cur _ => decide (cur < 40)) ⟨0, 0⟩ emptyMap {} {} 1 1 "s" 0 0
      (by decide) (by decide)).1⟩

/-! ### Claim C4 -/

/-- C4: determinism.  Both entry points reseed from the seed string before
doing anything else, so their entire output — in particular the ground-id
layout — is a function of the seed string, the configuration, the dimensions,
the origin and the (deterministic) noise/RNG/hash oracles alone; the
generator-object state left over from previous calls does not influence it.
Two calls with the same arguments against freshly-initialized host maps
therefore produce identical results. -/
theorem generation_deterministic (hasher : String → ℕ) (hm : ℕ → ℤ → ℤ → ℚ)
    (noiseAt : ℕ → ℚ → ℚ → ℚ) (rngNext : ℕ → ℕ × ℕ) (cb : Callback)
    (icfg : IslandConfig) (dcfg : DungeonConfig) (width height : ℤ)
    (seed : String) (sx sy : ℤ) (gs1 gs2 : GenState) :
    generateIslandMap hasher hm cb gs1 (some emptyMap) icfg width height seed sx sy
      = generateIslandMap hasher hm cb gs2 (some emptyMap) icfg width height seed sx sy
    ∧ generateDungeonMap hasher noiseAt rngNext cb gs1 (some emptyMap) dcfg
        width height seed sx sy
      = generateDungeonMap hasher noiseAt rngNext cb gs2 (some emptyMap) dcfg
        width height seed sx sy :=
  ⟨rfl, rfl⟩

/-! ### Claim C9 -/

/-- `applyFalloff` is monotone in the distance for a nonnegative exponent. -/
theorem applyFalloff_mono (t1 t2 p : ℝ) (h0 : 0 ≤ t1) (h12 : t1 ≤ t2) (hp : 0 ≤ p) :
    applyFalloff t1 p ≤ applyFalloff t2 p := by
  unfold applyFalloff
  rw [if_neg (not_lt.mpr h0), if_neg (not_lt.mpr (h0.trans h12))]
  by_cases h2 : 1 < t2
  · rw [if_pos h2]
    by_cases h1 : 1 < t1
    · rw [if_pos h1]
    · rw [if_neg h1]
      exact Real.rpow_le_one h0 (not_lt.mp h1) hp
  · rw [if_neg h2]
    have h1 : ¬1 < t1 := by intro h; exact h2 (h.trans_le h12)
    rw [if_neg h1]
    exact Real.rpow_le_rpow h0 h12 hp

/-- C9: on an all-1.0 height field, the masked value is non-increasing in the
cell's Euclidean distance from the (integer-cast) domain centre, for
`island_falloff ≥ 1` and a positive `island_size`. -/
theorem applyIslandMask_radial_monotone (cfg : IslandConfig) (width height : ℤ)
    (hfall : (1 : ℚ) ≤ cfg.island_falloff) (hsize : (0 : ℚ) < cfg.island_size)
    (xa ya xb yb : ℤ)
    (hxa : 0 ≤ xa ∧ xa < width) (hya : 0 ≤ ya ∧ ya < height)
    (hxb : 0 ≤ xb ∧ xb < width) (hyb : 0 ≤ yb ∧ yb < height)
    (hd : getDistance xa ya (width / 2) (height / 2)
        ≤ getDistance xb yb (width / 2) (height / 2)) :
    applyIslandMask (fun _ _ => 1) cfg width height xb yb
      ≤ applyIslandMask (fun _ _ => 1) cfg width height xa ya := by
  have hw : (1 : ℤ) ≤ width := by omega
  have hh : (1 : ℤ) ≤ height := by omega
  have hmin : (1 : ℤ) ≤ min width height := by omega
  have hmr : (0 : ℝ) < ((min width height : ℤ) : ℝ) / 2 := by
    have : (1 : ℝ) ≤ ((min width height : ℤ) : ℝ) := by exact_mod_cast hmin
    linarith
  have hs : (0 : ℝ) < (cfg.island_size : ℝ) := by exact_mod_cast hsize
  have hden : (0 : ℝ) < ((min width height : ℤ) : ℝ) / 2 * (cfg.island_size : ℝ) :=
    mul_pos hmr hs
  have hp : (0 : ℝ) ≤ (cfg.island_falloff : ℝ) := by
    have : (1 : ℝ) ≤ (cfg.island_falloff : ℝ) := by exact_mod_cast hfall
    linarith
  unfold applyIslandMask
  dsimp only
  have hda : 0 ≤ getDistance xa ya (width / 2) (height / 2) := Real.sqrt_nonneg _
  have hdiv : getDistance xa ya (width / 2) (height / 2)
        / (((min width height : ℤ) : ℝ) / 2 * (cfg.island_size : ℝ))
      ≤ getDistance xb yb (width / 2) (height / 2)
        / (((min width height : ℤ) : ℝ) / 2 * (cfg.island_size : ℝ)) := by
    gcongr
  have hmono := applyFalloff_mono _ _ (cfg.island_falloff : ℝ)
    (div_nonneg hda hden.le) hdiv hp
  have hsub : (1 : ℝ) - applyFalloff
      (getDistance xb yb (width / 2) (height / 2)
        / (((min width height : ℤ) : ℝ) / 2 * (cfg.island_size : ℝ)))
      (cfg.island_falloff : ℝ)
      ≤ 1 - applyFalloff
      (getDistance xa ya (width / 2) (height / 2)
        / (((min width height : ℤ) : ℝ) / 2 * (cfg.island_size : ℝ)))
      (cfg.island_falloff : ℝ) := by linarith
  exact max_le_max le_rfl (min_le_min le_rfl hsub)

/-- C9 witness: a concrete config (`island_falloff = 1`, `island_size = 1`) on
a 3×3 domain, comparing the centre cell with the corner cell. -/
theorem applyIslandMask_radial_monotone_witness :
    ((1 : ℚ) ≤ (1 : ℚ) ∧ (0 : ℚ) < 1
      ∧ getDistance 1 1 ((3 : ℤ) / 2) ((3 : ℤ) / 2)
          ≤ getDistance 0 0 ((3 : ℤ) / 2) ((3 : ℤ) / 2))
    ∧ applyIslandMask (fun _ _ => 1) { island_falloff := 1, island_size := 1 } 3 3 0 0
        ≤ applyIslandMask (fun _ _ => 1) { island_falloff := 1, island_size := 1 } 3 3 1 1 := by
  have hd : getDistance 1 1 ((3 : ℤ) / 2) ((3 : ℤ) / 2)
      ≤ getDistance 0 0 ((3 : ℤ) / 2) ((3 : ℤ) / 2) := by
    have h1 : getDistance 1 1 ((3 : ℤ) / 2) ((3 : ℤ) / 2) = 0 := by
      unfold getDistance
      norm_num
    have h2 : 0 ≤ getDistance 0 0 ((3 : ℤ) / 2) ((3 : ℤ) / 2) := Real.sqrt_nonneg _
    rw [h1]
    exact h2
  refine ⟨⟨le_rfl, by norm_num, hd⟩, ?_⟩
  exact applyIslandMask_radial_monotone { island_falloff := 1, island_size := 1 } 3 3
    le_rfl (by norm_num) 1 1 0 0 (by omega) (by omega) (by omega) (by omega) hd

/-! ### Claim C3 -/

/-- C3: the code contradicts classification totality.  A successful
`generateIslandMap` run on a 1×1 field with `water_id = 100`,
`ground_id = 200` and cleanup enabled (`min_land_patch_size = 2`) classifies
the single cell as ground; `removeSmallPatches` then replaces the
single-cell ground patch with the hardcoded id 4608
(`tile_id == 4608 ? 4526 : 4608`, source line 413) instead of the configured
water id 100 — the returned map holds a third id that is neither
`config.water_id` nor `config.ground_id`, and the call still returns true. -/
theorem cleanupHardcodedIds_bug :
    (generateIslandMap (fun _ => 0) (fun _ _ _ => 1) (fun _ _ => true)
      ⟨0, 0⟩ (some emptyMap)
      { water_id := 100, ground_id := 200, min_land_patch_size := 2,
        max_water_hole_size := 0, smoothing_passes := 0 }
      1 1 "s" 0 0).ok = true
    ∧ groundIdAt (generateIslandMap (fun _ => 0) (fun _ _ _ => 1) (fun _ _ => true)
      ⟨0, 0⟩ (some emptyMap)
      { water_id := 100, ground_id := 200, min_land_patch_size := 2,
        max_water_hole_size := 0, smoothing_passes := 0 }
      1 1 "s" 0 0).map (0, 0, 7) = some 4608
    ∧ (4608 : ItemId) ≠ 100 ∧ (4608 : ItemId) ≠ 200 := by
  refine ⟨by decide, ?_, by decide, by decide⟩
  norm_num [generateIslandMap, placeTiles, placeTilesGo, cellList, cleanupTerrain,
    removeSmallPatches, removeSmallPatchesGo, floodFillCount, floodFillGo, markVisitedGo,
    bfsStep, replaceGroundAt, fillSmallHoles, smoothCoastline, smoothPass, interiorCells,
    groundIdAt, MapM.getTile, MapM.setTile, emptyMap, oppositeId, dirs4, List.range,
    List.range_succ]

/-! ### Claim C10 -/

/-- C10: the noise samples of the cave overlay are independent of the seed
string.  `generateDungeonMap` replaces the seeded noise object with a
default-constructed one (seed 0) right after reseeding, so two calls that
differ only in their seed strings (and prior generator states) record
identical cave-overlay noise samples, every one made with noise seed 0; the
seed string influences only the RNG-driven steps. -/
theorem caveNoise_seed_independent (hasher : String → ℕ) (noiseAt : ℕ → ℚ → ℚ → ℚ)
    (rngNext : ℕ → ℕ × ℕ) (cb : Callback) (gs1 gs2 : GenState) (m : MapM)
    (cfg : DungeonConfig) (width height : ℤ) (seed1 seed2 : String) (sx sy : ℤ) :
    (generateDungeonMap hasher noiseAt rngNext cb gs1 (some m) cfg width height
        seed1 sx sy).noiseCalls
      = (generateDungeonMap hasher noiseAt rngNext cb gs2 (some m) cfg width height
        seed2 sx sy).noiseCalls
    ∧ ∀ c ∈ (generateDungeonMap hasher noiseAt rngNext cb gs1 (some m) cfg width height
        seed1 sx sy).noiseCalls, c.seedUsed = 0 := by
  constructor
  · simp only [generateDungeonMap]
    cases h30 : cb 30 100 <;> cases h60 : cb 60 100 <;> cases h80 : cb 80 100 <;>
      cases hcv : cfg.generate_caves <;>
        simp [h30, h60, h80, hcv] <;>
          apply caveOverlay_snd_eq
  · simp only [generateDungeonMap]
    cases h30 : cb 30 100 <;> cases h60 : cb 60 100 <;> cases h80 : cb 80 100 <;>
      cases hcv : cfg.generate_caves <;>
        simp [h30, h60, h80, hcv] <;>
          exact fun c hc => caveOverlay_seedUsed noiseAt 0 cfg _ width height c hc

/-! ### Claim C7 -/

/-- **C7**: for every map state and every parameter set, running
`removeSmallPatches` a second time immediately after a first run changes no
tile, because after the first run every remaining 4-connected `tile_id`
component inside the rectangle has size at least `min_size` (no component has
size strictly between `0` and `min_size`). -/
theorem removeSmallPatches_idempotent (m : MapM) (tile_id : ItemId)
    (min_size width height ox oy : ℤ) :
    removeSmallPatches (removeSmallPatches m tile_id min_size width height ox oy)
        tile_id min_size width height ox oy
      = removeSmallPatches m tile_id min_size width height ox oy
    ∧ ∀ p : ℤ × ℤ,
        isTargetCell (removeSmallPatches m tile_id min_size width height ox oy)
          tile_id width height ox oy p →
        min_size ≤ ((comp (removeSmallPatches m tile_id min_size width height ox oy)
          tile_id width height ox oy p).ncard : ℤ) := by
  have hpost := removeSmallPatches_post m tile_id min_size width height ox oy
  refine ⟨?_, hpost⟩
  exact removeSmallPatchesGo_noop tile_id min_size width height ox oy
    (removeSmallPatches m tile_id min_size width height ox oy) hpost
    (cellList width height) ∅ (fun c hc => (mem_cellList width height c).mp hc)

theorem removeSmallPatches_idempotent_witness :
    isTargetCell (removeSmallPatches (MapM.setTile emptyMap (0, 0, 7) ⟨some 4608, []⟩)
        4608 1 1 1 0 0) 4608 1 1 0 0 (0, 0)
    ∧ 1 ≤ ((comp (removeSmallPatches (MapM.setTile emptyMap (0, 0, 7) ⟨some 4608, []⟩)
        4608 1 1 1 0 0) 4608 1 1 0 0 (0, 0)).ncard : ℤ) :=
  ⟨by decide,
    (removeSmallPatches_idempotent (MapM.setTile emptyMap (0, 0, 7) ⟨some 4608, []⟩)
      4608 1 1 1 0 0).2 (0, 0) (by decide)⟩

/-! ### Claim C6 -/

/-- **C6** (counterexample): the claimed optimality fails on large all-Void
grids: with start `(0,0)` and goal `(200000,0)` on a `200001 × 1` strip (both
in bounds), `5 × Manhattan = 1000000` exceeds the `999999` "unset" sentinel
used by `gScore`, so the relaxation `tentative_g < gScore` is rejected, the
open set drains, and `findShortestPath` returns the empty path instead of one
with `Manhattan + 1` coordinates. -/
theorem findShortestPath_sentinel_cex :
    (∀ y x : ℤ, voidGrid y x = 0)
    ∧ (0 ≤ (0 : ℤ) ∧ (0 : ℤ) < 200001 ∧ 0 ≤ (0 : ℤ) ∧ (0 : ℤ) < 1)
    ∧ (0 ≤ (200000 : ℤ) ∧ (200000 : ℤ) < 200001 ∧ 0 ≤ (0 : ℤ) ∧ (0 : ℤ) < 1)
    ∧ findShortestPath voidGrid 0 0 200000 0 200001 1 = []
    ∧ (findShortestPath voidGrid 0 0 200000 0 200001 1).length
        ≠ manhattanDist 0 0 200000 0 + 1 := by
  have hfuel : (200001 : ℕ) ≤ aStarFuel 200001 1 := by
    rw [show aStarFuel 200001 1 = 200001000002 from rfl]
    norm_num
  have hmain : findShortestPath voidGrid 0 0 200000 0 200001 1 = [] :=
    findShortestPath_eq_nil voidGrid 0 0 200000 0 200001 1
      (aStarDrain0 (aStarFuel 200001 1) hfuel)
  refine ⟨fun _ _ => rfl, by norm_num, by norm_num, hmain, ?_⟩
  rw [hmain]
  rw [show manhattanDist 0 0 200000 0 = 200000 from by
    unfold manhattanDist; omega]
  norm_num

end MapGen
